import Mathlib

/-!
# concurrent_tcpstore: the three backend stores, the wire codec and the server

A shallow embedding of the Go sources `tcpstore.go`, `tcpstore_channel.go`,
`tcpstore_haxmap.go` and `tcpstore_lock.go`.

Conventions of the embedding.

* A Go `string` and the contents of a Go `[]byte` are lists of bytes
  (`Fin 256`).  A `[]byte` may also be `nil`, so a slice is an `Option Bytes`
  (`none` is the nil slice, `some []` an empty non-nil slice).
* Slices are modelled by their contents.  Every slice handed to a store is
  taken to own its backing array, as is the case in `processCommand`, which
  converts a freshly read string with `[]byte(value)`.
* `uint64` is a `Nat` below `2^64`, `int64` an `Int` in `[-2^63, 2^63)`;
  conversions and additions wrap explicitly.
* A Go map is a function from keys to `Option`.
* A run-time panic (`index out of range` inside `encoding/binary`,
  `makeslice: len out of range` of `make`) is the result `none` of an
  operation.  The outcome `panicked` of a call stands for the end of the
  process, by a panic or by a fatal error of the runtime.
* Each backend is modelled at its serialization point: the owner loop of the
  channel store, the entry lock of the concurrent store, the map lock of the
  lock store.  A method body runs as one step.  In the concurrent store
  `cond.Wait()` parks the caller and ends the step, and a condition variable
  is the number of goroutines parked on it.  In the lock store `cond.Wait()`
  unlocks a mutex that is not locked for writing, which ends the process.
* The reading side of a connection is the `bufio.Reader` the handler makes on
  it: the bytes its buffer holds, and the bytes the connection delivers
  after them, arrival by arrival.  One read hands out what the buffer holds,
  at most as many bytes as asked for, and fills an empty buffer with one read
  of the connection.  The bytes written back are a list; writes append and do
  not fail.
* `xxhash.Sum64String` is a parameter `xxh64 : Key → Nat`.
* The connection handler logs every backend call it makes, with the index of
  the shard; the log is there for the statements only.
-/

namespace TcpStore

deriving instance DecidableEq for Except

/-! ## Bytes, slices and machine integers -/

/-- One byte. -/
abbrev Byte := Fin 256

/-- The contents of a Go string or of a non-nil byte slice. -/
abbrev Bytes := List Byte

/-- A Go `string` used as a key. -/
abbrev Key := Bytes

/-- A Go `[]byte`: `none` is the nil slice. -/
abbrev Slice := Option Bytes

/-- Go `len(s)` of a slice. -/
def Slice.len (s : Slice) : Nat :=
  match s with
  | none => 0
  | some bs => bs.length

/-- The modulus of 64-bit machine arithmetic. -/
def two64 : Nat := 2 ^ 64

/-- Go `uint64(i)` for an `int64` value `i`. -/
def toUint64 (i : Int) : Nat := (i % (two64 : Int)).toNat

/-- Go `int64(n)` for a `uint64` value `n`. -/
def toInt64 (n : Nat) : Int :=
  if n % two64 < 2 ^ 63 then ((n % two64 : Nat) : Int) else ((n % two64 : Nat) : Int) - (two64 : Int)

/-- Addition of two `int64` values as the machine does it. -/
def addInt64 (a b : Int) : Int := toInt64 (toUint64 (a + b))

/-- Addition of two `uint64` values as the machine does it. -/
def addUint64 (a b : Nat) : Nat := (a + b) % two64

/-- The byte of `v` at position `i`, least significant first. -/
def byteAt (v : Nat) (i : Nat) : Byte := ⟨v / 256 ^ i % 256, Nat.mod_lt _ (by decide)⟩

/-- The eight bytes `binary.LittleEndian.PutUint64` writes for `v`. -/
def le64 (v : Nat) : Bytes :=
  [byteAt v 0, byteAt v 1, byteAt v 2, byteAt v 3, byteAt v 4, byteAt v 5, byteAt v 6, byteAt v 7]

/-- The number a list of bytes spells, least significant byte first. -/
def leValue : Bytes → Nat
  | [] => 0
  | b :: bs => b.val + 256 * leValue bs

/-- Go `binary.LittleEndian.Uint64(b)`: the first eight bytes of `b`; panics
(`none`) when `b` has fewer than eight bytes. -/
def leUint64 (b : Slice) : Option Nat :=
  if 8 ≤ b.len then some (leValue ((b.getD []).take 8)) else none

/-- Go `binary.LittleEndian.PutUint64(b, v)`: overwrites the first eight bytes
of `b` and keeps the rest; panics (`none`) when `b` has fewer than eight
bytes. -/
def lePutUint64 (b : Slice) (v : Nat) : Option Slice :=
  if 8 ≤ b.len then some (some (le64 v ++ (b.getD []).drop 8)) else none

/-- Go `int64ToBytes` of `tcpstore.go`: a fresh 8-byte slice. -/
def int64ToBytes (i : Int) : Slice := some (le64 (toUint64 i))

/-- Go `bytesToInt64` of `tcpstore.go`; panics on fewer than eight bytes. -/
def bytesToInt64 (b : Slice) : Option Int := (leUint64 b).map toInt64

/-! ## Errors and results -/

/-- Go `QueryType` of `tcpstore.go`, in `iota` order. -/
inductive QueryType
  | VALIDATE | SET | COMPARE_SET | GET | ADD | CHECK | WAIT | GETNUMKEYS
  | DELETE_KEY | APPEND | MULTI_GET | MULTI_SET | CANCEL_WAIT | PING
deriving DecidableEq, Repr

/-- The errors the backends build with `fmt.Errorf`. -/
inductive StoreError
  /-- "key not found %s" (channel store), "key %s not found" (the others). -/
  | keyNotFound (key : Key)
  /-- "unknown query %v" of the owner loop. -/
  | unknownQuery (q : QueryType)
  /-- "incr must be positive" of `ChannelStore.Add`. -/
  | incrMustBePositive
deriving DecidableEq, Repr

/-- How a call of a store method ends: it returns a result and leaves a store
state, or the caller stays suspended (on a reply channel or a condition
variable), or the process ends (a panic, or a fatal error of the runtime). -/
inductive Outcome (σ α : Type)
  | returned (result : α) (store : σ)
  | blocked (store : σ)
  | panicked

/-- Go `error` results: `.ok ()` is `nil`. -/
abbrev Status := Except StoreError Unit

/-! ## tcpstore_channel.go -/

/-- A reply channel (`chan response`), named by a number. -/
abbrev Chan := Nat

/-- Go `response`. -/
structure response where
  Str : Slice := none
  Int : Nat := 0
  Err : Option StoreError := none
deriving DecidableEq, Repr

/-- Go `request`. -/
structure request where
  Query : QueryType
  Key : Key
  Value : Slice := none
  Incr : Nat := 0
  Response : Chan
deriving DecidableEq, Repr

/-- Go `entry`. -/
structure entry where
  Value : Slice := none
  Waiters : List Chan := []
deriving DecidableEq, Repr

/-- The map `kv` owned by `ChannelStore.worker`. -/
abbrev KV := Key → Option entry

/-- What one iteration of the owner loop does: the map afterwards and the
messages sent, in order, each with the channel it went to. -/
structure WorkerStep where
  kv : KV
  sent : List (Chan × response)

/-- One iteration of the loop of `ChannelStore.worker` on request `req`. -/
def worker (kv : KV) (req : request) : Option WorkerStep :=
  match req.Query with
  | .GET =>
    match kv req.Key with
    | none => some { kv := kv, sent := [(req.Response, { Err := some (.keyNotFound req.Key) })] }
    | some e => some { kv := kv, sent := [(req.Response, { Str := e.Value })] }
  | .SET =>
    let e : entry := (kv req.Key).getD {}
    some { kv := Function.update kv req.Key (some { Value := req.Value, Waiters := [] }),
           sent := e.Waiters.map (fun w => (w, {})) }
  | .WAIT =>
    match kv req.Key with
    | none =>
      some { kv := Function.update kv req.Key (some { Value := none, Waiters := [req.Response] }),
             sent := [] }
    | some e =>
      if e.Waiters.length > 0 then
        some { kv := Function.update kv req.Key (some { e with Waiters := e.Waiters ++ [req.Response] }),
               sent := [] }
      else
        some { kv := kv, sent := [(req.Response, {})] }
  | .ADD =>
    match kv req.Key with
    | some e =>
      -- v = binary.LittleEndian.Uint64(e.Value) comes first and may panic
      match leUint64 e.Value with
      | none => none
      | some v0 =>
        let v := addUint64 v0 req.Incr
        match lePutUint64 e.Value v with
        | none => none
        | some value =>
          -- e is a copy of the map's entry: e.Waiters = nil is lost, while
          -- PutUint64 writes through the backing array the map's entry shares
          some { kv := Function.update kv req.Key (some { e with Value := value }),
                 sent := e.Waiters.map (fun w => (w, {})) ++ [(req.Response, { Int := v })] }
    | none =>
      -- e.Value = make([]byte, 8) and the sum are written to the local e only
      some { kv := kv, sent := [(req.Response, { Int := addUint64 0 req.Incr })] }
  | q => some { kv := kv, sent := [(req.Response, { Err := some (.unknownQuery q) })] }

/-- The state of a `ChannelStore` between two requests: the map of the owner
loop (the request queue is empty). -/
structure ChannelStore where
  kv : KV

/-- Go `NewChannelStore`. -/
def NewChannelStore : ChannelStore := { kv := fun _ => none }

/-- The receive `<-respC` after the owner loop has handled the request: the
first message sent to `respC`, if any. -/
def recv (respC : Chan) (sent : List (Chan × response)) : Option response :=
  (sent.find? (fun m => m.1 = respC)).map (fun m => m.2)

/-- Go `ChannelStore.Set`; `respC` names the channel made by the call. The
call does not wait for the owner loop; the request is handled next. -/
def ChannelStore.Set (s : ChannelStore) (respC : Chan) (key : Key) (value : Slice) :
    Outcome ChannelStore Status :=
  match worker s.kv { Query := .SET, Key := key, Value := value, Response := respC } with
  | none => .panicked
  | some st => .returned (.ok ()) { kv := st.kv }

/-- Go `ChannelStore.Get`. -/
def ChannelStore.Get (s : ChannelStore) (respC : Chan) (key : Key) :
    Outcome ChannelStore (Except StoreError Slice) :=
  match worker s.kv { Query := .GET, Key := key, Response := respC } with
  | none => .panicked
  | some st =>
    match recv respC st.sent with
    | none => .blocked { kv := st.kv }
    | some resp =>
      match resp.Err with
      | some err => .returned (.error err) { kv := st.kv }
      | none => .returned (.ok resp.Str) { kv := st.kv }

/-- Go `ChannelStore.Add`. -/
def ChannelStore.Add (s : ChannelStore) (respC : Chan) (key : Key) (incr : Int) :
    Outcome ChannelStore (Except StoreError Int) :=
  if incr < 0 then .returned (.error .incrMustBePositive) s
  else
    match worker s.kv { Query := .ADD, Key := key, Incr := toUint64 incr, Response := respC } with
    | none => .panicked
    | some st =>
      match recv respC st.sent with
      | none => .blocked { kv := st.kv }
      | some resp =>
        match resp.Err with
        | some err => .returned (.error err) { kv := st.kv }
        | none => .returned (.ok (toInt64 resp.Int)) { kv := st.kv }

/-- Go `ChannelStore.waitKey`. -/
def ChannelStore.waitKey (s : ChannelStore) (respC : Chan) (key : Key) :
    Outcome ChannelStore Status :=
  match worker s.kv { Query := .WAIT, Key := key, Response := respC } with
  | none => .panicked
  | some st =>
    match recv respC st.sent with
    | none => .blocked { kv := st.kv }
    | some resp =>
      match resp.Err with
      | some err => .returned (.error err) { kv := st.kv }
      | none => .returned (.ok ()) { kv := st.kv }

/-- Go `ChannelStore.Wait`, up to the first key on which the caller stays
suspended; the call for the i-th key makes channel `respC + i`. -/
def ChannelStore.Wait (s : ChannelStore) (respC : Chan) : List Key → Outcome ChannelStore Status
  | [] => .returned (.ok ()) s
  | key :: keys =>
    match ChannelStore.waitKey s respC key with
    | .returned (.ok ()) s1 => ChannelStore.Wait s1 (respC + 1) keys
    | other => other

/-! ## tcpstore_haxmap.go -/

/-- Go `Entry`: the fields guarded by `mu`. `cond` is the number of goroutines
parked in `entry.mu.cond.Wait()`. -/
structure Entry where
  cond : Nat := 0
  valid : Bool := false
  data : Slice := none
deriving DecidableEq, Repr

/-- Go `ConcurrentStore`: the map from keys to entries. An entry is held by
pointer, so a write to an entry is a write to the map's entry. -/
structure ConcurrentStore where
  store : Key → Option Entry

/-- Go `NewConcurrentStore`. -/
def NewConcurrentStore : ConcurrentStore := { store := fun _ => none }

/-- Go `sync.Cond.Broadcast`: nobody stays parked. -/
def Broadcast (_parked : Nat) : Nat := 0

/-- Go `ConcurrentStore.getOrCreateEntry`: the store afterwards and the entry. -/
def ConcurrentStore.getOrCreateEntry (s : ConcurrentStore) (key : Key) : ConcurrentStore × Entry :=
  match s.store key with
  | some e => (s, e)
  | none => ({ store := Function.update s.store key (some {}) }, {})

/-- Go `ConcurrentStore.Get`. -/
def ConcurrentStore.Get (s : ConcurrentStore) (key : Key) :
    Outcome ConcurrentStore (Except StoreError Slice) :=
  match s.store key with
  | none => .returned (.error (.keyNotFound key)) s
  | some e => .returned (.ok e.data) s

/-- Go `ConcurrentStore.Set`. -/
def ConcurrentStore.Set (s : ConcurrentStore) (key : Key) (data : Slice) :
    Outcome ConcurrentStore Status :=
  let (s1, e) := s.getOrCreateEntry key
  .returned (.ok ())
    { store := Function.update s1.store key
        (some { e with data := data, valid := true, cond := Broadcast e.cond }) }

/-- Go `ConcurrentStore.Add`. -/
def ConcurrentStore.Add (s : ConcurrentStore) (key : Key) (incr : Int) :
    Outcome ConcurrentStore (Except StoreError Int) :=
  let (s1, e) := s.getOrCreateEntry key
  match (if e.valid then bytesToInt64 e.data else some 0) with
  | none => .panicked
  | some v0 =>
    let v := addInt64 v0 incr
    .returned (.ok v)
      { store := Function.update s1.store key (some { e with data := int64ToBytes v, valid := true }) }

/-- Go `ConcurrentStore.Wait`, up to the first key on which the caller parks
in `cond.Wait()`. -/
def ConcurrentStore.Wait (s : ConcurrentStore) : List Key → Outcome ConcurrentStore Status
  | [] => .returned (.ok ()) s
  | key :: keys =>
    let (s1, e) := s.getOrCreateEntry key
    if !e.valid then
      .blocked { store := Function.update s1.store key (some { e with cond := e.cond + 1 }) }
    else
      ConcurrentStore.Wait s1 keys

/-! ## tcpstore_lock.go -/

/-- Go `LockStore`: the two maps guarded by `mu`. A condition variable of
`conds` is the number of goroutines parked on it; `Wait` never leaves one
parked (see `LockStore.Wait`), so the maps of a running process hold no
condition variable with a waiter. -/
structure LockStore where
  store : Key → Option Slice
  conds : Key → Option Nat

/-- Go `NewLockStore`. -/
def NewLockStore : LockStore := { store := fun _ => none, conds := fun _ => none }

/-- Go `LockStore.Set`. -/
def LockStore.Set (s : LockStore) (key : Key) (value : Slice) : Outcome LockStore Status :=
  let store := Function.update s.store key (some value)
  match s.conds key with
  | some cond => .returned (.ok ()) { store := store, conds := Function.update s.conds key (some (Broadcast cond)) }
  | none => .returned (.ok ()) { store := store, conds := s.conds }

/-- Go `LockStore.Get`. -/
def LockStore.Get (s : LockStore) (key : Key) : Outcome LockStore (Except StoreError Slice) :=
  match s.store key with
  | none => .returned (.error (.keyNotFound key)) s
  | some value => .returned (.ok value) s

/-- Go `LockStore.Add`. -/
def LockStore.Add (s : LockStore) (key : Key) (incr : Int) :
    Outcome LockStore (Except StoreError Int) :=
  match (match s.store key with
         | some bytes => bytesToInt64 bytes
         | none => some 0) with
  | none => .panicked
  | some v0 =>
    let v := addInt64 v0 incr
    .returned (.ok v) { store := Function.update s.store key (some (int64ToBytes v)), conds := s.conds }

/-- Go `LockStore.Wait`. The loop's init statement reads `ok` from the value
map. For a key that is absent the body finds or installs the condition
variable of the key, made by `sync.NewCond(&s.mu)`, and calls `cond.Wait()`
with the read lock held. The Locker of that condition variable is `s.mu`
itself, whose `Unlock` is the write unlock of the `RWMutex`; `cond.Wait()`
starts by calling it, on a mutex that is locked for reading only, and the
runtime ends the process with `fatal error: sync: Unlock of unlocked RWMutex`
(calls are modelled one at a time, so no writer is queued on the mutex at
that moment). So a call either finds every key in the map and returns, or
ends the process at the first key it does not find; it never parks on a
condition variable of this store. -/
def LockStore.Wait (s : LockStore) : List Key → Outcome LockStore Status
  | [] => .returned (.ok ()) s
  | key :: keys =>
    let ok := (s.store key).isSome
    if !ok then .panicked
    else LockStore.Wait s keys

/-! ## Sequences of non-blocking operations -/

/-- A call of one of the non-blocking methods of the `Store` interface. -/
inductive Op
  | set (key : Key) (value : Slice)
  | get (key : Key)
  | add (key : Key) (incr : Int)
deriving DecidableEq, Repr

/-- The key a call names. -/
def Op.key : Op → Key
  | .set key _ => key
  | .get key => key
  | .add key _ => key

/-- What a call returned. -/
inductive Reply
  | set (r : Status)
  | get (r : Except StoreError Slice)
  | add (r : Except StoreError Int)
deriving DecidableEq

/-- The result of a returned call, rewrapped. -/
def Outcome.map {σ α β : Type} (f : α → β) : Outcome σ α → Outcome σ β
  | .returned r s => .returned (f r) s
  | .blocked s => .blocked s
  | .panicked => .panicked

/-- One call on a channel store. -/
def ChannelStore.step (respC : Chan) (s : ChannelStore) : Op → Outcome ChannelStore Reply
  | .set key value => (s.Set respC key value).map .set
  | .get key => (s.Get respC key).map .get
  | .add key incr => (s.Add respC key incr).map .add

/-- One call on a concurrent store. -/
def ConcurrentStore.step (s : ConcurrentStore) : Op → Outcome ConcurrentStore Reply
  | .set key value => (s.Set key value).map .set
  | .get key => (s.Get key).map .get
  | .add key incr => (s.Add key incr).map .add

/-- One call on a lock store. -/
def LockStore.step (s : LockStore) : Op → Outcome LockStore Reply
  | .set key value => (s.Set key value).map .set
  | .get key => (s.Get key).map .get
  | .add key incr => (s.Add key incr).map .add

/-- The calls of `ops` one after the other: the replies of the calls that
returned, and the store afterwards when every call returned. A call that
panics or stays suspended ends the run. -/
def run {σ : Type} (step : σ → Op → Outcome σ Reply) (s : σ) : List Op → List Reply × Option σ
  | [] => ([], some s)
  | op :: ops =>
    match step s op with
    | .returned r s1 => (r :: (run step s1 ops).1, (run step s1 ops).2)
    | .blocked _ => ([], none)
    | .panicked => ([], none)

/-! ## tcpstore.go: the wire codec -/

/-- The errors of the connection handler. -/
inductive ServerError
  /-- Go `io.EOF`: a read found the stream exhausted. -/
  | eof
  /-- "invalid magic number %x" of the VALIDATE case. -/
  | invalidMagic (data : Nat)
  /-- "unknown command %d" of the default case. -/
  | unknownCommand (cmd : Byte)
  /-- An error returned by a backend store. -/
  | store (e : StoreError)
deriving DecidableEq, Repr

/-- The `bufio.Reader` that `workerHandler` makes on a connection
(`bufio.NewReader(c)`): `buf` is what its buffer holds and has not handed out
yet, `conn` is what the connection delivers after that, one list per arrival
and in order. When `conn` is used up the peer has closed the connection. -/
structure Reader where
  buf : Bytes
  conn : List Bytes
deriving DecidableEq, Repr

/-- The size of the buffer of `bufio.NewReader` (`defaultBufSize` of `bufio`). -/
def defaultBufSize : Nat := 4096

/-- Go `c.Read(p)` on the connection with `len(p) = n`, `n > 0`: the bytes of
the next arrival, at most `n` of them, and what the connection delivers after
them; `none` is `io.EOF`. An empty arrival is no arrival. -/
def connRead : List Bytes → Nat → Option (Bytes × List Bytes)
  | [], _ => none
  | c :: cs, n =>
    if c.isEmpty then connRead cs n
    else if n < c.length then some (c.take n, c.drop n :: cs)
    else some (c, cs)

/-- Go `bufio.Reader.Read(p)` with `len(p) = n`: the bytes stored in `p` and
the reader afterwards. A read of no byte returns at once. A read from an
empty buffer reads the connection once, straight into `p` when `p` is at
least as large as the buffer, and into the buffer otherwise; it fails with
`io.EOF` when the connection is closed. Then the read hands out what the
buffer holds, at most `n` bytes and possibly fewer, without an error. -/
def Read (r : Reader) (n : Nat) : Except ServerError (Bytes × Reader) :=
  if n = 0 then .ok ([], r)
  else if r.buf.isEmpty then
    if defaultBufSize ≤ n then
      match connRead r.conn n with
      | none => .error .eof
      | some (bs, conn) => .ok (bs, { buf := [], conn := conn })
    else
      match connRead r.conn defaultBufSize with
      | none => .error .eof
      | some (bs, conn) => .ok (bs.take n, { buf := bs.drop n, conn := conn })
  else .ok (r.buf.take n, { buf := r.buf.drop n, conn := r.conn })

/-- The reader once an empty buffer is filled by one read of the connection,
which is how `bufio.Reader.Read` starts a read of fewer bytes than the buffer
takes; a reader whose buffer holds something, or whose connection is closed,
is left as it is. -/
def Reader.refill (r : Reader) : Reader :=
  if r.buf.isEmpty then
    match connRead r.conn defaultBufSize with
    | none => r
    | some (bs, conn) => { buf := bs, conn := conn }
  else r

/-- All the bytes the reader has still to hand out, in order. -/
def Reader.unread (r : Reader) : Bytes := r.buf ++ r.conn.flatten

/-- The reader of a new connection on which the client sends `input` and then
closes, all of `input` arriving together: nothing is buffered yet. -/
def newReader (input : Bytes) : Reader := { buf := [], conn := [input] }

/-- The largest size in bytes that `make` accepts for a slice (`maxAlloc` of
the Go runtime on 64-bit Linux); a larger one panics with "makeslice: len out
of range". An allocation within the limit is taken to succeed; on a machine
that cannot grant it the runtime ends the process instead. The statements
about requests below are about requests that stand in the buffer of the
reader, whose allocations are no larger than that buffer. -/
def maxAlloc : Nat := 2 ^ 48

/-- The contents of a zeroed buffer of `n` bytes after a read has stored `bs`
at its start. -/
def fill (n : Nat) (bs : Bytes) : Bytes := bs ++ List.replicate (n - bs.length) 0

/-- The four bytes `binary.LittleEndian.PutUint32` writes for `v`. -/
def le32 (v : Nat) : Bytes := [byteAt v 0, byteAt v 1, byteAt v 2, byteAt v 3]

/-- Go `readByte`: the byte and the reader afterwards. -/
def readByte (r : Reader) : Except ServerError (Byte × Reader) :=
  match Read r 1 with
  | .error err => .error err
  | .ok (bs, rest) => .ok ((fill 1 bs).headD 0, rest)

/-- Go `writeByte` on a buffered writer holding `w`. Writes to the buffered
writer append and are taken not to fail. -/
def writeByte (w : Bytes) (data : Byte) : Bytes := w ++ [data]

/-- Go `readUint32`: the number of bytes read is ignored, so a short read
leaves zeros in the rest of the array. -/
def readUint32 (r : Reader) : Except ServerError (Nat × Reader) :=
  match Read r 4 with
  | .error err => .error err
  | .ok (bs, rest) => .ok (leValue (fill 4 bs), rest)

/-- Go `writeUint32`. -/
def writeUint32 (w : Bytes) (data : Nat) : Bytes := w ++ le32 data

/-- Go `readUint64`. -/
def readUint64 (r : Reader) : Except ServerError (Nat × Reader) :=
  match Read r 8 with
  | .error err => .error err
  | .ok (bs, rest) => .ok (leValue (fill 8 bs), rest)

/-- Go `writeUint64`. -/
def writeUint64 (w : Bytes) (data : Nat) : Bytes := w ++ le64 data

/-- Go `readInt64`. -/
def readInt64 (r : Reader) : Except ServerError (Int × Reader) :=
  match Read r 8 with
  | .error err => .error err
  | .ok (bs, rest) => .ok (toInt64 (leValue (fill 8 bs)), rest)

/-- Go `writeInt64`. -/
def writeInt64 (w : Bytes) (data : Int) : Bytes := w ++ le64 (toUint64 data)

/-- Go `readString`: the length, then `make([]byte, length)`, which panics
(`none`) beyond `maxAlloc`, then one read into that buffer, whose byte count
is ignored. -/
def readString (r : Reader) : Option (Except ServerError (Bytes × Reader)) :=
  match readUint64 r with
  | .error err => some (.error err)
  | .ok (length, r1) =>
    if maxAlloc < length then none
    else
      match Read r1 length with
      | .error err => some (.error err)
      | .ok (bs, r2) => some (.ok (fill length bs, r2))

/-- Go `writeString`. -/
def writeString (w : Bytes) (data : Bytes) : Bytes := writeUint64 w data.length ++ data

/-- The loop of Go `readStrings` over `n` keys still to read. -/
def readStringsLoop : Nat → Reader → Option (Except ServerError (List Bytes × Reader))
  | 0, r => some (.ok ([], r))
  | n + 1, r =>
    match readString r with
    | none => none
    | some (.error err) => some (.error err)
    | some (.ok (key, r1)) =>
      match readStringsLoop n r1 with
      | none => none
      | some (.error err) => some (.error err)
      | some (.ok (keys, r2)) => some (.ok (key :: keys, r2))

/-- Go `readStrings`: the number of keys, then `make([]string, length)`, which
panics (`none`) when the 16 bytes of a string header times `length` exceed
`maxAlloc`, then the keys. -/
def readStrings (r : Reader) : Option (Except ServerError (List Bytes × Reader)) :=
  match readUint64 r with
  | .error err => some (.error err)
  | .ok (length, r1) =>
    if maxAlloc < 16 * length then none
    else readStringsLoop length r1

/-! ## tcpstore.go: the connection server -/

/-- The opcode byte of a `QueryType` (`iota` order). -/
def QueryType.code : QueryType → Byte
  | .VALIDATE => 0 | .SET => 1 | .COMPARE_SET => 2 | .GET => 3 | .ADD => 4 | .CHECK => 5
  | .WAIT => 6 | .GETNUMKEYS => 7 | .DELETE_KEY => 8 | .APPEND => 9 | .MULTI_GET => 10
  | .MULTI_SET => 11 | .CANCEL_WAIT => 12 | .PING => 13

/-- Go `STOP_WAITING`. -/
def STOP_WAITING : Byte := 0

/-- Go `validationMagicNumber`. -/
def validationMagicNumber : Nat := 0x3C85F7CE

/-- Go `Store`: the interface of a backend with state `σ`. -/
structure Store (σ : Type) where
  Set : σ → Key → Slice → Outcome σ Status
  Get : σ → Key → Outcome σ (Except StoreError Slice)
  Add : σ → Key → Int → Outcome σ (Except StoreError Int)
  Wait : σ → List Key → Outcome σ Status

/-- The backend "lock" of Go `newStore`. -/
def lockStore : Store LockStore :=
  { Set := LockStore.Set, Get := LockStore.Get, Add := LockStore.Add, Wait := LockStore.Wait }

/-- The backend "concurrent" of Go `newStore`. -/
def concurrentStore : Store ConcurrentStore :=
  { Set := ConcurrentStore.Set, Get := ConcurrentStore.Get, Add := ConcurrentStore.Add,
    Wait := ConcurrentStore.Wait }

/-- The backend "channel" of Go `newStore`; `respC` names the reply channel
the calls make. -/
def channelStore (respC : Chan) : Store ChannelStore :=
  { Set := fun s => s.Set respC, Get := fun s => s.Get respC, Add := fun s => s.Add respC,
    Wait := fun s => s.Wait respC }

/-- Go `TCPStore`: the shards. -/
structure TCPStore (σ : Type) where
  stores : List σ

/-- A call of a backend method, as the connection handler makes it. -/
inductive Call
  | set (key : Key) (value : Slice)
  | get (key : Key)
  | add (key : Key) (incr : Int)
  | wait (keys : List Key)
deriving DecidableEq, Repr

/-- What `processCommand` works on: the buffered reader of the connection,
the bytes written to it, the server, and a log of the backend calls made so
far, each with the index of the shard it went to. -/
structure Conn (σ : Type) where
  input : Reader
  output : Bytes
  s : TCPStore σ
  calls : List (Nat × Call)

/-- Go `TCPStore.getShardStore`: the index chosen and the shard at it.
`xxh64` stands for `xxhash.Sum64String`. With no shard at all the remainder
`id % 0` panics (`none`). -/
def getShardStore {σ : Type} (xxh64 : Key → Nat) (s : TCPStore σ) (key : Key) : Option (Nat × σ) :=
  if s.stores.length = 1 then
    (s.stores[0]?).map (fun st => (0, st))
  else if s.stores.length = 0 then
    none
  else
    (s.stores[xxh64 key % s.stores.length]?).map (fun st => (xxh64 key % s.stores.length, st))

/-- The connection after a backend call `c` on shard `i` has left that shard
in state `st`: the shard's new state is stored and the call is logged. -/
def Conn.after {σ : Type} (t : Conn σ) (i : Nat) (c : Call) (st : σ) : Conn σ :=
  { t with s := { stores := t.s.stores.set i st }, calls := t.calls ++ [(i, c)] }

/-- The outcome `o` of the call `c` on shard `i`, seen from the connection. -/
def Conn.call {σ α : Type} (t : Conn σ) (i : Nat) (c : Call) (o : Outcome σ α) :
    Outcome (Conn σ) α :=
  match o with
  | .returned r st => .returned r (t.after i c st)
  | .blocked st => .blocked (t.after i c st)
  | .panicked => .panicked

/-- The loop over the keys in the WAIT case of `processCommand`. -/
def waitEach {σ : Type} (impl : Store σ) (xxh64 : Key → Nat) :
    List Key → Conn σ → Outcome (Conn σ) (Except ServerError Unit)
  | [], t => .returned (.ok ()) t
  | key :: keys, t =>
    match getShardStore xxh64 t.s key with
    | none => .panicked
    | some (i, st) =>
      match t.call i (.wait [key]) (impl.Wait st [key]) with
      | .returned (.ok ()) t1 => waitEach impl xxh64 keys t1
      | .returned (.error err) t1 => .returned (.error (.store err)) t1
      | .blocked t1 => .blocked t1
      | .panicked => .panicked

/-- Go `TCPStore.processCommand`: one request of a connection. A panic of
`make` inside `readString` or `readStrings` ends the process. -/
def processCommand {σ : Type} (impl : Store σ) (xxh64 : Key → Nat) (t : Conn σ) :
    Outcome (Conn σ) (Except ServerError Unit) :=
  match readByte t.input with
  | .error err => .returned (.error err) t
  | .ok (cmd, r1) =>
    if cmd = QueryType.VALIDATE.code then
      match readUint32 r1 with
      | .error err => .returned (.error err) { t with input := r1 }
      | .ok (data, r2) =>
        if data ≠ validationMagicNumber then
          .returned (.error (.invalidMagic data)) { t with input := r2 }
        else
          .returned (.ok ()) { t with input := r2 }
    else if cmd = QueryType.PING.code then
      match readUint32 r1 with
      | .error err => .returned (.error err) { t with input := r1 }
      | .ok (data, r2) =>
        .returned (.ok ()) { t with input := r2, output := writeUint32 t.output data }
    else if cmd = QueryType.SET.code then
      match readString r1 with
      | none => .panicked
      | some (.error err) => .returned (.error err) { t with input := r1 }
      | some (.ok (key, r2)) =>
        match readString r2 with
        | none => .panicked
        | some (.error err) => .returned (.error err) { t with input := r2 }
        | some (.ok (value, r3)) =>
          match getShardStore xxh64 t.s key with
          | none => .panicked
          | some (i, st) =>
            match ({ t with input := r3 } : Conn σ).call i (.set key (some value))
                (impl.Set st key (some value)) with
            | .returned (.ok ()) t1 => .returned (.ok ()) t1
            | .returned (.error err) t1 => .returned (.error (.store err)) t1
            | .blocked t1 => .blocked t1
            | .panicked => .panicked
    else if cmd = QueryType.WAIT.code then
      match readStrings r1 with
      | none => .panicked
      | some (.error err) => .returned (.error err) { t with input := r1 }
      | some (.ok (keys, r2)) =>
        if t.s.stores.length = 0 then
          -- s.stores[0] on an empty list
          .panicked
        else
          match waitEach impl xxh64 keys { t with input := r2 } with
          | .returned (.ok ()) t1 =>
            .returned (.ok ()) { t1 with output := writeByte t1.output STOP_WAITING }
          | other => other
    else if cmd = QueryType.GET.code then
      match readString r1 with
      | none => .panicked
      | some (.error err) => .returned (.error err) { t with input := r1 }
      | some (.ok (key, r2)) =>
        match getShardStore xxh64 t.s key with
        | none => .panicked
        | some (i, st) =>
          match ({ t with input := r2 } : Conn σ).call i (.get key) (impl.Get st key) with
          | .returned (.ok value) t1 =>
            .returned (.ok ()) { t1 with output := writeString t1.output (value.getD []) }
          | .returned (.error err) t1 => .returned (.error (.store err)) t1
          | .blocked t1 => .blocked t1
          | .panicked => .panicked
    else if cmd = QueryType.ADD.code then
      match readString r1 with
      | none => .panicked
      | some (.error err) => .returned (.error err) { t with input := r1 }
      | some (.ok (key, r2)) =>
        match readInt64 r2 with
        | .error err => .returned (.error err) { t with input := r2 }
        | .ok (incr, r3) =>
          match getShardStore xxh64 t.s key with
          | none => .panicked
          | some (i, st) =>
            match ({ t with input := r3 } : Conn σ).call i (.add key incr)
                (impl.Add st key incr) with
            | .returned (.ok v) t1 =>
              .returned (.ok ()) { t1 with output := writeInt64 t1.output v }
            | .returned (.error err) t1 => .returned (.error (.store err)) t1
            | .blocked t1 => .blocked t1
            | .panicked => .panicked
    else
      .returned (.error (.unknownCommand cmd)) { t with input := r1 }

/-- The loop of Go `TCPStore.workerHandler` for at most `fuel` requests: it
ends with the error that closes the connection, stays suspended in a backend
call, or panics; `none` when the fuel runs out first. -/
def workerHandlerLoop {σ : Type} (impl : Store σ) (xxh64 : Key → Nat) :
    Nat → Conn σ → Option (Outcome (Conn σ) ServerError)
  | 0, _ => none
  | fuel + 1, t =>
    match processCommand impl xxh64 t with
    | .returned (.error err) t1 => some (.returned err t1)
    | .returned (.ok ()) t1 => workerHandlerLoop impl xxh64 fuel t1
    | .blocked t1 => some (.blocked t1)
    | .panicked => some .panicked

/-- Go `TCPStore.workerHandler` on a connection: every request that returns
without an error has read at least its opcode byte, so one more round than
there are unread bytes (buffered or still to arrive) is enough. -/
def workerHandler {σ : Type} (impl : Store σ) (xxh64 : Key → Nat) (t : Conn σ) :
    Option (Outcome (Conn σ) ServerError) :=
  workerHandlerLoop impl xxh64 (t.input.unread.length + 1) t

/-- A connection as `workerHandler` gets it: `input` is all the client will
send, arriving together; nothing is buffered or written yet and no backend
call is made yet. -/
def newConn {σ : Type} (s : TCPStore σ) (input : Bytes) : Conn σ :=
  { input := newReader input, output := [], s := s, calls := [] }

/-- A lock store in which the key "k" holds the value "hello". -/
def helloStore : LockStore :=
  { store := Function.update (fun _ => none) [107] (some (some [104, 101, 108, 108, 111])),
    conds := fun _ => none }

/-- The routing rule as the specification words it: shard 0 when there is a
single shard, `hash mod N` otherwise. -/
def specShardIndex (xxh64 : Key → Nat) (n : Nat) (key : Key) : Nat :=
  if n = 1 then 0 else xxh64 key % n

/-- The entries the WAIT case adds to the call log for the keys `ks` on a
server with `n` shards: one `Wait` on a single key each, in order, on the
shard of the routing rule. -/
def waitCalls (xxh64 : Key → Nat) (n : Nat) (ks : List Key) : List (Nat × Call) :=
  ks.map (fun k => (specShardIndex xxh64 n k, Call.wait [k]))

/-- How the waits of a WAIT request end, as the specification has them: all
of them returned without an error and left the shards `stores`; or the wait
number `j` (from 0) returned the error `e`, stayed suspended, or ended the
process; or the shard of key number `j` does not exist. -/
inductive WaitResult (σ : Type)
  | done (stores : List σ)
  | failed (j : Nat) (e : StoreError) (stores : List σ)
  | suspended (j : Nat) (stores : List σ)
  | died (j : Nat)
  | noShard (j : Nat)

/-- The WAIT request as the specification words it: for each key in input
order, the shard of the routing rule waits on that key alone, and the next
key is waited on only after that wait has returned without an error. `j` is
the number of keys done before `ks`, `stores` are the shards as those waits
left them. -/
def specWait {σ : Type} (wait : σ → List Key → Outcome σ Status) (xxh64 : Key → Nat) :
    List Key → Nat → List σ → WaitResult σ
  | [], _, stores => .done stores
  | k :: ks, j, stores =>
    match stores[specShardIndex xxh64 stores.length k]? with
    | none => .noShard j
    | some st =>
      match wait st [k] with
      | .returned (.ok ()) st1 =>
        specWait wait xxh64 ks (j + 1) (stores.set (specShardIndex xxh64 stores.length k) st1)
      | .returned (.error e) st1 =>
        .failed j e (stores.set (specShardIndex xxh64 stores.length k) st1)
      | .blocked st1 => .suspended j (stores.set (specShardIndex xxh64 stores.length k) st1)
      | .panicked => .died j

/-! ## tcpstore_channel.go: runs of the owner loop -/

/-- The owner loop of `ChannelStore.worker` on the requests `reqs`, taken
from the queue in order, from the map `kv`: the map afterwards, or `none`
when an iteration panics. -/
def workerRun (kv : KV) : List request → Option KV
  | [] => some kv
  | req :: reqs =>
    match worker kv req with
    | none => none
    | some st => workerRun st.kv reqs

/-- The invariant of the owner loop's map with respect to the keys `wasSet`
that a SET request has named so far: an entry with a waiter holds the nil
value and its key was never set, and every key that was set has an entry. -/
def WaitersInv (kv : KV) (wasSet : Key → Prop) : Prop :=
  (∀ k e, kv k = some e → e.Waiters ≠ [] → e.Value = none ∧ ¬ wasSet k) ∧
  (∀ k, wasSet k → ∃ e, kv k = some e)

/-- Requests on the keys "B" and "A": two waits on "B", a set and an add on
"A", an add and a read on a key that was never named. -/
def sampleRequests : List request :=
  [{ Query := .WAIT, Key := [66], Response := 7 },
   { Query := .WAIT, Key := [66], Response := 8 },
   { Query := .SET, Key := [65], Value := some [1, 0, 0, 0, 0, 0, 0, 0], Response := 9 },
   { Query := .ADD, Key := [65], Incr := 2, Response := 10 },
   { Query := .WAIT, Key := [65], Response := 11 },
   { Query := .ADD, Key := [67], Incr := 5, Response := 12 },
   { Query := .GET, Key := [67], Response := 13 }]

/-! ## Sample inputs -/

/-- Calls on the keys "a" and "b" used to exercise the stores: a short value
is set, a counter is raised twice and both keys are read. -/
def sampleOps : List Op :=
  [.set [97] (some [104, 105]), .add [98] 5, .get [97], .add [98] 7, .get [98], .get [99]]

/-- The concurrent store `cs` and the lock store `ls` hold the same values:
a key is absent from both, or it has a valid entry in `cs` whose data is the
value `ls` stores. -/
def sameContents (cs : ConcurrentStore) (ls : LockStore) : Prop :=
  ∀ k, (cs.store k = none ∧ ls.store k = none) ∨
    ∃ e, cs.store k = some e ∧ e.valid = true ∧ ls.store k = some e.data

/-- The values a counter takes when `ds` are added to it one after the other,
starting from `a`. -/
def runningSums (a : Int) : List Int → List Int
  | [] => []
  | d :: ds => (a + d) :: runningSums (a + d) ds

/-- The key "B" of the counter barrier. -/
def keyB : Key := [66]

/-- A byte string of 5000 bytes, each of them 1: longer than the buffer of
the reader. -/
def longString : Bytes := List.replicate 5000 1

/-- A backend whose `Wait` fails with an error. None of the three backends of
the repository does; it stands for another implementation of `Store`. -/
def refusingStore : Store Unit :=
  { Set := fun s _ _ => .returned (.ok ()) s,
    Get := fun s key => .returned (.error (.keyNotFound key)) s,
    Add := fun s _ incr => .returned (.ok incr) s,
    Wait := fun s keys => .returned (.error (.keyNotFound (keys.headD []))) s }

/-- The bytes of a WAIT request for the two keys "k" and "k". -/
def waitTwice : Bytes :=
  [6, 2, 0, 0, 0, 0, 0, 0, 0, 1, 0, 0, 0, 0, 0, 0, 0, 107, 1, 0, 0, 0, 0, 0, 0, 0, 107]

/-! ## Machine arithmetic and the little-endian encoding -/

theorem toUint64_lt (i : Int) : toUint64 i < two64 := by
  unfold toUint64 two64
  norm_num
  omega

theorem toInt64_toUint64 (i : Int) (h1 : -2 ^ 63 ≤ i) (h2 : i < 2 ^ 63) :
    toInt64 (toUint64 i) = i := by
  unfold toInt64 toUint64 two64
  norm_num at *
  split <;> omega

theorem toInt64_range (n : Nat) : -2 ^ 63 ≤ toInt64 n ∧ toInt64 n < 2 ^ 63 := by
  unfold toInt64 two64
  norm_num
  split <;> omega

theorem addInt64_eq (a b : Int) (h1 : -2 ^ 63 ≤ a + b) (h2 : a + b < 2 ^ 63) :
    addInt64 a b = a + b := toInt64_toUint64 _ h1 h2

theorem leValue_le64 (v : Nat) : leValue (le64 v) = v % two64 := by
  simp only [le64, leValue, byteAt, two64]
  norm_num
  omega

theorem leUint64_le64_append (v : Nat) (rest : Bytes) :
    leUint64 (some (le64 v ++ rest)) = some (v % two64) := by
  have h : (le64 v ++ rest).take 8 = le64 v := by simp [le64]
  simp only [leUint64, Slice.len, Option.getD_some, h, leValue_le64]
  simp [le64]

theorem toInt64_addUint64 (v : Nat) (d : Int) (hv : v < two64) (hd : 0 ≤ d) (hd2 : d < 2 ^ 63)
    (h : toInt64 v + d < 2 ^ 63) : toInt64 (addUint64 v (toUint64 d)) = toInt64 v + d := by
  unfold toInt64 addUint64 toUint64 two64 at *
  norm_num at *
  split <;> split <;> omega


/-! ## Frame lemmas: a call leaves the other keys alone -/

theorem run_frame {σ β : Type} (step : σ → Op → Outcome σ Reply) (obs : σ → β) (k : Key)
    (hstep : ∀ s op r s1, op.key ≠ k → step s op = .returned r s1 → obs s1 = obs s) :
    ∀ (ops : List Op) (s s2 : σ), (∀ op ∈ ops, op.key ≠ k) →
      (run step s ops).2 = some s2 → obs s2 = obs s := by
  intro ops
  induction ops with
  | nil =>
    intro s s2 _ h
    simp only [run, Option.some.injEq] at h
    rw [h]
  | cons op ops ih =>
    intro s s2 hk h
    have hop : op.key ≠ k := hk op (List.mem_cons_self _ _)
    have hrest : ∀ o ∈ ops, o.key ≠ k := fun o ho => hk o (List.mem_cons_of_mem _ ho)
    simp only [run] at h
    cases hs : step s op with
    | returned r s1 =>
      rw [hs] at h
      rw [ih s1 s2 hrest h, hstep s op r s1 hop hs]
    | blocked s1 => rw [hs] at h; simp at h
    | panicked => rw [hs] at h; simp at h

theorem worker_frame (kv : KV) (req : request) (st : WorkerStep) (k : Key)
    (hk : req.Key ≠ k) (h : worker kv req = some st) : st.kv k = kv k := by
  have hk2 : k ≠ req.Key := fun e => hk e.symm
  unfold worker at h
  split at h
  · split at h <;> (simp only [Option.some.injEq] at h; subst h; rfl)
  · simp only [Option.some.injEq] at h; subst h
    simp [Function.update_noteq hk2]
  · split at h
    · simp only [Option.some.injEq] at h; subst h
      simp [Function.update_noteq hk2]
    · split at h <;> (simp only [Option.some.injEq] at h; subst h)
      · simp [Function.update_noteq hk2]
      · rfl
  · split at h
    · split at h
      · simp at h
      · dsimp only at h
        split at h
        · simp at h
        · simp only [Option.some.injEq] at h; subst h
          simp [Function.update_noteq hk2]
    · simp only [Option.some.injEq] at h; subst h; rfl
  · simp only [Option.some.injEq] at h; subst h; rfl

theorem channel_Get_eq (s : ChannelStore) (c : Chan) (k : Key) :
    s.Get c k = match s.kv k with
      | none => .returned (.error (.keyNotFound k)) s
      | some e => .returned (.ok e.Value) s := by
  unfold ChannelStore.Get worker
  cases h : s.kv k <;> simp [h, recv]

theorem channel_Set_eq (s : ChannelStore) (c : Chan) (k : Key) (v : Slice) :
    s.Set c k v = .returned (.ok ())
      { kv := Function.update s.kv k (some { Value := v, Waiters := [] }) } := by
  simp [ChannelStore.Set, worker]

theorem channel_step_frame (c : Chan) (k : Key) (s : ChannelStore) (op : Op) (r : Reply)
    (s1 : ChannelStore) (hk : op.key ≠ k) (h : ChannelStore.step c s op = .returned r s1) :
    s1.kv k = s.kv k := by
  cases op with
  | set key value =>
    simp only [ChannelStore.step, channel_Set_eq, Outcome.map, Outcome.returned.injEq] at h
    obtain ⟨-, rfl⟩ := h
    exact Function.update_noteq (fun e => hk e.symm) _ _
  | get key =>
    rw [ChannelStore.step, channel_Get_eq] at h
    split at h <;>
      (simp only [Outcome.map, Outcome.returned.injEq] at h; obtain ⟨-, rfl⟩ := h; rfl)
  | add key incr =>
    simp only [ChannelStore.step, ChannelStore.Add] at h
    split at h
    · simp only [Outcome.map, Outcome.returned.injEq] at h; obtain ⟨-, rfl⟩ := h; rfl
    · cases hw : worker s.kv { Query := .ADD, Key := key, Incr := toUint64 incr, Response := c } with
      | none => rw [hw] at h; simp [Outcome.map] at h
      | some st =>
        have hf := worker_frame s.kv _ st k hk hw
        rw [hw] at h
        dsimp only at h
        split at h
        · simp [Outcome.map] at h
        · split at h <;>
            (simp only [Outcome.map, Outcome.returned.injEq] at h; obtain ⟨-, rfl⟩ := h; exact hf)

theorem concurrent_getOrCreateEntry_frame (s : ConcurrentStore) (key k : Key) (hk : key ≠ k) :
    (s.getOrCreateEntry key).1.store k = s.store k := by
  unfold ConcurrentStore.getOrCreateEntry
  split
  · rfl
  · exact Function.update_noteq (fun e => hk e.symm) _ _

theorem concurrent_step_frame (k : Key) (s : ConcurrentStore) (op : Op) (r : Reply)
    (s1 : ConcurrentStore) (hk : op.key ≠ k) (h : ConcurrentStore.step s op = .returned r s1) :
    s1.store k = s.store k := by
  have hk2 : k ≠ op.key := fun e => hk e.symm
  cases op with
  | set key value =>
    simp only [ConcurrentStore.step, ConcurrentStore.Set, Outcome.map, Outcome.returned.injEq] at h
    obtain ⟨-, rfl⟩ := h
    have hk3 : k ≠ key := fun e => hk e.symm
    exact (Function.update_noteq hk3 _ _).trans (concurrent_getOrCreateEntry_frame s key k hk)
  | get key =>
    simp only [ConcurrentStore.step, ConcurrentStore.Get] at h
    split at h <;>
      (simp only [Outcome.map, Outcome.returned.injEq] at h; obtain ⟨-, rfl⟩ := h; rfl)
  | add key incr =>
    simp only [ConcurrentStore.step, ConcurrentStore.Add] at h
    split at h
    · simp [Outcome.map] at h
    · simp only [Outcome.map, Outcome.returned.injEq] at h
      obtain ⟨-, rfl⟩ := h
      have hk3 : k ≠ key := fun e => hk e.symm
      exact (Function.update_noteq hk3 _ _).trans (concurrent_getOrCreateEntry_frame s key k hk)

theorem lock_step_frame (k : Key) (s : LockStore) (op : Op) (r : Reply)
    (s1 : LockStore) (hk : op.key ≠ k) (h : LockStore.step s op = .returned r s1) :
    s1.store k = s.store k := by
  have hk2 : k ≠ op.key := fun e => hk e.symm
  cases op with
  | set key value =>
    simp only [LockStore.step, LockStore.Set] at h
    split at h <;>
      (simp only [Outcome.map, Outcome.returned.injEq] at h; obtain ⟨-, rfl⟩ := h
       exact Function.update_noteq hk2 _ _)
  | get key =>
    simp only [LockStore.step, LockStore.Get] at h
    split at h <;>
      (simp only [Outcome.map, Outcome.returned.injEq] at h; obtain ⟨-, rfl⟩ := h; rfl)
  | add key incr =>
    simp only [LockStore.step, LockStore.Add] at h
    split at h
    · simp [Outcome.map] at h
    · simp only [Outcome.map, Outcome.returned.injEq] at h
      obtain ⟨-, rfl⟩ := h
      exact Function.update_noteq hk2 _ _

theorem concurrent_Set_store (s : ConcurrentStore) (k : Key) (v : Slice) :
    ∃ s1, s.Set k v = .returned (.ok ()) s1 ∧ ∃ e, s1.store k = some e ∧ e.data = v ∧ e.valid = true ∧ e.cond = 0 :=
  ⟨_, rfl, _, Function.update_same _ _ _, rfl, rfl, rfl⟩

theorem lock_Set_store (s : LockStore) (k : Key) (v : Slice) :
    ∃ s1, s.Set k v = .returned (.ok ()) s1 ∧ s1.store k = some v := by
  unfold LockStore.Set
  split
  · exact ⟨_, rfl, Function.update_same _ _ _⟩
  · exact ⟨_, rfl, Function.update_same _ _ _⟩

/-- C1 (value visibility). In each of the three backends, from every store
state, `Set(k, v)` returns; and after any further calls of `Set`, `Get` and
`Add` on keys other than `k` that all return, `Get(k)` returns exactly `v`
(the empty key and the nil or empty value included) and leaves the store as
it is. -/
theorem set_then_get_returns_value (k : Key) (v : Slice) (ops : List Op)
    (hops : ∀ op ∈ ops, op.key ≠ k) :
    (∀ (s : ChannelStore) (c c1 c2 : Chan), ∃ s1, s.Set c k v = .returned (.ok ()) s1 ∧
        ∀ s2, (run (ChannelStore.step c1) s1 ops).2 = some s2 →
          s2.Get c2 k = .returned (.ok v) s2) ∧
    (∀ s : ConcurrentStore, ∃ s1, s.Set k v = .returned (.ok ()) s1 ∧
        ∀ s2, (run ConcurrentStore.step s1 ops).2 = some s2 →
          s2.Get k = .returned (.ok v) s2) ∧
    (∀ s : LockStore, ∃ s1, s.Set k v = .returned (.ok ()) s1 ∧
        ∀ s2, (run LockStore.step s1 ops).2 = some s2 →
          s2.Get k = .returned (.ok v) s2) := by
  refine ⟨?_, ?_, ?_⟩
  · intro s c c1 c2
    refine ⟨_, channel_Set_eq s c k v, ?_⟩
    intro s2 hrun
    have hf := run_frame (ChannelStore.step c1) (fun t => t.kv k) k
      (fun t op r t1 hk h => channel_step_frame c1 k t op r t1 hk h) ops _ s2 hops hrun
    simp only [Function.update_same] at hf
    rw [channel_Get_eq, hf]
  · intro s
    obtain ⟨s1, hset, e, he, hdata, -, -⟩ := concurrent_Set_store s k v
    refine ⟨s1, hset, ?_⟩
    intro s2 hrun
    have hf := run_frame ConcurrentStore.step (fun t => t.store k) k
      (fun t op r t1 hk h => concurrent_step_frame k t op r t1 hk h) ops _ s2 hops hrun
    simp only [he] at hf
    simp only [ConcurrentStore.Get, hf, hdata]
  · intro s
    obtain ⟨s1, hset, hv⟩ := lock_Set_store s k v
    refine ⟨s1, hset, ?_⟩
    intro s2 hrun
    have hf := run_frame LockStore.step (fun t => t.store k) k
      (fun t op r t1 hk h => lock_step_frame k t op r t1 hk h) ops _ s2 hops hrun
    simp only [hv] at hf
    simp only [LockStore.Get, hf]

/-- C1 at the empty key and the empty value, from fresh stores, with
`sampleOps` in between: the calls all return and `Get` gives the empty
value back. -/
theorem set_then_get_returns_value_witness :
    (∀ op ∈ sampleOps, op.key ≠ []) ∧
    (∃ s1 s2, NewChannelStore.Set 0 [] (some []) = .returned (.ok ()) s1 ∧
        (run (ChannelStore.step 1) s1 sampleOps).2 = some s2 ∧
        s2.Get 2 [] = .returned (.ok (some [])) s2) ∧
    (∃ s1 s2, NewConcurrentStore.Set [] (some []) = .returned (.ok ()) s1 ∧
        (run ConcurrentStore.step s1 sampleOps).2 = some s2 ∧
        s2.Get [] = .returned (.ok (some [])) s2) ∧
    (∃ s1 s2, NewLockStore.Set [] (some []) = .returned (.ok ()) s1 ∧
        (run LockStore.step s1 sampleOps).2 = some s2 ∧
        s2.Get [] = .returned (.ok (some [])) s2) := by
  have h := set_then_get_returns_value [] (some []) sampleOps (by decide)
  refine ⟨by decide, ?_, ?_, ?_⟩
  · obtain ⟨s1, hset, hget⟩ := h.1 NewChannelStore 0 1 2
    have h1 : NewChannelStore.Set 0 [] (some []) = .returned (.ok ()) _ := rfl
    rw [h1] at hset
    injection hset with _ hs
    subst hs
    exact ⟨_, _, h1, rfl, hget _ rfl⟩
  · obtain ⟨s1, hset, hget⟩ := h.2.1 NewConcurrentStore
    have h1 : NewConcurrentStore.Set [] (some []) = .returned (.ok ()) _ := rfl
    rw [h1] at hset
    injection hset with _ hs
    subst hs
    exact ⟨_, _, h1, rfl, hget _ rfl⟩
  · obtain ⟨s1, hset, hget⟩ := h.2.2 NewLockStore
    have h1 : NewLockStore.Set [] (some []) = .returned (.ok ()) _ := rfl
    rw [h1] at hset
    injection hset with _ hs
    subst hs
    exact ⟨_, _, h1, rfl, hget _ rfl⟩


/-- C2 at a failing input. On a fresh channel store three calls `Add("B", 1)`
return 1, 1, 1 and `Get("B")` then fails: the owner loop never writes the
entry of an absent key back to its map. The other two backends return 1, 2, 3
and the encoding of 3. -/
theorem channel_add_forgets_counter :
    (run (ChannelStore.step 0) NewChannelStore
        [.add keyB 1, .add keyB 1, .add keyB 1, .get keyB]).1
      = [.add (.ok 1), .add (.ok 1), .add (.ok 1), .get (.error (.keyNotFound keyB))] ∧
    (run ConcurrentStore.step NewConcurrentStore
        [.add keyB 1, .add keyB 1, .add keyB 1, .get keyB]).1
      = [.add (.ok 1), .add (.ok 2), .add (.ok 3), .get (.ok (some [3, 0, 0, 0, 0, 0, 0, 0]))] ∧
    (run LockStore.step NewLockStore
        [.add keyB 1, .add keyB 1, .add keyB 1, .get keyB]).1
      = [.add (.ok 1), .add (.ok 2), .add (.ok 3), .get (.ok (some [3, 0, 0, 0, 0, 0, 0, 0]))] := by
  decide

/-- C3 at a failing input. On a fresh lock store and on a fresh concurrent
store `Add("B", -1)` returns -1 without an error and stores the encoding of
-1, which a following `Get` reads; only the channel store rejects the call
and leaves its map alone. -/
theorem lock_and_concurrent_add_accept_negative :
    (run LockStore.step NewLockStore [.get keyB, .add keyB (-1), .get keyB]).1
      = [.get (.error (.keyNotFound keyB)), .add (.ok (-1)),
         .get (.ok (some [255, 255, 255, 255, 255, 255, 255, 255]))] ∧
    (run ConcurrentStore.step NewConcurrentStore [.get keyB, .add keyB (-1), .get keyB]).1
      = [.get (.error (.keyNotFound keyB)), .add (.ok (-1)),
         .get (.ok (some [255, 255, 255, 255, 255, 255, 255, 255]))] ∧
    (run (ChannelStore.step 0) NewChannelStore [.get keyB, .add keyB (-1), .get keyB]).1
      = [.get (.error (.keyNotFound keyB)), .add (.error .incrMustBePositive),
         .get (.error (.keyNotFound keyB))] := by
  decide

/-- C4 at a failing input. After a `Wait` on "B" has parked on a fresh
concurrent store, the entry of "B" exists with `valid` false, and `Get("B")`
returns the nil slice without an error. After a `Wait` on "B" is registered
on a fresh channel store, the entry of "B" exists only for the waiter, and
`Get("B")` returns the nil slice without an error as well. -/
theorem get_succeeds_on_waited_key :
    (∃ s1, NewConcurrentStore.Wait [keyB] = .blocked s1 ∧
        s1.store keyB = some { cond := 1, valid := false, data := none } ∧
        s1.Get keyB = .returned (.ok none) s1) ∧
    (∃ s1, NewChannelStore.Wait 7 [keyB] = .blocked s1 ∧
        s1.kv keyB = some { Value := none, Waiters := [7] } ∧
        s1.Get 8 keyB = .returned (.ok none) s1) :=
  ⟨⟨_, rfl, rfl, rfl⟩, ⟨_, rfl, rfl, rfl⟩⟩

/-- C5 at a failing input. On a fresh channel store, once a `Wait` on "B" is
registered, `Add("B", 1)` panics: the owner loop decodes the nil value of the
waiter's entry. On a fresh concurrent store with a `Wait` on "B" parked, the
same `Add` returns 1. -/
theorem channel_add_after_wait_panics :
    (∃ s1, NewChannelStore.Wait 7 [keyB] = .blocked s1 ∧
        s1.kv keyB = some { Value := none, Waiters := [7] } ∧
        s1.Add 8 keyB 1 = .panicked) ∧
    (∃ s1 s2, NewConcurrentStore.Wait [keyB] = .blocked s1 ∧
        s1.Add keyB 1 = .returned (.ok 1) s2) :=
  ⟨⟨_, rfl, rfl, rfl⟩, ⟨_, _, rfl, rfl⟩⟩

/-- C6 at a failing input. On a fresh channel store `Add("B", 1)` returns 1
and leaves no entry, so a following `Wait(["B"])` registers its reply channel
and stays suspended. In the concurrent store and in the lock store the same
`Wait` returns at once and changes nothing at "B". -/
theorem channel_wait_blocks_after_add :
    (∃ s1 s2, NewChannelStore.Add 0 keyB 1 = .returned (.ok 1) s1 ∧ s1.kv keyB = none ∧
        s1.Wait 1 [keyB] = .blocked s2 ∧
        s2.kv keyB = some { Value := none, Waiters := [1] }) ∧
    (∃ s1, NewConcurrentStore.Add keyB 1 = .returned (.ok 1) s1 ∧
        s1.Wait [keyB] = .returned (.ok ()) s1) ∧
    (∃ s1, NewLockStore.Add keyB 1 = .returned (.ok 1) s1 ∧
        s1.Wait [keyB] = .returned (.ok ()) s1) :=
  ⟨⟨_, _, rfl, rfl, rfl, rfl⟩, ⟨_, rfl, rfl⟩, ⟨_, rfl, rfl⟩⟩


/-- C7 (a SET drains the waiters). For every map of the owner loop, key `k`,
value `v` and reply channel, the iteration on a SET request does not panic; it
sends one empty, error-free reply to each channel of the waiter list of the
entry of `k` (in list order, nothing else, nothing when there is no entry);
afterwards the entry of `k` holds `v` and an empty waiter list and the other
entries are as before; a second SET on `k` sends nothing. -/
theorem worker_set_wakes_and_clears_waiters (kv : KV) (k : Key) (v v2 : Slice) (c c2 : Chan) :
    ∃ st, worker kv { Query := .SET, Key := k, Value := v, Response := c } = some st ∧
      (∀ e, kv k = some e →
        st.sent = e.Waiters.map (fun w => (w, { Str := none, Int := 0, Err := none }))) ∧
      (kv k = none → st.sent = []) ∧
      st.kv k = some { Value := v, Waiters := [] } ∧
      (∀ k2, k2 ≠ k → st.kv k2 = kv k2) ∧
      ∃ st2, worker st.kv { Query := .SET, Key := k, Value := v2, Response := c2 } = some st2 ∧
        st2.sent = [] ∧ st2.kv k = some { Value := v2, Waiters := [] } := by
  refine ⟨_, rfl, ?_, ?_, ?_, ?_, _, rfl, ?_, ?_⟩
  · intro e he
    simp [he]
  · intro he
    simp [he]
  · simp
  · intro k2 hk2
    simp [Function.update_noteq hk2]
  · simp
  · simp

/-- C8 at a failing input. A `Wait` on "B" parks one goroutine on a fresh
concurrent store; `Add("B", 0)` then returns 0, marks the entry valid and
leaves the goroutine parked (the condition variable still counts one), where
`Set` on the same state wakes it (the count is back to zero). On a fresh
channel store with a `Wait` on "B" registered the same `Add` panics and sends
no reply; and on a map whose entry of "B" holds eight bytes next to a waiter,
the owner loop replies to the waiter but the entry keeps it in its list. -/
theorem add_does_not_wake_waiters :
    (∃ s1 s2 s3, NewConcurrentStore.Wait [keyB] = .blocked s1 ∧
        s1.Add keyB 0 = .returned (.ok 0) s2 ∧
        s2.store keyB = some { cond := 1, valid := true, data := some [0, 0, 0, 0, 0, 0, 0, 0] } ∧
        s1.Set keyB (some []) = .returned (.ok ()) s3 ∧
        s3.store keyB = some { cond := 0, valid := true, data := some [] }) ∧
    (∃ s1, NewChannelStore.Wait 7 [keyB] = .blocked s1 ∧
        worker s1.kv { Query := .ADD, Key := keyB, Incr := 0, Response := 8 } = none) ∧
    (∃ st, worker (Function.update NewChannelStore.kv keyB
            (some { Value := some [4, 0, 0, 0, 0, 0, 0, 0], Waiters := [7] }))
          { Query := .ADD, Key := keyB, Incr := 0, Response := 8 } = some st ∧
        st.sent = [(7, {}), (8, { Int := 4 })] ∧
        st.kv keyB = some { Value := some [4, 0, 0, 0, 0, 0, 0, 0], Waiters := [7] }) :=
  ⟨⟨_, _, _, rfl, rfl, rfl, rfl, rfl⟩, ⟨_, rfl, rfl⟩, ⟨_, rfl, rfl, rfl⟩⟩

/-- C9 at a failing input. From fresh stores the calls `Add("B", 2)`,
`Add("B", 3)`, `Get("B")`, `Add("B", -1)` return 2, 5, the encoding of 5 and 4
in the concurrent store and in the lock store, but 2, 3, not-found and an
error in the channel store. -/
theorem backends_disagree_on_add :
    (run (ChannelStore.step 0) NewChannelStore
        [.add keyB 2, .add keyB 3, .get keyB, .add keyB (-1)]).1
      = [.add (.ok 2), .add (.ok 3), .get (.error (.keyNotFound keyB)),
         .add (.error .incrMustBePositive)] ∧
    (run ConcurrentStore.step NewConcurrentStore
        [.add keyB 2, .add keyB 3, .get keyB, .add keyB (-1)]).1
      = [.add (.ok 2), .add (.ok 5), .get (.ok (some [5, 0, 0, 0, 0, 0, 0, 0])), .add (.ok 4)] ∧
    (run LockStore.step NewLockStore
        [.add keyB 2, .add keyB 3, .get keyB, .add keyB (-1)]).1
      = [.add (.ok 2), .add (.ok 5), .get (.ok (some [5, 0, 0, 0, 0, 0, 0, 0])), .add (.ok 4)] := by
  decide


theorem bytesToInt64_int64ToBytes (i : Int) (h1 : -2 ^ 63 ≤ i) (h2 : i < 2 ^ 63) :
    bytesToInt64 (int64ToBytes i) = some i := by
  have h := leUint64_le64_append (toUint64 i) []
  rw [List.append_nil, Nat.mod_eq_of_lt (toUint64_lt i)] at h
  simp only [bytesToInt64, int64ToBytes, h, Option.map_some', toInt64_toUint64 i h1 h2]

theorem recv_fresh (c : Chan) (ws : List Chan) (r : response) (hc : c ∉ ws) :
    recv c (ws.map (fun w => (w, ({} : response))) ++ [(c, r)]) = some r := by
  induction ws with
  | nil => simp [recv]
  | cons w ws ih =>
    have hw : w ≠ c := fun e => hc (e ▸ List.mem_cons_self _ _)
    have hws : c ∉ ws := fun h => hc (List.mem_cons_of_mem _ h)
    have := ih hws
    simp only [recv, List.map_cons, List.cons_append, List.find?_cons] at this ⊢
    simpa [hw] using this

theorem lock_second_add (k : Key) (d1 d2 : Int) (hd2 : 0 ≤ d2)
    (s s1 : LockStore) (r1 : Int) (h1 : s.Add k d1 = .returned (.ok r1) s1)
    (hsum : r1 + d2 < 2 ^ 63) :
    ∃ s2, s1.Add k d2 = .returned (.ok (r1 + d2)) s2 := by
  unfold LockStore.Add at h1
  split at h1
  · simp at h1
  · rename_i v0 _
    simp only [Outcome.returned.injEq, Except.ok.injEq] at h1
    obtain ⟨hr, rfl⟩ := h1
    have hrange := toInt64_range (toUint64 (v0 + d1))
    rw [← addInt64, hr] at hrange
    have hs : bytesToInt64 (int64ToBytes r1) = some r1 :=
      bytesToInt64_int64ToBytes r1 hrange.1 hrange.2
    have hadd : addInt64 r1 d2 = r1 + d2 := addInt64_eq r1 d2 (by omega) hsum
    refine ⟨{ store := Function.update (Function.update s.store k (some (int64ToBytes r1))) k
                (some (int64ToBytes (r1 + d2))), conds := s.conds }, ?_⟩
    simp only [LockStore.Add, Function.update_same, hr, hs, hadd]


theorem concurrent_second_add (k : Key) (d1 d2 : Int) (hd2 : 0 ≤ d2)
    (s s1 : ConcurrentStore) (r1 : Int) (h1 : s.Add k d1 = .returned (.ok r1) s1)
    (hsum : r1 + d2 < 2 ^ 63) :
    ∃ s2, s1.Add k d2 = .returned (.ok (r1 + d2)) s2 := by
  unfold ConcurrentStore.Add at h1
  dsimp only at h1
  split at h1
  · simp at h1
  · rename_i v0 _
    simp only [Outcome.returned.injEq, Except.ok.injEq] at h1
    obtain ⟨hr, rfl⟩ := h1
    have hrange := toInt64_range (toUint64 (v0 + d1))
    rw [← addInt64, hr] at hrange
    have hs : bytesToInt64 (int64ToBytes r1) = some r1 :=
      bytesToInt64_int64ToBytes r1 hrange.1 hrange.2
    have hadd : addInt64 r1 d2 = r1 + d2 := addInt64_eq r1 d2 (by omega) hsum
    refine ⟨{ store := Function.update (Function.update (s.getOrCreateEntry k).1.store k
                (some { (s.getOrCreateEntry k).2 with data := int64ToBytes r1, valid := true })) k
                (some { (s.getOrCreateEntry k).2 with data := int64ToBytes (r1 + d2), valid := true }) }, ?_⟩
    simp only [ConcurrentStore.Add, ConcurrentStore.getOrCreateEntry, Function.update_same, hr, hs,
      hadd, if_true]

theorem channel_second_add (k : Key) (d1 d2 : Int) (hd1 : 0 ≤ d1) (hd2 : 0 ≤ d2)
    (hd2' : d2 < 2 ^ 63) (s s1 : ChannelStore) (c1 c2 : Chan) (e : entry) (r1 : Int)
    (he : s.kv k = some e) (hc1 : c1 ∉ e.Waiters) (hc2 : c2 ∉ e.Waiters)
    (h1 : s.Add c1 k d1 = .returned (.ok r1) s1) (hsum : r1 + d2 < 2 ^ 63) :
    ∃ s2, s1.Add c2 k d2 = .returned (.ok (r1 + d2)) s2 := by
  have hn1 : ¬ d1 < 0 := by omega
  have hn2 : ¬ d2 < 0 := by omega
  simp only [ChannelStore.Add, hn1, if_false, worker, he] at h1
  cases hv : leUint64 e.Value with
  | none => simp [hv] at h1
  | some v0 =>
    have hlen : 8 ≤ e.Value.len := by
      unfold leUint64 at hv
      split at hv
      · assumption
      · simp at hv
    simp only [hv, lePutUint64, hlen, if_true, recv_fresh c1 e.Waiters _ hc1,
      Outcome.returned.injEq, Except.ok.injEq] at h1
    obtain ⟨hr, rfl⟩ := h1
    have hlt : addUint64 v0 (toUint64 d1) < two64 := Nat.mod_lt _ (by decide)
    have hdec := leUint64_le64_append (addUint64 v0 (toUint64 d1)) ((e.Value.getD []).drop 8)
    rw [Nat.mod_eq_of_lt hlt] at hdec
    have hres := toInt64_addUint64 _ d2 hlt hd2 hd2' (by rw [hr]; exact hsum)
    rw [hr] at hres
    have hlen2 : 8 ≤ Slice.len (some (le64 (addUint64 v0 (toUint64 d1)) ++ (e.Value.getD []).drop 8)) := by
      simp [Slice.len, le64]
    let value1 : Slice := some (le64 (addUint64 v0 (toUint64 d1)) ++ (e.Value.getD []).drop 8)
    let value2 : Slice := some (le64 (addUint64 (addUint64 v0 (toUint64 d1)) (toUint64 d2)) ++
      (le64 (addUint64 v0 (toUint64 d1)) ++ (e.Value.getD []).drop 8).drop 8)
    refine ⟨{ kv := Function.update (Function.update s.kv k (some { e with Value := value1 })) k
                (some { e with Value := value2 }) }, ?_⟩
    simp only [ChannelStore.Add, hn2, if_false, worker, Function.update_same, hdec, lePutUint64,
      hlen2, if_true, recv_fresh c2 e.Waiters _ hc2, hres, Option.getD_some]


/-- C10, as the claim states it, fails: on a fresh lock store and on a fresh
concurrent store `Add("B", 2^63 - 1)` returns `2^63 - 1` and the following
`Add("B", 1)` wraps around to `-2^63`, which is smaller; the channel store
does the same on a key that holds the eight bytes of `2^63 - 1`. -/
theorem add_overflow_decreases :
    (∃ s1 s2, NewLockStore.Add keyB 9223372036854775807
          = .returned (.ok 9223372036854775807) s1 ∧
        s1.Add keyB 1 = .returned (.ok (-9223372036854775808)) s2) ∧
    (∃ s1 s2, NewConcurrentStore.Add keyB 9223372036854775807
          = .returned (.ok 9223372036854775807) s1 ∧
        s1.Add keyB 1 = .returned (.ok (-9223372036854775808)) s2) ∧
    (∃ s0 s1 s2, NewChannelStore.Set 0 keyB (some [255, 255, 255, 255, 255, 255, 255, 127])
          = .returned (.ok ()) s0 ∧
        s0.Add 1 keyB 0 = .returned (.ok 9223372036854775807) s1 ∧
        s1.Add 2 keyB 1 = .returned (.ok (-9223372036854775808)) s2) ∧
    ¬ ((9223372036854775807 : Int) ≤ -9223372036854775808) :=
  ⟨⟨_, _, rfl, rfl⟩, ⟨_, _, rfl, rfl⟩, ⟨_, _, _, rfl, rfl, rfl⟩, by decide⟩

/-- C10, amended. For every key `k` and deltas `0 ≤ d1, d2 < 2^63`: when
`Add(k, d1)` returns `r1` and `r1 + d2` is at most `2^63 - 1`, the `Add(k, d2)`
that follows returns `r1 + d2`, which is at least `r1`. This holds in the
concurrent store and in the lock store from every state, and in the channel
store from every state in which `k` has an entry and the reply channels of
the two calls are not among its waiters. -/
theorem successive_adds_monotone_without_overflow (k : Key) (d1 d2 : Int)
    (hd1 : 0 ≤ d1) (_hd1 : d1 < 2 ^ 63) (hd2 : 0 ≤ d2) (hd2' : d2 < 2 ^ 63) :
    (∀ (s s1 : ConcurrentStore) (r1 : Int), s.Add k d1 = .returned (.ok r1) s1 →
        r1 + d2 < 2 ^ 63 → ∃ s2, s1.Add k d2 = .returned (.ok (r1 + d2)) s2 ∧ r1 ≤ r1 + d2) ∧
    (∀ (s s1 : LockStore) (r1 : Int), s.Add k d1 = .returned (.ok r1) s1 →
        r1 + d2 < 2 ^ 63 → ∃ s2, s1.Add k d2 = .returned (.ok (r1 + d2)) s2 ∧ r1 ≤ r1 + d2) ∧
    (∀ (s s1 : ChannelStore) (c1 c2 : Chan) (e : entry) (r1 : Int), s.kv k = some e →
        c1 ∉ e.Waiters → c2 ∉ e.Waiters → s.Add c1 k d1 = .returned (.ok r1) s1 →
        r1 + d2 < 2 ^ 63 →
        ∃ s2, s1.Add c2 k d2 = .returned (.ok (r1 + d2)) s2 ∧ r1 ≤ r1 + d2) := by
  refine ⟨?_, ?_, ?_⟩
  · intro s s1 r1 h1 hsum
    obtain ⟨s2, h2⟩ := concurrent_second_add k d1 d2 hd2 s s1 r1 h1 hsum
    exact ⟨s2, h2, by omega⟩
  · intro s s1 r1 h1 hsum
    obtain ⟨s2, h2⟩ := lock_second_add k d1 d2 hd2 s s1 r1 h1 hsum
    exact ⟨s2, h2, by omega⟩
  · intro s s1 c1 c2 e r1 he hc1 hc2 h1 hsum
    obtain ⟨s2, h2⟩ := channel_second_add k d1 d2 hd1 hd2 hd2' s s1 c1 c2 e r1 he hc1 hc2 h1 hsum
    exact ⟨s2, h2, by omega⟩

/-- The amended C10 at `d1 = 5`, `d2 = 7` on the key "B": from fresh
concurrent and lock stores, and from a channel store whose entry of "B" holds
the eight bytes of 30, the two calls return 5 then 12, and 35 then 42. -/
theorem successive_adds_monotone_without_overflow_witness :
    ((0 : Int) ≤ 5 ∧ (5 : Int) < 2 ^ 63 ∧ (0 : Int) ≤ 7 ∧ (7 : Int) < 2 ^ 63) ∧
    (∃ s1 s2, NewConcurrentStore.Add keyB 5 = .returned (.ok 5) s1 ∧
        s1.Add keyB 7 = .returned (.ok (5 + 7)) s2 ∧ (5 : Int) ≤ 5 + 7) ∧
    (∃ s1 s2, NewLockStore.Add keyB 5 = .returned (.ok 5) s1 ∧
        s1.Add keyB 7 = .returned (.ok (5 + 7)) s2 ∧ (5 : Int) ≤ 5 + 7) ∧
    (∃ s0 s1 s2, NewChannelStore.Set 0 keyB (some [30, 0, 0, 0, 0, 0, 0, 0])
          = .returned (.ok ()) s0 ∧
        s0.Add 1 keyB 5 = .returned (.ok 35) s1 ∧
        s1.Add 2 keyB 7 = .returned (.ok (35 + 7)) s2 ∧ (35 : Int) ≤ 35 + 7) := by
  have h := successive_adds_monotone_without_overflow keyB 5 7
    (by decide) (by decide) (by decide) (by decide)
  refine ⟨by decide, ?_, ?_, ?_⟩
  · obtain ⟨s2, h2, hle⟩ := h.1 NewConcurrentStore _ 5 rfl (by decide)
    exact ⟨_, s2, rfl, h2, hle⟩
  · obtain ⟨s2, h2, hle⟩ := h.2.1 NewLockStore _ 5 rfl (by decide)
    exact ⟨_, s2, rfl, h2, hle⟩
  · obtain ⟨s2, h2, hle⟩ := h.2.2
      { kv := Function.update NewChannelStore.kv keyB
                (some { Value := some [30, 0, 0, 0, 0, 0, 0, 0], Waiters := [] }) }
      _ 1 2 { Value := some [30, 0, 0, 0, 0, 0, 0, 0], Waiters := [] } 35 rfl
      (by decide) (by decide) rfl (by decide)
    exact ⟨_, _, s2, rfl, rfl, h2, hle⟩


/-! ## Further properties of the backends -/

/-- X3. `ChannelStore.Add` with a negative delta returns the error "incr must be
positive" and leaves the store as it is, whatever the state and the key. -/
theorem channel_add_negative_rejected (s : ChannelStore) (c : Chan) (k : Key) (d : Int)
    (hd : d < 0) : s.Add c k d = .returned (.error .incrMustBePositive) s := by
  simp [ChannelStore.Add, hd]

/-- X3 on a fresh channel store with the delta -1. -/
theorem channel_add_negative_rejected_witness :
    ((-1 : Int) < 0) ∧
    NewChannelStore.Add 0 keyB (-1) = .returned (.error .incrMustBePositive) NewChannelStore :=
  ⟨by decide, channel_add_negative_rejected NewChannelStore 0 keyB (-1) (by decide)⟩

/-- X2. `ChannelStore.Add` on a key without an entry returns the delta itself and
leaves the map of the owner loop as it is: the counter is not stored. -/
theorem channel_add_absent_key_not_stored (s : ChannelStore) (c : Chan) (k : Key) (d : Int)
    (hk : s.kv k = none) (hd : 0 ≤ d) (hd2 : d < 2 ^ 63) :
    s.Add c k d = .returned (.ok d) s := by
  have hn : ¬ d < 0 := by omega
  have hconv : toInt64 (addUint64 0 (toUint64 d)) = d := by
    unfold toInt64 addUint64 toUint64 two64
    norm_num at *
    split <;> omega
  simp [ChannelStore.Add, hn, worker, hk, recv, hconv]

/-- X2 on a fresh channel store: `Add("B", 1)` returns 1 and the store is
still the fresh one. -/
theorem channel_add_absent_key_not_stored_witness :
    (NewChannelStore.kv keyB = none ∧ (0 : Int) ≤ 1 ∧ (1 : Int) < 2 ^ 63) ∧
    NewChannelStore.Add 0 keyB 1 = .returned (.ok 1) NewChannelStore :=
  ⟨⟨rfl, by decide, by decide⟩,
    channel_add_absent_key_not_stored NewChannelStore 0 keyB 1 rfl (by decide) (by decide)⟩

/-- X4. After `Set(k, v)`, in each of the three backends and from every state,
`Wait([k])` returns without an error at once and leaves the store as it
is: no waiter is registered and the value of `k` stays `v`. -/
theorem wait_after_set_returns (k : Key) (v : Slice) :
    (∀ (s : ChannelStore) (c c2 : Chan), ∃ s1, s.Set c k v = .returned (.ok ()) s1 ∧
        s1.Wait c2 [k] = .returned (.ok ()) s1 ∧
        s1.kv k = some { Value := v, Waiters := [] }) ∧
    (∀ s : ConcurrentStore, ∃ s1, s.Set k v = .returned (.ok ()) s1 ∧
        s1.Wait [k] = .returned (.ok ()) s1) ∧
    (∀ s : LockStore, ∃ s1, s.Set k v = .returned (.ok ()) s1 ∧
        s1.Wait [k] = .returned (.ok ()) s1) := by
  refine ⟨?_, ?_, ?_⟩
  · intro s c c2
    refine ⟨_, channel_Set_eq s c k v, ?_, Function.update_same _ _ _⟩
    simp [ChannelStore.Wait, ChannelStore.waitKey, worker, recv]
  · intro s
    refine ⟨_, rfl, ?_⟩
    simp [ConcurrentStore.Wait, ConcurrentStore.getOrCreateEntry]
  · intro s
    obtain ⟨s1, hset, hv⟩ := lock_Set_store s k v
    refine ⟨s1, hset, ?_⟩
    simp [LockStore.Wait, hv]


theorem lock_add_from (s : LockStore) (k : Key) (a d : Int)
    (hs : (s.store k = none ∧ a = 0) ∨ s.store k = some (int64ToBytes a))
    (ha : -2 ^ 63 ≤ a) (ha2 : a < 2 ^ 63) (hd : 0 ≤ d) (hsum : a + d < 2 ^ 63) :
    ∃ s1, s.Add k d = .returned (.ok (a + d)) s1 ∧ s1.store k = some (int64ToBytes (a + d)) := by
  have hadd : addInt64 a d = a + d := addInt64_eq a d (by omega) hsum
  rcases hs with ⟨hn, rfl⟩ | hv
  · simp only [LockStore.Add, hn, hadd]
    exact ⟨_, rfl, Function.update_same _ _ _⟩
  · simp only [LockStore.Add, hv, bytesToInt64_int64ToBytes a ha ha2, hadd]
    exact ⟨_, rfl, Function.update_same _ _ _⟩

theorem concurrent_add_from (s : ConcurrentStore) (k : Key) (a d : Int)
    (hs : ((s.store k = none ∨ ∃ e, s.store k = some e ∧ e.valid = false) ∧ a = 0) ∨
      ∃ e, s.store k = some e ∧ e.valid = true ∧ e.data = int64ToBytes a)
    (ha : -2 ^ 63 ≤ a) (ha2 : a < 2 ^ 63) (hd : 0 ≤ d) (hsum : a + d < 2 ^ 63) :
    ∃ s1, s.Add k d = .returned (.ok (a + d)) s1 ∧
      ∃ e, s1.store k = some e ∧ e.valid = true ∧ e.data = int64ToBytes (a + d) := by
  have hadd : addInt64 a d = a + d := addInt64_eq a d (by omega) hsum
  rcases hs with ⟨hn | ⟨e, he, hvalid⟩, rfl⟩ | ⟨e, he, hvalid, hdata⟩
  · simp only [ConcurrentStore.Add, ConcurrentStore.getOrCreateEntry, hn, Bool.false_eq_true,
      if_false, hadd]
    exact ⟨_, rfl, _, Function.update_same _ _ _, rfl, rfl⟩
  · simp only [ConcurrentStore.Add, ConcurrentStore.getOrCreateEntry, he, hvalid,
      Bool.false_eq_true, if_false, hadd]
    exact ⟨_, rfl, _, Function.update_same _ _ _, rfl, rfl⟩
  · simp only [ConcurrentStore.Add, ConcurrentStore.getOrCreateEntry, he, hvalid, hdata,
      bytesToInt64_int64ToBytes a ha ha2, hadd, if_true]
    exact ⟨_, rfl, _, Function.update_same _ _ _, rfl, rfl⟩


theorem runningSums_getLast (ds : List Int) : ∀ (a d : Int),
    (runningSums a (d :: ds)).getLast? = some (a + (d :: ds).sum) := by
  induction ds with
  | nil => intro a d; simp [runningSums]
  | cons d2 ds ih =>
    intro a d
    have h := ih (a + d) d2
    rw [runningSums] at h ⊢
    rw [runningSums, List.getLast?_cons_cons, h]
    simp only [List.sum_cons]
    congr 1
    omega

theorem adds_run {σ : Type} (step : σ → Op → Outcome σ Reply) (k : Key) (P : σ → Int → Prop)
    (hstep : ∀ s a d, P s a → -2 ^ 63 ≤ a → a < 2 ^ 63 → 0 ≤ d → a + d < 2 ^ 63 →
      ∃ s1, step s (.add k d) = .returned (.add (.ok (a + d))) s1 ∧ P s1 (a + d)) :
    ∀ (ds : List Int) (s : σ) (a : Int), P s a → -2 ^ 63 ≤ a → a < 2 ^ 63 →
      (∀ d ∈ ds, 0 ≤ d) → a + ds.sum < 2 ^ 63 →
      ∃ s2, run step s (ds.map (Op.add k))
          = ((runningSums a ds).map (fun r => Reply.add (.ok r)), some s2) ∧
        P s2 (a + ds.sum) := by
  intro ds
  induction ds with
  | nil =>
    intro s a hP _ _ _ _
    exact ⟨s, rfl, by simpa using hP⟩
  | cons d ds ih =>
    intro s a hP ha ha2 hds hsum
    have hd : 0 ≤ d := hds d (List.mem_cons_self _ _)
    have hrest : ∀ x ∈ ds, 0 ≤ x := fun x hx => hds x (List.mem_cons_of_mem _ hx)
    have hnn : 0 ≤ ds.sum := List.sum_nonneg hrest
    rw [List.sum_cons] at hsum
    obtain ⟨s1, h1, hP1⟩ := hstep s a d hP ha ha2 hd (by omega)
    obtain ⟨s2, h2, hP2⟩ := ih s1 (a + d) hP1 (by omega) (by omega) hrest (by omega)
    refine ⟨s2, ?_, ?_⟩
    · simp only [List.map_cons, run, h1, h2, runningSums]
    · rw [List.sum_cons, ← add_assoc]
      exact hP2


/-- X1. In the concurrent store and in the lock store, for a key `k` without a
valid entry and non-negative deltas `d, ds` whose sum is below `2^63`: the
calls `Add(k, d)`, `Add(k, ds_1)`, ... all return, the i-th returns the sum of
the first i deltas, the last one the total, and `Get(k)` then returns the
8-byte little-endian encoding of the total. -/
theorem adds_return_running_sums (k : Key) (d : Int) (ds : List Int)
    (hnn : ∀ x ∈ d :: ds, 0 ≤ x) (hsum : (d :: ds).sum < 2 ^ 63) :
    (runningSums 0 (d :: ds)).getLast? = some (d :: ds).sum ∧
    (∀ s : ConcurrentStore, (s.store k = none ∨ ∃ e, s.store k = some e ∧ e.valid = false) →
      ∃ s2, run ConcurrentStore.step s ((d :: ds).map (Op.add k))
          = ((runningSums 0 (d :: ds)).map (fun r => Reply.add (.ok r)), some s2) ∧
        s2.Get k = .returned (.ok (some (le64 (d :: ds).sum.toNat))) s2) ∧
    (∀ s : LockStore, s.store k = none →
      ∃ s2, run LockStore.step s ((d :: ds).map (Op.add k))
          = ((runningSums 0 (d :: ds)).map (fun r => Reply.add (.ok r)), some s2) ∧
        s2.Get k = .returned (.ok (some (le64 (d :: ds).sum.toNat))) s2) := by
  have hd : 0 ≤ d := hnn d (List.mem_cons_self _ _)
  have hrest : ∀ x ∈ ds, 0 ≤ x := fun x hx => hnn x (List.mem_cons_of_mem _ hx)
  have hpos : 0 ≤ ds.sum := List.sum_nonneg hrest
  have htot : 0 ≤ (d :: ds).sum := List.sum_nonneg hnn
  have hbytes : int64ToBytes (d :: ds).sum = some (le64 (d :: ds).sum.toNat) := by
    have : toUint64 (d :: ds).sum = (d :: ds).sum.toNat := by
      unfold toUint64 two64
      norm_num at *
      omega
    rw [int64ToBytes, this]
  have hsum2 := hsum
  rw [List.sum_cons] at hsum2
  refine ⟨by simpa using runningSums_getLast ds 0 d, ?_, ?_⟩
  · intro s hs
    obtain ⟨s1, h1, e1, he1, hv1, hd1⟩ :=
      concurrent_add_from s k 0 d (Or.inl ⟨hs, rfl⟩) (by norm_num) (by norm_num) hd (by omega)
    obtain ⟨s2, h2, e2, he2, -, hd2⟩ := adds_run ConcurrentStore.step k
      (fun t a => ∃ e, t.store k = some e ∧ e.valid = true ∧ e.data = int64ToBytes a)
      (fun t a x hP ha ha2 hx hax => by
        obtain ⟨t1, ht1, hP1⟩ := concurrent_add_from t k a x (Or.inr hP) ha ha2 hx hax
        exact ⟨t1, by simp only [ConcurrentStore.step, ht1, Outcome.map], hP1⟩)
      ds s1 (0 + d) ⟨e1, he1, hv1, hd1⟩ (by omega) (by omega) hrest (by omega)
    refine ⟨s2, ?_, ?_⟩
    · simp only [List.map_cons, run, ConcurrentStore.step, h1, Outcome.map, h2, runningSums]
    · rw [← hbytes, List.sum_cons]
      simp only [ConcurrentStore.Get, he2, hd2, zero_add]
  · intro s hs
    obtain ⟨s1, h1, hv1⟩ :=
      lock_add_from s k 0 d (Or.inl ⟨hs, rfl⟩) (by norm_num) (by norm_num) hd (by omega)
    obtain ⟨s2, h2, hv2⟩ := adds_run LockStore.step k
      (fun t a => t.store k = some (int64ToBytes a))
      (fun t a x hP ha ha2 hx hax => by
        obtain ⟨t1, ht1, hP1⟩ := lock_add_from t k a x (Or.inr hP) ha ha2 hx hax
        exact ⟨t1, by simp only [LockStore.step, ht1, Outcome.map], hP1⟩)
      ds s1 (0 + d) hv1 (by omega) (by omega) hrest (by omega)
    refine ⟨s2, ?_, ?_⟩
    · simp only [List.map_cons, run, LockStore.step, h1, Outcome.map, h2, runningSums]
    · rw [← hbytes, List.sum_cons]
      simp only [LockStore.Get, hv2, zero_add]

/-- X1 on a fresh lock store with three calls `Add("B", 1)`: they return 1,
2, 3 and `Get("B")` returns the encoding of 3. -/
theorem adds_return_running_sums_witness :
    (∀ x ∈ [(1 : Int), 1, 1], 0 ≤ x) ∧ ([(1 : Int), 1, 1].sum < 2 ^ 63) ∧
    (∃ s2, run LockStore.step NewLockStore ([(1 : Int), 1, 1].map (Op.add keyB))
        = ([.add (.ok 1), .add (.ok 2), .add (.ok 3)], some s2) ∧
      s2.Get keyB = .returned (.ok (some [3, 0, 0, 0, 0, 0, 0, 0])) s2) := by
  have h := adds_return_running_sums keyB 1 [1, 1] (by decide) (by decide)
  obtain ⟨s2, h2, hget⟩ := h.2.2 NewLockStore rfl
  exact ⟨by decide, by decide, s2, h2, hget⟩


theorem lock_Set_frame (s : LockStore) (key : Key) (value : Slice) :
    ∃ s1, s.Set key value = .returned (.ok ()) s1 ∧
      s1.store = Function.update s.store key (some value) := by
  unfold LockStore.Set
  split
  · exact ⟨_, rfl, rfl⟩
  · exact ⟨_, rfl, rfl⟩

theorem step_sim (cs : ConcurrentStore) (ls : LockStore) (op : Op) (hR : sameContents cs ls) :
    (ConcurrentStore.step cs op = .panicked ∧ LockStore.step ls op = .panicked) ∨
    ∃ r cs1 ls1, ConcurrentStore.step cs op = .returned r cs1 ∧
      LockStore.step ls op = .returned r ls1 ∧ sameContents cs1 ls1 := by
  cases op with
  | set key value =>
    right
    obtain ⟨ls1, hls, hstore⟩ := lock_Set_frame ls key value
    refine ⟨.set (.ok ()), _, ls1, rfl, by simp only [LockStore.step, hls, Outcome.map], ?_⟩
    intro k
    by_cases hk : k = key
    · subst hk
      right
      exact ⟨_, Function.update_same _ _ _, rfl, by rw [hstore, Function.update_same]⟩
    · have hk2 : key ≠ k := fun e => hk e.symm
      have hc := concurrent_getOrCreateEntry_frame cs key k hk2
      have hl : ls1.store k = ls.store k := by rw [hstore, Function.update_noteq hk]
      have hcs : (Function.update (cs.getOrCreateEntry key).1.store key
          (some { (cs.getOrCreateEntry key).2 with
            data := value, valid := true, cond := Broadcast (cs.getOrCreateEntry key).2.cond })) k
          = cs.store k := (Function.update_noteq hk _ _).trans hc
      rcases hR k with ⟨h1, h2⟩ | ⟨e, h1, h2, h3⟩
      · exact Or.inl ⟨hcs.trans h1, hl.trans h2⟩
      · exact Or.inr ⟨e, hcs.trans h1, h2, hl.trans h3⟩
  | get key =>
    right
    rcases hR key with ⟨h1, h2⟩ | ⟨e, h1, h2, h3⟩
    · exact ⟨.get (.error (.keyNotFound key)), cs, ls,
        by simp only [ConcurrentStore.step, ConcurrentStore.Get, h1, Outcome.map],
        by simp only [LockStore.step, LockStore.Get, h2, Outcome.map], hR⟩
    · exact ⟨.get (.ok e.data), cs, ls,
        by simp only [ConcurrentStore.step, ConcurrentStore.Get, h1, Outcome.map],
        by simp only [LockStore.step, LockStore.Get, h3, Outcome.map], hR⟩
  | add key incr =>
    have key_case : ∀ (v0 : Int) (e0 : Entry) (cs0 : ConcurrentStore),
        (∀ k, k ≠ key → cs0.store k = cs.store k) →
        sameContents
          { store := Function.update cs0.store key
              (some { e0 with data := int64ToBytes (addInt64 v0 incr), valid := true }) }
          { store := Function.update ls.store key (some (int64ToBytes (addInt64 v0 incr))),
            conds := ls.conds } := by
      intro v0 e0 cs0 hframe k
      by_cases hk : k = key
      · subst hk
        right
        exact ⟨_, Function.update_same _ _ _, rfl, by simp⟩
      · have hc : Function.update cs0.store key
            (some { e0 with data := int64ToBytes (addInt64 v0 incr), valid := true }) k
            = cs.store k := (Function.update_noteq hk _ _).trans (hframe k hk)
        have hl : Function.update ls.store key (some (int64ToBytes (addInt64 v0 incr))) k
            = ls.store k := Function.update_noteq hk _ _
        rcases hR k with ⟨h1, h2⟩ | ⟨e, h1, h2, h3⟩
        · exact Or.inl ⟨hc.trans h1, hl.trans h2⟩
        · exact Or.inr ⟨e, hc.trans h1, h2, hl.trans h3⟩
    rcases hR key with ⟨h1, h2⟩ | ⟨e, h1, h2, h3⟩
    · right
      refine ⟨.add (.ok (addInt64 0 incr)), _, _, ?_, ?_, key_case 0 {}
        { store := Function.update cs.store key (some {}) }
        (fun k hk => Function.update_noteq hk _ _)⟩
      · simp only [ConcurrentStore.step, ConcurrentStore.Add, ConcurrentStore.getOrCreateEntry, h1,
          Bool.false_eq_true, if_false, Outcome.map]
      · simp only [LockStore.step, LockStore.Add, h2, Outcome.map]
    · cases hv : bytesToInt64 e.data with
      | none =>
        left
        constructor
        · simp only [ConcurrentStore.step, ConcurrentStore.Add, ConcurrentStore.getOrCreateEntry, h1,
            h2, if_true, hv, Outcome.map]
        · simp only [LockStore.step, LockStore.Add, h3, hv, Outcome.map]
      | some v0 =>
        right
        refine ⟨.add (.ok (addInt64 v0 incr)), _, _, ?_, ?_, key_case v0 e cs (fun _ _ => rfl)⟩
        · simp only [ConcurrentStore.step, ConcurrentStore.Add, ConcurrentStore.getOrCreateEntry, h1,
            h2, if_true, hv, Outcome.map]
        · simp only [LockStore.step, LockStore.Add, h3, hv, Outcome.map]

theorem run_sim : ∀ (ops : List Op) (cs : ConcurrentStore) (ls : LockStore), sameContents cs ls →
    (run ConcurrentStore.step cs ops).1 = (run LockStore.step ls ops).1 ∧
    (((run ConcurrentStore.step cs ops).2 = none ∧ (run LockStore.step ls ops).2 = none) ∨
      ∃ cs2 ls2, (run ConcurrentStore.step cs ops).2 = some cs2 ∧
        (run LockStore.step ls ops).2 = some ls2 ∧ sameContents cs2 ls2) := by
  intro ops
  induction ops with
  | nil => intro cs ls hR; exact ⟨rfl, Or.inr ⟨cs, ls, rfl, rfl, hR⟩⟩
  | cons op ops ih =>
    intro cs ls hR
    rcases step_sim cs ls op hR with ⟨h1, h2⟩ | ⟨r, cs1, ls1, h1, h2, hR1⟩
    · simp [run, h1, h2]
    · obtain ⟨hrep, hfin⟩ := ih cs1 ls1 hR1
      simp only [run, h1, h2]
      exact ⟨by rw [hrep], hfin⟩

/-- X5. The concurrent store and the lock store are observationally equivalent on
the non-blocking calls: for every sequence of `Set`, `Get` and `Add` calls
(any delta) from fresh stores they return the same results call by call, and
one panics exactly where the other does. -/
theorem concurrent_and_lock_agree (ops : List Op) :
    (run ConcurrentStore.step NewConcurrentStore ops).1 = (run LockStore.step NewLockStore ops).1 ∧
    ((run ConcurrentStore.step NewConcurrentStore ops).2 = none ↔
      (run LockStore.step NewLockStore ops).2 = none) := by
  obtain ⟨h1, h2⟩ := run_sim ops NewConcurrentStore NewLockStore (fun _ => Or.inl ⟨rfl, rfl⟩)
  refine ⟨h1, ?_⟩
  rcases h2 with ⟨ha, hb⟩ | ⟨cs2, ls2, ha, hb, -⟩
  · simp [ha, hb]
  · simp [ha, hb]

/-! ## The wire codec -/

theorem leValue_le32 (v : Nat) : leValue (le32 v) = v % 2 ^ 32 := by
  simp only [le32, leValue, byteAt]
  norm_num
  omega

theorem fill_full (n : Nat) (bs : Bytes) (h : n ≤ bs.length) : fill n bs = bs := by
  simp [fill, Nat.sub_eq_zero_of_le h]

theorem connRead_some : ∀ (conn : List Bytes) (n : Nat) (bs : Bytes) (conn1 : List Bytes),
    0 < n → connRead conn n = some (bs, conn1) →
    bs ≠ [] ∧ bs.length ≤ n ∧ bs ++ conn1.flatten = conn.flatten := by
  intro conn
  induction conn with
  | nil => intro n bs conn1 _ h; simp [connRead] at h
  | cons c cs ih =>
    intro n bs conn1 hn h
    unfold connRead at h
    split at h
    · rename_i hc
      have hc2 : c = [] := by simpa using hc
      obtain ⟨h1, h2, h3⟩ := ih n bs conn1 hn h
      exact ⟨h1, h2, by simp [hc2, h3]⟩
    · rename_i hc
      have hc2 : c ≠ [] := by simpa using hc
      split at h
      · rename_i hlt
        simp only [Option.some.injEq, Prod.mk.injEq] at h
        obtain ⟨rfl, rfl⟩ := h
        refine ⟨?_, ?_, ?_⟩
        · intro he
          have := congrArg List.length he
          simp at this
          rcases this with h0 | h0
          · omega
          · exact hc2 h0
        · simp
        · simp [← List.append_assoc, List.take_append_drop]
      · rename_i hge
        simp only [Option.some.injEq, Prod.mk.injEq] at h
        obtain ⟨rfl, rfl⟩ := h
        exact ⟨hc2, by omega, by simp⟩

theorem connRead_none : ∀ (conn : List Bytes) (n : Nat), connRead conn n = none →
    conn.flatten = [] := by
  intro conn
  induction conn with
  | nil => intro n _; rfl
  | cons c cs ih =>
    intro n h
    unfold connRead at h
    split at h
    · rename_i hc
      have hc2 : c = [] := by simpa using hc
      simp [hc2, ih n h]
    · split at h <;> cases h

/-- A read of bytes that the buffer holds hands them out whole. -/
theorem Read_buffered (r : Reader) (bs rest : Bytes) (h : r.buf = bs ++ rest) :
    Read r bs.length = .ok (bs, { buf := rest, conn := r.conn }) := by
  obtain ⟨buf, conn⟩ := r
  simp only at h
  subst h
  unfold Read
  cases bs with
  | nil => simp
  | cons b bs => simp

theorem Read_refill (r : Reader) (n : Nat) (h0 : 0 < n) (hn : n < defaultBufSize) :
    Read r n = Read r.refill n := by
  unfold Reader.refill
  cases hb : r.buf.isEmpty with
  | false => simp
  | true =>
    simp only [if_true]
    cases hc : connRead r.conn defaultBufSize with
    | none => rfl
    | some p =>
      obtain ⟨bs, conn1⟩ := p
      obtain ⟨hne, -, -⟩ := connRead_some r.conn defaultBufSize bs conn1 (by decide) hc
      have hn0 : n ≠ 0 := by omega
      have hnn : ¬ defaultBufSize ≤ n := by omega
      have hbs : bs.isEmpty = false := by
        cases bs with
        | nil => exact absurd rfl hne
        | cons _ _ => rfl
      simp only [Read, hn0, if_false, hb, if_true, hnn, hc, hbs, Bool.false_eq_true]

/-- The first read of a request: the bytes `bs` (at least one, fewer than the
buffer takes) stand at the start of the buffer, refilled if it was empty. -/
theorem Read_first (r : Reader) (bs rest : Bytes) (h : r.refill.buf = bs ++ rest)
    (h0 : 0 < bs.length) (hn : bs.length < defaultBufSize) :
    Read r bs.length = .ok (bs, { buf := rest, conn := r.refill.conn }) := by
  rw [Read_refill r bs.length h0 hn]
  exact Read_buffered r.refill bs rest h

theorem readByte_buffered (r : Reader) (b : Byte) (rest : Bytes) (h : r.buf = b :: rest) :
    readByte r = .ok (b, { buf := rest, conn := r.conn }) := by
  have := Read_buffered r [b] rest h
  simp only [List.length_singleton] at this
  simp [readByte, this, fill]

theorem readByte_first (r : Reader) (b : Byte) (rest : Bytes) (h : r.refill.buf = b :: rest) :
    readByte r = .ok (b, { buf := rest, conn := r.refill.conn }) := by
  have := Read_first r [b] rest h (by simp) (by simp [defaultBufSize])
  simp only [List.length_singleton] at this
  simp [readByte, this, fill]

theorem readUint32_buffered (r : Reader) (x : Nat) (rest : Bytes) (h : r.buf = le32 x ++ rest) :
    readUint32 r = .ok (x % 2 ^ 32, { buf := rest, conn := r.conn }) := by
  have h1 := Read_buffered r (le32 x) rest h
  have hl : (le32 x).length = 4 := rfl
  rw [hl] at h1
  simp only [readUint32, h1, fill_full 4 (le32 x) (by simp [le32]), leValue_le32]

theorem readUint64_buffered (r : Reader) (x : Nat) (rest : Bytes) (h : r.buf = le64 x ++ rest) :
    readUint64 r = .ok (x % two64, { buf := rest, conn := r.conn }) := by
  have h1 := Read_buffered r (le64 x) rest h
  have hl : (le64 x).length = 8 := rfl
  rw [hl] at h1
  simp only [readUint64, h1, fill_full 8 (le64 x) (by simp [le64]), leValue_le64]

theorem readInt64_buffered (r : Reader) (x : Nat) (rest : Bytes) (h : r.buf = le64 x ++ rest) :
    readInt64 r = .ok (toInt64 (x % two64), { buf := rest, conn := r.conn }) := by
  have h1 := Read_buffered r (le64 x) rest h
  have hl : (le64 x).length = 8 := rfl
  rw [hl] at h1
  simp only [readInt64, h1, fill_full 8 (le64 x) (by simp [le64]), leValue_le64]

theorem readUint32_first (r : Reader) (x : Nat) (rest : Bytes)
    (h : r.refill.buf = le32 x ++ rest) :
    readUint32 r = .ok (x % 2 ^ 32, { buf := rest, conn := r.refill.conn }) := by
  have h1 := Read_first r (le32 x) rest h (by simp [le32]) (by simp [le32, defaultBufSize])
  have hl : (le32 x).length = 4 := rfl
  rw [hl] at h1
  simp only [readUint32, h1, fill_full 4 (le32 x) (by simp [le32]), leValue_le32]

theorem readUint64_first (r : Reader) (x : Nat) (rest : Bytes)
    (h : r.refill.buf = le64 x ++ rest) :
    readUint64 r = .ok (x % two64, { buf := rest, conn := r.refill.conn }) := by
  have h1 := Read_first r (le64 x) rest h (by simp [le64]) (by simp [le64, defaultBufSize])
  have hl : (le64 x).length = 8 := rfl
  rw [hl] at h1
  simp only [readUint64, h1, fill_full 8 (le64 x) (by simp [le64]), leValue_le64]

theorem readInt64_first (r : Reader) (x : Nat) (rest : Bytes)
    (h : r.refill.buf = le64 x ++ rest) :
    readInt64 r = .ok (toInt64 (x % two64), { buf := rest, conn := r.refill.conn }) := by
  have h1 := Read_first r (le64 x) rest h (by simp [le64]) (by simp [le64, defaultBufSize])
  have hl : (le64 x).length = 8 := rfl
  rw [hl] at h1
  simp only [readInt64, h1, fill_full 8 (le64 x) (by simp [le64]), leValue_le64]

theorem maxAlloc_lt_two64 : maxAlloc < two64 := by decide

theorem defaultBufSize_le_maxAlloc : defaultBufSize ≤ maxAlloc := by decide

/-- A string that the buffer holds whole, after its length, is read back. -/
theorem readString_buffered (r : Reader) (b t : Bytes) (hb : b.length ≤ maxAlloc)
    (h : r.buf = writeString [] b ++ t) :
    readString r = some (.ok (b, { buf := t, conn := r.conn })) := by
  have hb2 : b.length < two64 := lt_of_le_of_lt hb maxAlloc_lt_two64
  have h0 : r.buf = le64 b.length ++ (b ++ t) := by
    rw [h]; simp [writeString, writeUint64]
  have h1 := readUint64_buffered r b.length (b ++ t) h0
  rw [Nat.mod_eq_of_lt hb2] at h1
  have h2 := Read_buffered { buf := b ++ t, conn := r.conn } b t rfl
  have hn : ¬ maxAlloc < b.length := by omega
  simp only [readString, h1, hn, if_false, h2, fill_full b.length b (le_refl _)]

theorem readString_first (r : Reader) (b t : Bytes) (hb : b.length ≤ maxAlloc)
    (h : r.refill.buf = writeString [] b ++ t) :
    readString r = some (.ok (b, { buf := t, conn := r.refill.conn })) := by
  have hb2 : b.length < two64 := lt_of_le_of_lt hb maxAlloc_lt_two64
  have h0 : r.refill.buf = le64 b.length ++ (b ++ t) := by
    rw [h]; simp [writeString, writeUint64]
  have h1 := readUint64_first r b.length (b ++ t) h0
  rw [Nat.mod_eq_of_lt hb2] at h1
  have h2 := Read_buffered { buf := b ++ t, conn := r.refill.conn } b t rfl
  have hn : ¬ maxAlloc < b.length := by omega
  simp only [readString, h1, hn, if_false, h2, fill_full b.length b (le_refl _)]

/-- On a new connection whose first bytes are a string longer than the buffer
takes after the eight bytes of its length, `readString` returns the part of
the string that was buffered, padded with zero bytes. -/
theorem readString_cut (b t : Bytes) (h1 : defaultBufSize - 8 < b.length)
    (h2 : b.length ≤ maxAlloc) :
    readString (newReader (writeString [] b ++ t))
      = some (.ok (b.take (defaultBufSize - 8)
                    ++ List.replicate (b.length - (defaultBufSize - 8)) 0,
                   { buf := [], conn := [b.drop (defaultBufSize - 8) ++ t] })) := by
  have hb2 : b.length < two64 := lt_of_le_of_lt h2 maxAlloc_lt_two64
  have hl : (le64 b.length).length = 8 := rfl
  have hd : defaultBufSize = 8 + (defaultBufSize - 8) := by decide
  have hc : writeString [] b ++ t = le64 b.length ++ (b ++ t) := by
    simp [writeString, writeUint64]
  have hlen : defaultBufSize < (le64 b.length ++ (b ++ t)).length := by
    simp only [List.length_append, hl]
    omega
  have hne : (le64 b.length ++ (b ++ t)).isEmpty = false := by
    simp [le64]
  have htake : (le64 b.length ++ (b ++ t)).take defaultBufSize
      = le64 b.length ++ b.take (defaultBufSize - 8) := by
    rw [hd, List.take_append_eq_append_take]
    simp only [hl]
    have e1 : (le64 b.length).take (8 + (defaultBufSize - 8)) = le64 b.length := by
      apply List.take_of_length_le; simp [hl]
    rw [e1]
    have e2 : 8 + (defaultBufSize - 8) - 8 = defaultBufSize - 8 := by omega
    rw [e2, List.take_append_of_le_length (by omega)]
  have hdrop : (le64 b.length ++ (b ++ t)).drop defaultBufSize
      = b.drop (defaultBufSize - 8) ++ t := by
    rw [hd, List.drop_append_eq_append_drop]
    simp only [hl]
    have e1 : (le64 b.length).drop (8 + (defaultBufSize - 8)) = [] := by
      apply List.drop_of_length_le; simp [hl]
    rw [e1, List.nil_append]
    have e2 : 8 + (defaultBufSize - 8) - 8 = defaultBufSize - 8 := by omega
    rw [e2, List.drop_append_of_le_length (by omega)]
  have hconn : connRead [le64 b.length ++ (b ++ t)] defaultBufSize
      = some (le64 b.length ++ b.take (defaultBufSize - 8),
              [b.drop (defaultBufSize - 8) ++ t]) := by
    simp only [connRead, hne, Bool.false_eq_true, if_false, hlen, if_true, htake, hdrop]
  have hr : (newReader (writeString [] b ++ t)).refill.buf
      = le64 b.length ++ (b.take (defaultBufSize - 8) ++ []) := by
    simp [Reader.refill, newReader, hc, hconn]
  have h64 := readUint64_first (newReader (writeString [] b ++ t)) b.length _ hr
  rw [Nat.mod_eq_of_lt hb2] at h64
  have hconn2 : (newReader (writeString [] b ++ t)).refill.conn
      = [b.drop (defaultBufSize - 8) ++ t] := by
    simp [Reader.refill, newReader, hc, hconn]
  rw [hconn2] at h64
  have hn : ¬ maxAlloc < b.length := by omega
  have hb0 : b.length ≠ 0 := by omega
  have htl : (b.take (defaultBufSize - 8)).length = defaultBufSize - 8 := by
    rw [List.length_take]; omega
  have hbe : (List.take (defaultBufSize - 8) b ++ ([] : Bytes)).isEmpty = false := by
    cases hx : List.take (defaultBufSize - 8) b with
    | nil => rw [hx] at htl; simp [defaultBufSize] at htl
    | cons _ _ => rfl
  have htk : (List.take (defaultBufSize - 8) b ++ ([] : Bytes)).take b.length
      = b.take (defaultBufSize - 8) := by
    rw [List.append_nil]
    apply List.take_of_length_le
    rw [htl]; omega
  have hdk : (List.take (defaultBufSize - 8) b ++ ([] : Bytes)).drop b.length = [] := by
    rw [List.append_nil]
    apply List.drop_of_length_le
    rw [htl]; omega
  simp only [readString, h64, hn, if_false, Read, hb0, hbe, Bool.false_eq_true, htk, hdk,
    fill, htl]

/-- C11 at a failing input. `writeString` emits the eight bytes of the length
5000 and the 5000 bytes of `longString`; on a new connection that delivers
them, followed by one more byte, all at once, `readString` returns without an
error a string of 5000 bytes that is not `longString`: the first 4088 bytes
of it, which the buffer held after the length, and 912 zero bytes. The
other 912 bytes of `longString` stay unread, in front of the byte that
follows. -/
theorem long_string_is_zero_padded :
    writeString [] longString = [136, 19, 0, 0, 0, 0, 0, 0] ++ longString ∧
    readString (newReader (writeString [] longString ++ [7]))
      = some (.ok (List.replicate 4088 1 ++ List.replicate 912 0,
                   { buf := [], conn := [List.replicate 912 1 ++ [7]] })) ∧
    List.replicate 4088 1 ++ List.replicate 912 0 ≠ longString := by
  have hl : longString.length = 5000 := List.length_replicate 5000 1
  refine ⟨?_, ?_, ?_⟩
  · show ([] ++ le64 longString.length) ++ longString = _
    rw [hl]
    rfl
  · have h := readString_cut longString [7] (by rw [hl]; decide) (by rw [hl]; decide)
    have e1 : longString.take (defaultBufSize - 8) = List.replicate 4088 1 := by
      unfold longString
      rw [List.take_replicate]
      have : min (defaultBufSize - 8) 5000 = 4088 := by decide
      rw [this]
    have e2 : longString.drop (defaultBufSize - 8) = List.replicate 912 1 := by
      unfold longString
      rw [List.drop_replicate]
      have : 5000 - (defaultBufSize - 8) = 912 := by decide
      rw [this]
    have e3 : longString.length - (defaultBufSize - 8) = 912 := by rw [hl]; decide
    rw [h, e1, e2, e3]
  · intro h
    have h2 := congrArg (fun l => l[4088]?) h
    have hlen : (List.replicate 4088 (1 : Byte)).length ≤ 4088 := by
      rw [List.length_replicate]
    have e1 : (List.replicate 4088 (1 : Byte) ++ List.replicate 912 0)[4088]? = some 0 := by
      rw [List.getElem?_append_right hlen, List.length_replicate, List.getElem?_replicate]
      decide
    have e2 : longString[4088]? = some 1 := by
      unfold longString
      rw [List.getElem?_replicate]
      decide
    simp only [e1, e2] at h2
    exact absurd h2 (by decide)

/-- X8 (byte strings that fit the buffer round-trip). For every byte string
`b`, every buffer `w` and every trailing byte sequence `t`: `writeString`
appends to `w` exactly the eight bytes of the length of `b`, least
significant first, followed by the bytes of `b`; and on every reader whose
buffer (filled from the connection if it was empty; it takes 4096 bytes)
starts with what `writeString` emitted, followed by `t`, `readString` returns
`b` without an error and leaves exactly `t` in the buffer. -/
theorem string_round_trip_within_buffer (w b t : Bytes) (r : Reader)
    (hcap : r.refill.buf.length ≤ defaultBufSize)
    (hr : r.refill.buf = writeString [] b ++ t) :
    writeString w b
      = w ++ [byteAt b.length 0, byteAt b.length 1, byteAt b.length 2, byteAt b.length 3,
              byteAt b.length 4, byteAt b.length 5, byteAt b.length 6, byteAt b.length 7] ++ b ∧
    leValue [byteAt b.length 0, byteAt b.length 1, byteAt b.length 2, byteAt b.length 3,
             byteAt b.length 4, byteAt b.length 5, byteAt b.length 6, byteAt b.length 7]
      = b.length ∧
    readString r = some (.ok (b, { buf := t, conn := r.refill.conn })) := by
  have hlen : b.length ≤ defaultBufSize := by
    have := congrArg List.length hr
    simp [writeString, writeUint64, le64] at this
    omega
  have hb : b.length ≤ maxAlloc := le_trans hlen defaultBufSize_le_maxAlloc
  have hb2 : b.length < two64 := lt_of_le_of_lt hb maxAlloc_lt_two64
  refine ⟨rfl, ?_, readString_first r b t hb hr⟩
  have h := leValue_le64 b.length
  rw [Nat.mod_eq_of_lt hb2] at h
  exact h

/-- X8 for the string "hello" followed by two more bytes on a new connection,
and for the empty string at the very end of the stream. -/
theorem string_round_trip_within_buffer_witness :
    ((newReader ([5, 0, 0, 0, 0, 0, 0, 0, 104, 101, 108, 108, 111] ++ [1, 2])).refill.buf.length
        ≤ defaultBufSize ∧
      (newReader ([5, 0, 0, 0, 0, 0, 0, 0, 104, 101, 108, 108, 111] ++ [1, 2])).refill.buf
        = writeString [] [104, 101, 108, 108, 111] ++ [1, 2]) ∧
    writeString [] [104, 101, 108, 108, 111]
      = [5, 0, 0, 0, 0, 0, 0, 0, 104, 101, 108, 108, 111] ∧
    readString (newReader ([5, 0, 0, 0, 0, 0, 0, 0, 104, 101, 108, 108, 111] ++ [1, 2]))
      = some (.ok ([104, 101, 108, 108, 111], { buf := [1, 2], conn := [] })) ∧
    readString (newReader (writeString [] [])) = some (.ok ([], { buf := [], conn := [] })) :=
  ⟨⟨by decide, by decide⟩,
    (string_round_trip_within_buffer [] [104, 101, 108, 108, 111] [1, 2]
      (newReader ([5, 0, 0, 0, 0, 0, 0, 0, 104, 101, 108, 108, 111] ++ [1, 2]))
      (by decide) (by decide)).1,
    (string_round_trip_within_buffer [] [104, 101, 108, 108, 111] [1, 2]
      (newReader ([5, 0, 0, 0, 0, 0, 0, 0, 104, 101, 108, 108, 111] ++ [1, 2]))
      (by decide) (by decide)).2.2,
    (string_round_trip_within_buffer [] [] [] (newReader (writeString [] []))
      (by decide) rfl).2.2⟩

/-- C12 (fixed-width integers round-trip). For every `u32` value `x`, `u64`
value `y` and `int64` value `i`, every buffer `w` and every rest of the
stream: `writeUint32` appends the four bytes of `x` and `writeUint64` the
eight bytes of `y`, least significant first; `writeInt64` appends the eight
bytes of the two's complement of `i` (`i` itself when it is not negative,
`i + 2^64` otherwise); on every reader whose buffer, filled from the
connection if it was empty, starts with those bytes, the matching reader
function returns the value and leaves the rest unread; and
`bytesToInt64 (int64ToBytes i) = i`. -/
theorem fixed_width_round_trip (x y : Nat) (i : Int) (w rest : Bytes)
    (hx : x < 2 ^ 32) (hy : y < 2 ^ 64) (hi : -2 ^ 63 ≤ i) (hi2 : i < 2 ^ 63) :
    (writeUint32 w x = w ++ [byteAt x 0, byteAt x 1, byteAt x 2, byteAt x 3] ∧
      (byteAt x 0).val = x % 256 ∧
      ∀ r : Reader, r.refill.buf = writeUint32 [] x ++ rest →
        readUint32 r = .ok (x, { buf := rest, conn := r.refill.conn })) ∧
    (writeUint64 w y = w ++ [byteAt y 0, byteAt y 1, byteAt y 2, byteAt y 3,
        byteAt y 4, byteAt y 5, byteAt y 6, byteAt y 7] ∧
      (byteAt y 0).val = y % 256 ∧
      ∀ r : Reader, r.refill.buf = writeUint64 [] y ++ rest →
        readUint64 r = .ok (y, { buf := rest, conn := r.refill.conn })) ∧
    (writeInt64 w i = writeUint64 w (toUint64 i) ∧
      (toUint64 i : Int) = (if 0 ≤ i then i else i + 2 ^ 64) ∧
      (∀ r : Reader, r.refill.buf = writeInt64 [] i ++ rest →
        readInt64 r = .ok (i, { buf := rest, conn := r.refill.conn })) ∧
      bytesToInt64 (int64ToBytes i) = some i) := by
  have hy2 : y < two64 := hy
  refine ⟨⟨rfl, by simp [byteAt], ?_⟩, ⟨rfl, by simp [byteAt], ?_⟩, rfl, ?_, ?_,
    bytesToInt64_int64ToBytes i hi hi2⟩
  · intro r hr
    have h := readUint32_first r x rest (by simpa [writeUint32] using hr)
    rw [Nat.mod_eq_of_lt hx] at h
    exact h
  · intro r hr
    have h := readUint64_first r y rest (by simpa [writeUint64] using hr)
    rw [Nat.mod_eq_of_lt hy2] at h
    exact h
  · unfold toUint64 two64
    norm_num at *
    split <;> omega
  · intro r hr
    have h := readInt64_first r (toUint64 i) rest (by simpa [writeInt64] using hr)
    rw [Nat.mod_eq_of_lt (toUint64_lt i), toInt64_toUint64 i hi hi2] at h
    exact h

/-- C12 at the ping nonce `0x11223344`, at `2^64 - 1` and at the `int64`
value -2, each followed by one more byte on a new connection. -/
theorem fixed_width_round_trip_witness :
    ((287454020 : Nat) < 2 ^ 32 ∧ (18446744073709551615 : Nat) < 2 ^ 64 ∧
      -2 ^ 63 ≤ (-2 : Int) ∧ (-2 : Int) < 2 ^ 63) ∧
    writeUint32 [] 287454020 = [68, 51, 34, 17] ∧
    readUint32 (newReader ([68, 51, 34, 17] ++ [9]))
      = .ok (287454020, { buf := [9], conn := [] }) ∧
    writeInt64 [] (-2) = [254, 255, 255, 255, 255, 255, 255, 255] ∧
    readInt64 (newReader ([254, 255, 255, 255, 255, 255, 255, 255] ++ [9]))
      = .ok (-2, { buf := [9], conn := [] }) ∧
    readUint64 (newReader (writeUint64 [] 18446744073709551615 ++ [9]))
      = .ok (18446744073709551615, { buf := [9], conn := [] }) := by
  have h := fixed_width_round_trip 287454020 18446744073709551615 (-2) [] [9]
    (by decide) (by decide) (by decide) (by decide)
  exact ⟨by decide, h.1.1, h.1.2.2 (newReader ([68, 51, 34, 17] ++ [9])) rfl,
    h.2.2.1.trans rfl,
    h.2.2.2.2.1 (newReader ([254, 255, 255, 255, 255, 255, 255, 255] ++ [9])) rfl,
    h.2.1.2.2 (newReader (writeUint64 [] 18446744073709551615 ++ [9])) rfl⟩

/-- C13 at failing inputs. A field that is cut short is decoded, not rejected:
`readUint32` on a new connection whose stream ends after two bytes returns
them with two zero bytes added, without an error; so do `readUint64` and
`readInt64` after one byte; `readString` on a declared length of 5 with two
payload bytes left returns five bytes, the last three zero; `readStrings`
likewise. On a server with one lock store, `processCommand` answers a PING
whose nonce ends after two bytes, and carries out an ADD whose delta ends
after one byte. -/
theorem short_read_is_decoded :
    readUint32 (newReader [68, 51]) = .ok (13124, { buf := [], conn := [] }) ∧
    readUint64 (newReader [1]) = .ok (1, { buf := [], conn := [] }) ∧
    readInt64 (newReader [255]) = .ok (255, { buf := [], conn := [] }) ∧
    readString (newReader ([5, 0, 0, 0, 0, 0, 0, 0] ++ [97, 98]))
      = some (.ok ([97, 98, 0, 0, 0], { buf := [], conn := [] })) ∧
    readStrings (newReader ([1, 0, 0, 0, 0, 0, 0, 0] ++ [3, 0, 0, 0, 0, 0, 0, 0] ++ [97]))
      = some (.ok ([[97, 0, 0]], { buf := [], conn := [] })) ∧
    (∃ t1, processCommand lockStore (fun _ => 0)
          (newConn { stores := [NewLockStore] } [13, 68, 51]) = .returned (.ok ()) t1 ∧
        t1.output = [68, 51, 0, 0]) ∧
    (∃ t1, processCommand lockStore (fun _ => 0)
          (newConn { stores := [NewLockStore] } ([4] ++ [1, 0, 0, 0, 0, 0, 0, 0] ++ [66] ++ [1]))
          = .returned (.ok ()) t1 ∧
        t1.calls = [(0, .add [66] 1)] ∧ t1.output = [1, 0, 0, 0, 0, 0, 0, 0]) :=
  ⟨by decide, by decide, by decide, by decide, by decide, ⟨_, rfl, rfl⟩, ⟨_, rfl, rfl, rfl⟩⟩

/-! ## The connection server -/

theorem getShardStore_some {σ : Type} (xxh64 : Key → Nat) (u : TCPStore σ) (k : Key)
    (hu : 1 ≤ u.stores.length) :
    ∃ st, getShardStore xxh64 u k = some (specShardIndex xxh64 u.stores.length k, st) ∧
      u.stores[specShardIndex xxh64 u.stores.length k]? = some st ∧
      specShardIndex xxh64 u.stores.length k < u.stores.length := by
  unfold getShardStore specShardIndex
  by_cases h1 : u.stores.length = 1
  · have h0 : 0 < u.stores.length := by omega
    simp only [h1, if_true]
    rw [List.getElem?_eq_getElem h0]
    exact ⟨_, rfl, rfl, by omega⟩
  · have hz : ¬ u.stores.length = 0 := by omega
    have hlt : xxh64 k % u.stores.length < u.stores.length := Nat.mod_lt _ (by omega)
    simp only [h1, hz, if_false]
    rw [List.getElem?_eq_getElem hlt]
    exact ⟨_, rfl, rfl, hlt⟩

/-- C14 (shard routing). On a server with `N ≥ 1` shards `getShardStore`
does not panic for any key `k`: it returns the shard at an index below `N`,
which is 0 when `N = 1` and `xxh64(k) mod N` otherwise; and on every server
with the same number of shards it picks the same index for `k`. -/
theorem getShardStore_index {σ : Type} (xxh64 : Key → Nat) (s : TCPStore σ) (k : Key)
    (hN : 1 ≤ s.stores.length) :
    ∃ i st, getShardStore xxh64 s k = some (i, st) ∧ i < s.stores.length ∧
      s.stores[i]? = some st ∧
      i = (if s.stores.length = 1 then 0 else xxh64 k % s.stores.length) ∧
      ∀ s2 : TCPStore σ, s2.stores.length = s.stores.length →
        ∃ st2, getShardStore xxh64 s2 k = some (i, st2) := by
  obtain ⟨st, hget, hst, hlt⟩ := getShardStore_some xxh64 s k hN
  refine ⟨_, st, hget, hlt, hst, rfl, ?_⟩
  intro s2 h2
  obtain ⟨st2, hget2, -, -⟩ := getShardStore_some xxh64 s2 k (by omega)
  rw [h2] at hget2
  exact ⟨st2, hget2⟩

/-- C14 on four shards with a hash that sends "B" to 7: the shard at index
3 is chosen. -/
theorem getShardStore_index_witness :
    1 ≤ [NewLockStore, NewLockStore, NewLockStore, NewLockStore].length ∧
    ∃ i st, getShardStore (fun k => k.length + 6)
        { stores := [NewLockStore, NewLockStore, NewLockStore, NewLockStore] } keyB = some (i, st) ∧
      i = 3 := by
  obtain ⟨i, st, h, -, -, hi, -⟩ := getShardStore_index (fun k => k.length + 6)
    { stores := [NewLockStore, NewLockStore, NewLockStore, NewLockStore] } keyB (by decide)
  exact ⟨by decide, i, st, h, hi.trans (by decide)⟩

theorem readByte_unread (r : Reader) (b : Byte) (rest : Bytes) (h : r.unread = b :: rest) :
    ∃ r1, readByte r = .ok (b, r1) ∧ r1.unread = rest := by
  obtain ⟨buf, conn⟩ := r
  cases buf with
  | cons x xs =>
    simp only [Reader.unread, List.cons_append, List.cons.injEq] at h
    obtain ⟨rfl, h2⟩ := h
    exact ⟨_, readByte_buffered { buf := x :: xs, conn := conn } x xs rfl, h2⟩
  | nil =>
    simp only [Reader.unread, List.nil_append] at h
    cases hc : connRead conn defaultBufSize with
    | none =>
      have := connRead_none conn defaultBufSize hc
      rw [this] at h
      cases h
    | some p =>
      obtain ⟨bs, conn1⟩ := p
      obtain ⟨hne, -, hfl⟩ := connRead_some conn defaultBufSize bs conn1 (by decide) hc
      cases bs with
      | nil => exact absurd rfl hne
      | cons y ys =>
        rw [h] at hfl
        simp only [List.cons_append, List.cons.injEq] at hfl
        obtain ⟨rfl, h2⟩ := hfl
        refine ⟨{ buf := ys, conn := conn1 }, ?_, h2⟩
        have hnn : ¬ defaultBufSize ≤ 1 := by decide
        simp [readByte, Read, hnn, hc, fill]

/-- C17 (unknown opcodes). For every backend, every hash, every connection
state and every opcode byte other than 0, 1, 3, 4, 6 and 13 (so 2, 5, 7 to 12
and 14 to 255) that is the next unread byte of the connection, buffered or
not: `processCommand` returns the error "unknown command", and leaves the
connection as it was except that the opcode byte is read: the unread bytes
are those that followed it, nothing is written, no backend call is made and
no shard changes. -/
theorem unknown_opcode_rejected {σ : Type} (impl : Store σ) (xxh64 : Key → Nat) (t : Conn σ)
    (cmd : Byte) (rest : Bytes) (hin : t.input.unread = cmd :: rest)
    (hcmd : cmd.val ≠ 0 ∧ cmd.val ≠ 1 ∧ cmd.val ≠ 3 ∧ cmd.val ≠ 4 ∧ cmd.val ≠ 6 ∧ cmd.val ≠ 13) :
    ∃ t1, processCommand impl xxh64 t = .returned (.error (.unknownCommand cmd)) t1 ∧
      t1.input.unread = rest ∧ t1.output = t.output ∧ t1.calls = t.calls ∧ t1.s = t.s := by
  obtain ⟨h0, h1, h3, h4, h6, h13⟩ := hcmd
  have e0 : cmd ≠ QueryType.VALIDATE.code := fun e => h0 (by rw [e]; rfl)
  have e1 : cmd ≠ QueryType.SET.code := fun e => h1 (by rw [e]; rfl)
  have e3 : cmd ≠ QueryType.GET.code := fun e => h3 (by rw [e]; rfl)
  have e4 : cmd ≠ QueryType.ADD.code := fun e => h4 (by rw [e]; rfl)
  have e6 : cmd ≠ QueryType.WAIT.code := fun e => h6 (by rw [e]; rfl)
  have e13 : cmd ≠ QueryType.PING.code := fun e => h13 (by rw [e]; rfl)
  obtain ⟨r1, hb, hr1⟩ := readByte_unread t.input cmd rest hin
  refine ⟨{ t with input := r1 }, ?_, hr1, rfl, rfl, rfl⟩
  simp only [processCommand, hb, e0, e1, e3, e4, e6, e13, if_false]

/-- C17 at the opcode 99 and at the reserved opcode 2, each followed by three
more bytes on a new connection to a server with one lock store that holds
nothing. -/
theorem unknown_opcode_rejected_witness :
    ((99 : Byte).val ≠ 0 ∧ (99 : Byte).val ≠ 1 ∧ (99 : Byte).val ≠ 3 ∧ (99 : Byte).val ≠ 4 ∧
      (99 : Byte).val ≠ 6 ∧ (99 : Byte).val ≠ 13) ∧
    (∃ t1, processCommand lockStore (fun _ => 0)
          (newConn { stores := [NewLockStore] } [99, 1, 2, 3])
          = .returned (.error (.unknownCommand 99)) t1 ∧
        t1.input.unread = [1, 2, 3] ∧ t1.output = [] ∧ t1.calls = []) ∧
    (∃ t1, processCommand lockStore (fun _ => 0)
          (newConn { stores := [NewLockStore] } [2, 1, 2, 3])
          = .returned (.error (.unknownCommand 2)) t1 ∧
        t1.input.unread = [1, 2, 3] ∧ t1.output = [] ∧ t1.calls = []) := by
  obtain ⟨t1, h1, hi1, ho1, hc1, -⟩ := unknown_opcode_rejected lockStore (fun _ => 0)
    (newConn { stores := [NewLockStore] } [99, 1, 2, 3]) 99 [1, 2, 3] rfl (by decide)
  obtain ⟨t2, h2, hi2, ho2, hc2, -⟩ := unknown_opcode_rejected lockStore (fun _ => 0)
    (newConn { stores := [NewLockStore] } [2, 1, 2, 3]) 2 [1, 2, 3] rfl (by decide)
  exact ⟨by decide, ⟨t1, h1, hi1, ho1, hc1⟩, ⟨t2, h2, hi2, ho2, hc2⟩⟩

theorem processCommand_validate_eq {σ : Type} (impl : Store σ) (xxh64 : Key → Nat)
    (t : Conn σ) (m : Nat) (rest : Bytes) (hm : m < 2 ^ 32)
    (hin : t.input.refill.buf = QueryType.VALIDATE.code :: (writeUint32 [] m ++ rest)) :
    processCommand impl xxh64 t
      = if m ≠ validationMagicNumber then
          .returned (.error (.invalidMagic m))
            { t with input := { buf := rest, conn := t.input.refill.conn } }
        else .returned (.ok ()) { t with input := { buf := rest, conn := t.input.refill.conn } } := by
  have hb := readByte_first t.input _ _ hin
  have hread := readUint32_buffered
    { buf := writeUint32 [] m ++ rest, conn := t.input.refill.conn } m rest
    (by simp [writeUint32])
  rw [Nat.mod_eq_of_lt hm] at hread
  simp only [processCommand, hb, if_true, hread]

/-- C18 (VALIDATE). For every backend, hash and connection state, and every
`u32` magic `m`: on a connection whose buffer, filled from the connection if
it was empty, starts with a VALIDATE request carrying `m`, `processCommand`
returns without an error exactly when `m = 0x3C85F7CE`, and with the error
"invalid magic number" otherwise; either way it reads the five bytes of the
request and nothing else changes: nothing is written, no backend call is
made, no shard changes. -/
theorem validate_checks_magic {σ : Type} (impl : Store σ) (xxh64 : Key → Nat) (t : Conn σ)
    (m : Nat) (rest : Bytes) (hm : m < 2 ^ 32)
    (hin : t.input.refill.buf = QueryType.VALIDATE.code :: (writeUint32 [] m ++ rest)) :
    ∃ r t1, processCommand impl xxh64 t = .returned r t1 ∧
      (r = .ok () ↔ m = 0x3C85F7CE) ∧
      (m ≠ 0x3C85F7CE → r = .error (.invalidMagic m)) ∧
      t1.input = { buf := rest, conn := t.input.refill.conn } ∧
      t1.output = t.output ∧ t1.calls = t.calls ∧ t1.s = t.s := by
  have hp := processCommand_validate_eq impl xxh64 t m rest hm hin
  by_cases hmagic : m = validationMagicNumber
  · refine ⟨.ok (), { t with input := { buf := rest, conn := t.input.refill.conn } },
      ?_, ?_, ?_, rfl, rfl, rfl, rfl⟩
    · rw [hp]
      simp only [hmagic, ne_eq, not_true_eq_false, if_false]
    · simp [hmagic, validationMagicNumber]
    · intro h
      exact absurd hmagic h
  · refine ⟨.error (.invalidMagic m),
      { t with input := { buf := rest, conn := t.input.refill.conn } },
      ?_, ?_, ?_, rfl, rfl, rfl, rfl⟩
    · rw [hp]
      simp only [ne_eq, hmagic, not_false_eq_true, if_true]
    · constructor
      · intro h
        cases h
      · intro h
        exact absurd h hmagic
    · intro _
      rfl

/-- C18 at the magic of the protocol and at a magic that is one off, each
followed by one more byte on a new connection. -/
theorem validate_checks_magic_witness :
    ((1015412686 : Nat) < 2 ^ 32 ∧ (1015412687 : Nat) < 2 ^ 32) ∧
    (∃ t1, processCommand lockStore (fun _ => 0)
          (newConn { stores := [NewLockStore] } [0, 206, 247, 133, 60, 13])
          = .returned (.ok ()) t1 ∧
        t1.input.unread = [13] ∧ t1.output = [] ∧ t1.calls = []) ∧
    (∃ t1, processCommand lockStore (fun _ => 0)
          (newConn { stores := [NewLockStore] } [0, 207, 247, 133, 60, 13])
          = .returned (.error (.invalidMagic 1015412687)) t1 ∧
        t1.input.unread = [13] ∧ t1.output = [] ∧ t1.calls = []) := by
  obtain ⟨r1, t1, h1, hr1, -, hi1, ho1, hc1, -⟩ := validate_checks_magic lockStore (fun _ => 0)
    (newConn { stores := [NewLockStore] } [0, 206, 247, 133, 60, 13]) 1015412686 [13]
    (by decide) rfl
  obtain ⟨r2, t2, h2, -, hr2, hi2, ho2, hc2, -⟩ := validate_checks_magic lockStore (fun _ => 0)
    (newConn { stores := [NewLockStore] } [0, 207, 247, 133, 60, 13]) 1015412687 [13]
    (by decide) rfl
  have e1 : r1 = .ok () := hr1.mpr rfl
  have e2 : r2 = .error (.invalidMagic 1015412687) := hr2 (by decide)
  subst e1
  subst e2
  exact ⟨by decide, ⟨t1, h1, by rw [hi1]; rfl, ho1, hc1⟩, ⟨t2, h2, by rw [hi2]; rfl, ho2, hc2⟩⟩

theorem processCommand_get_eq {σ : Type} (impl : Store σ) (xxh64 : Key → Nat) (t : Conn σ)
    (k rest : Bytes) (i : Nat) (st : σ) (hk : k.length ≤ maxAlloc)
    (hshard : getShardStore xxh64 t.s k = some (i, st))
    (hin : t.input.refill.buf = QueryType.GET.code :: (writeString [] k ++ rest)) :
    processCommand impl xxh64 t =
      match ({ t with input := { buf := rest, conn := t.input.refill.conn } } : Conn σ).call
          i (.get k) (impl.Get st k) with
      | .returned (.ok value) t1 =>
        .returned (.ok ()) { t1 with output := writeString t1.output (value.getD []) }
      | .returned (.error err) t1 => .returned (.error (.store err)) t1
      | .blocked t1 => .blocked t1
      | .panicked => .panicked := by
  have n0 : QueryType.GET.code ≠ QueryType.VALIDATE.code := by decide
  have n13 : QueryType.GET.code ≠ QueryType.PING.code := by decide
  have n1 : QueryType.GET.code ≠ QueryType.SET.code := by decide
  have n6 : QueryType.GET.code ≠ QueryType.WAIT.code := by decide
  have hb := readByte_first t.input _ _ hin
  have hr1 := readString_buffered
    { buf := writeString [] k ++ rest, conn := t.input.refill.conn } k rest hk rfl
  simp only [processCommand, hb, n0, n13, n1, n6, if_false, if_true, hr1, hshard]

theorem processCommand_set_eq {σ : Type} (impl : Store σ) (xxh64 : Key → Nat) (t : Conn σ)
    (k v rest : Bytes) (i : Nat) (st : σ) (hk : k.length ≤ maxAlloc) (hv : v.length ≤ maxAlloc)
    (hshard : getShardStore xxh64 t.s k = some (i, st))
    (hin : t.input.refill.buf
      = QueryType.SET.code :: (writeString [] k ++ (writeString [] v ++ rest))) :
    processCommand impl xxh64 t =
      match ({ t with input := { buf := rest, conn := t.input.refill.conn } } : Conn σ).call
          i (.set k (some v)) (impl.Set st k (some v)) with
      | .returned (.ok ()) t1 => .returned (.ok ()) t1
      | .returned (.error err) t1 => .returned (.error (.store err)) t1
      | .blocked t1 => .blocked t1
      | .panicked => .panicked := by
  have n0 : QueryType.SET.code ≠ QueryType.VALIDATE.code := by decide
  have n13 : QueryType.SET.code ≠ QueryType.PING.code := by decide
  have hb := readByte_first t.input _ _ hin
  have hr1 := readString_buffered
    { buf := writeString [] k ++ (writeString [] v ++ rest), conn := t.input.refill.conn }
    k (writeString [] v ++ rest) hk rfl
  have hr2 := readString_buffered
    { buf := writeString [] v ++ rest, conn := t.input.refill.conn } v rest hv rfl
  simp only [processCommand, hb, n0, n13, if_false, if_true, hr1, hr2, hshard]

theorem processCommand_add_eq {σ : Type} (impl : Store σ) (xxh64 : Key → Nat) (t : Conn σ)
    (k rest : Bytes) (d : Int) (i : Nat) (st : σ) (hk : k.length ≤ maxAlloc)
    (hd1 : -2 ^ 63 ≤ d) (hd2 : d < 2 ^ 63)
    (hshard : getShardStore xxh64 t.s k = some (i, st))
    (hin : t.input.refill.buf
      = QueryType.ADD.code :: (writeString [] k ++ (writeInt64 [] d ++ rest))) :
    processCommand impl xxh64 t =
      match ({ t with input := { buf := rest, conn := t.input.refill.conn } } : Conn σ).call
          i (.add k d) (impl.Add st k d) with
      | .returned (.ok v) t1 => .returned (.ok ()) { t1 with output := writeInt64 t1.output v }
      | .returned (.error err) t1 => .returned (.error (.store err)) t1
      | .blocked t1 => .blocked t1
      | .panicked => .panicked := by
  have n0 : QueryType.ADD.code ≠ QueryType.VALIDATE.code := by decide
  have n13 : QueryType.ADD.code ≠ QueryType.PING.code := by decide
  have n1 : QueryType.ADD.code ≠ QueryType.SET.code := by decide
  have n6 : QueryType.ADD.code ≠ QueryType.WAIT.code := by decide
  have n3 : QueryType.ADD.code ≠ QueryType.GET.code := by decide
  have hb := readByte_first t.input _ _ hin
  have hr1 := readString_buffered
    { buf := writeString [] k ++ (writeInt64 [] d ++ rest), conn := t.input.refill.conn }
    k (writeInt64 [] d ++ rest) hk rfl
  have hr2 := readInt64_buffered
    { buf := writeInt64 [] d ++ rest, conn := t.input.refill.conn } (toUint64 d) rest
    (by simp [writeInt64])
  rw [Nat.mod_eq_of_lt (toUint64_lt d), toInt64_toUint64 d hd1 hd2] at hr2
  unfold processCommand
  rw [hb]
  simp only [n0, n13, n1, n6, n3, if_false, if_true]
  rw [hr1]
  simp only []
  rw [hr2]
  simp only [hshard]

/-- A key or value that stands in the buffer is no longer than the buffer,
so `make` accepts its length. -/
theorem length_le_maxAlloc_of_buffered (buf pre k post : Bytes)
    (hcap : buf.length ≤ defaultBufSize) (h : buf = pre ++ (writeString [] k ++ post)) :
    k.length ≤ maxAlloc := by
  have h1 := congrArg List.length h
  simp only [List.length_append, writeString, writeUint64] at h1
  have h2 := defaultBufSize_le_maxAlloc
  omega

/-- C16 (GET). For every backend, hash, connection state on a server with at
least one shard, and every key `k` such that the GET request for `k` stands
whole in the buffer of the connection (filled from the connection if it was
empty; the buffer takes 4096 bytes): `processCommand` calls `Get(k)` on the
shard `getShardStore` picks, once. When that call returns a value `v`,
`processCommand` returns without an error and has written exactly the eight
bytes of the length of `v` followed by the bytes of `v`; when it returns an
error, `processCommand` returns that error and has written nothing. -/
theorem get_writes_value {σ : Type} (impl : Store σ) (xxh64 : Key → Nat) (t : Conn σ)
    (k rest : Bytes) (hN : 1 ≤ t.s.stores.length)
    (hcap : t.input.refill.buf.length ≤ defaultBufSize)
    (hin : t.input.refill.buf = QueryType.GET.code :: (writeString [] k ++ rest)) :
    ∃ i st, getShardStore xxh64 t.s k = some (i, st) ∧
      (∀ v st1, impl.Get st k = .returned (.ok v) st1 →
        ∃ t1, processCommand impl xxh64 t = .returned (.ok ()) t1 ∧
          t1.output = t.output ++ le64 (v.getD []).length ++ v.getD [] ∧
          t1.input = { buf := rest, conn := t.input.refill.conn } ∧
          t1.calls = t.calls ++ [(i, .get k)] ∧
          t1.s.stores = t.s.stores.set i st1) ∧
      (∀ e st1, impl.Get st k = .returned (.error e) st1 →
        ∃ t1, processCommand impl xxh64 t = .returned (.error (.store e)) t1 ∧
          t1.output = t.output ∧
          t1.input = { buf := rest, conn := t.input.refill.conn } ∧
          t1.calls = t.calls ++ [(i, .get k)]) := by
  obtain ⟨st, hshard, -, -⟩ := getShardStore_some xxh64 t.s k hN
  have hk : k.length ≤ maxAlloc :=
    length_le_maxAlloc_of_buffered _ [QueryType.GET.code] k rest hcap hin
  have hp := processCommand_get_eq impl xxh64 t k rest _ st hk hshard hin
  refine ⟨_, st, hshard, ?_, ?_⟩
  · intro v st1 hget
    rw [hp, hget]
    exact ⟨_, rfl, rfl, rfl, rfl, rfl⟩
  · intro e st1 hget
    rw [hp, hget]
    exact ⟨_, rfl, rfl, rfl, rfl⟩

/-- C16 on new connections to a server with one lock store: with "hello"
stored under "k" the GET request for "k" is answered with the length 5 and
the five bytes; on a store that holds nothing it ends with the not-found
error and no output. -/
theorem get_writes_value_witness :
    (1 ≤ [helloStore].length ∧
      (newReader [3, 1, 0, 0, 0, 0, 0, 0, 0, 107]).refill.buf.length ≤ defaultBufSize ∧
      (newReader [3, 1, 0, 0, 0, 0, 0, 0, 0, 107]).refill.buf
        = QueryType.GET.code :: (writeString [] [107] ++ [])) ∧
    (∃ t1, processCommand lockStore (fun _ => 0)
          (newConn { stores := [helloStore] } [3, 1, 0, 0, 0, 0, 0, 0, 0, 107])
          = .returned (.ok ()) t1 ∧
        t1.output = [5, 0, 0, 0, 0, 0, 0, 0, 104, 101, 108, 108, 111]) ∧
    (∃ t1, processCommand lockStore (fun _ => 0)
          (newConn { stores := [NewLockStore] } [3, 1, 0, 0, 0, 0, 0, 0, 0, 107])
          = .returned (.error (.store (.keyNotFound [107]))) t1 ∧
        t1.output = []) := by
  obtain ⟨i, st, hshard, hok, -⟩ := get_writes_value lockStore (fun _ => 0)
    (newConn { stores := [helloStore] } [3, 1, 0, 0, 0, 0, 0, 0, 0, 107]) [107] []
    (by decide) (by decide) (by decide)
  obtain ⟨j, st2, hshard2, -, herr⟩ := get_writes_value lockStore (fun _ => 0)
    (newConn { stores := [NewLockStore] } [3, 1, 0, 0, 0, 0, 0, 0, 0, 107]) [107] []
    (by decide) (by decide) (by decide)
  have e1 : some (i, st) = some (0, helloStore) := hshard.symm.trans rfl
  have e2 : some (j, st2) = some (0, NewLockStore) := hshard2.symm.trans rfl
  simp only [Option.some.injEq, Prod.mk.injEq] at e1 e2
  obtain ⟨-, rfl⟩ := e1
  obtain ⟨-, rfl⟩ := e2
  obtain ⟨t1, h1, ho1, -, -⟩ := hok (some [104, 101, 108, 108, 111]) helloStore rfl
  obtain ⟨t2, h2, ho2, -, -⟩ := herr (.keyNotFound [107]) NewLockStore rfl
  exact ⟨⟨by decide, by decide, by decide⟩, ⟨t1, h1, ho1⟩, ⟨t2, h2, ho2⟩⟩

/-- X7. PING echoes the nonce: for every backend, hash and connection state
and every `u32` nonce, on a connection whose buffer (filled from the
connection if it was empty) starts with the PING request, `processCommand`
returns without an error, has written exactly the four bytes of the nonce,
least significant first, and has made no backend call. -/
theorem ping_echoes_nonce {σ : Type} (impl : Store σ) (xxh64 : Key → Nat) (t : Conn σ)
    (nonce : Nat) (rest : Bytes) (hn : nonce < 2 ^ 32)
    (hin : t.input.refill.buf = QueryType.PING.code :: (writeUint32 [] nonce ++ rest)) :
    ∃ t1, processCommand impl xxh64 t = .returned (.ok ()) t1 ∧
      t1.output = t.output ++ [byteAt nonce 0, byteAt nonce 1, byteAt nonce 2, byteAt nonce 3] ∧
      t1.input = { buf := rest, conn := t.input.refill.conn } ∧
      t1.calls = t.calls ∧ t1.s = t.s := by
  have hb := readByte_first t.input _ _ hin
  have hread := readUint32_buffered
    { buf := writeUint32 [] nonce ++ rest, conn := t.input.refill.conn } nonce rest
    (by simp [writeUint32])
  rw [Nat.mod_eq_of_lt hn] at hread
  have n0 : QueryType.PING.code ≠ QueryType.VALIDATE.code := by decide
  refine ⟨{ t with input := { buf := rest, conn := t.input.refill.conn },
                   output := writeUint32 t.output nonce }, ?_, rfl, rfl, rfl, rfl⟩
  simp only [processCommand, hb, n0, if_false, if_true, hread]

/-- X7 at the nonce `0x11223344`. -/
theorem ping_echoes_nonce_witness :
    (287454020 : Nat) < 2 ^ 32 ∧
    ∃ t1, processCommand lockStore (fun _ => 0)
        (newConn { stores := [NewLockStore] } [13, 68, 51, 34, 17]) = .returned (.ok ()) t1 ∧
      t1.output = [68, 51, 34, 17] := by
  obtain ⟨t1, h1, ho, -, -, -⟩ := ping_echoes_nonce lockStore (fun _ => 0)
    (newConn { stores := [NewLockStore] } [13, 68, 51, 34, 17]) 287454020 [] (by decide) rfl
  exact ⟨by decide, t1, h1, ho⟩

/-! ## The WAIT request -/

theorem specWait_succ {σ : Type} (wait : σ → List Key → Outcome σ Status) (xxh64 : Key → Nat) :
    ∀ (ks : List Key) (j : Nat) (stores : List σ),
      specWait wait xxh64 ks (j + 1) stores =
        match specWait wait xxh64 ks j stores with
        | .done s => .done s
        | .failed i e s => .failed (i + 1) e s
        | .suspended i s => .suspended (i + 1) s
        | .died i => .died (i + 1)
        | .noShard i => .noShard (i + 1) := by
  intro ks
  induction ks with
  | nil => intro j stores; rfl
  | cons k ks ih =>
    intro j stores
    simp only [specWait]
    cases stores[specShardIndex xxh64 stores.length k]? with
    | none => rfl
    | some st =>
      simp only []
      cases wait st [k] with
      | panicked => rfl
      | blocked st1 => rfl
      | returned r st1 =>
        cases r with
        | error e => rfl
        | ok u =>
          cases u
          exact ih (j + 1) _

theorem getShardStore_eq {σ : Type} (xxh64 : Key → Nat) (s : TCPStore σ) (k : Key) :
    getShardStore xxh64 s k
      = (s.stores[specShardIndex xxh64 s.stores.length k]?).map
          (fun st => (specShardIndex xxh64 s.stores.length k, st)) := by
  unfold getShardStore specShardIndex
  by_cases h1 : s.stores.length = 1
  · simp only [h1, if_true]
  · simp only [h1, if_false]
    by_cases h0 : s.stores.length = 0
    · simp only [h0, if_true]
      have : s.stores = [] := List.length_eq_zero.mp h0
      simp [this]
    · simp only [h0, if_false]

/-- The loop of the WAIT case does what the specification says: its outcome,
the shards it leaves and the calls it logs are those of `specWait`. -/
theorem waitEach_eq_specWait {σ : Type} (impl : Store σ) (xxh64 : Key → Nat) :
    ∀ (ks : List Key) (t : Conn σ),
      waitEach impl xxh64 ks t =
        match specWait impl.Wait xxh64 ks 0 t.s.stores with
        | .done stores =>
          .returned (.ok ())
            { input := t.input, output := t.output, s := { stores := stores },
              calls := t.calls ++ waitCalls xxh64 t.s.stores.length ks }
        | .failed j e stores =>
          .returned (.error (.store e))
            { input := t.input, output := t.output, s := { stores := stores },
              calls := t.calls ++ waitCalls xxh64 t.s.stores.length (ks.take (j + 1)) }
        | .suspended j stores =>
          .blocked
            { input := t.input, output := t.output, s := { stores := stores },
              calls := t.calls ++ waitCalls xxh64 t.s.stores.length (ks.take (j + 1)) }
        | .died _ => .panicked
        | .noShard _ => .panicked := by
  intro ks
  induction ks with
  | nil =>
    intro t
    simp [waitEach, specWait, waitCalls]
  | cons k ks ih =>
    intro t
    simp only [waitEach, specWait, getShardStore_eq]
    cases hst : t.s.stores[specShardIndex xxh64 t.s.stores.length k]? with
    | none => rfl
    | some st =>
      simp only [Option.map_some']
      cases hw : impl.Wait st [k] with
      | panicked => rfl
      | blocked st1 => simp [Conn.call, Conn.after, waitCalls]
      | returned r st1 =>
        cases r with
        | error e => simp [Conn.call, Conn.after, waitCalls]
        | ok u =>
          cases u
          simp only [Conn.call]
          rw [ih, specWait_succ]
          have hl : (t.after (specShardIndex xxh64 t.s.stores.length k) (Call.wait [k])
              st1).s.stores.length = t.s.stores.length := by simp [Conn.after]
          rw [hl]
          have hs : (t.after (specShardIndex xxh64 t.s.stores.length k) (Call.wait [k])
              st1).s.stores = t.s.stores.set (specShardIndex xxh64 t.s.stores.length k) st1 := rfl
          rw [hs]
          cases specWait impl.Wait xxh64 ks 0
              (t.s.stores.set (specShardIndex xxh64 t.s.stores.length k) st1) with
          | done s => simp [Conn.after, waitCalls]
          | failed j e s => simp [Conn.after, waitCalls]
          | suspended j s => simp [Conn.after, waitCalls]
          | died j => rfl
          | noShard j => rfl

theorem specWait_noShard {σ : Type} (wait : σ → List Key → Outcome σ Status)
    (xxh64 : Key → Nat) :
    ∀ (ks : List Key) (j i : Nat) (stores : List σ), 1 ≤ stores.length →
      specWait wait xxh64 ks j stores ≠ .noShard i := by
  intro ks
  induction ks with
  | nil => intro j i stores _ h; cases h
  | cons k ks ih =>
    intro j i stores hN
    obtain ⟨st, -, hst, -⟩ := getShardStore_some xxh64 { stores := stores } k hN
    simp only at hst
    simp only [specWait, hst]
    cases wait st [k] with
    | panicked => intro h; cases h
    | blocked st1 => intro h; cases h
    | returned r st1 =>
      cases r with
      | error e => intro h; cases h
      | ok u =>
        cases u
        exact ih (j + 1) i _ (by simpa using hN)

/-- What the results of `specWait` report is a result of the backend's `Wait`
on the key at that place of the list. -/
theorem specWait_sound {σ : Type} (wait : σ → List Key → Outcome σ Status)
    (xxh64 : Key → Nat) :
    ∀ (ks : List Key) (stores : List σ),
      (∀ j e s, specWait wait xxh64 ks 0 stores = .failed j e s →
        ∃ k st st1, ks[j]? = some k ∧ wait st [k] = .returned (.error e) st1) ∧
      (∀ j s, specWait wait xxh64 ks 0 stores = .suspended j s →
        ∃ k st st1, ks[j]? = some k ∧ wait st [k] = .blocked st1) ∧
      (∀ j, specWait wait xxh64 ks 0 stores = .died j →
        ∃ k st, ks[j]? = some k ∧ wait st [k] = .panicked) := by
  intro ks
  induction ks with
  | nil =>
    intro stores
    refine ⟨?_, ?_, ?_⟩ <;> intros <;> rename_i h <;> cases h
  | cons k ks ih =>
    intro stores
    simp only [specWait]
    cases stores[specShardIndex xxh64 stores.length k]? with
    | none =>
      refine ⟨?_, ?_, ?_⟩ <;> intros <;> rename_i h <;> cases h
    | some st =>
      simp only []
      cases hw : wait st [k] with
      | panicked =>
        refine ⟨?_, ?_, ?_⟩
        · intro j e s h; cases h
        · intro j s h; cases h
        · intro j h
          cases h
          exact ⟨k, st, by simp, hw⟩
      | blocked st1 =>
        refine ⟨?_, ?_, ?_⟩
        · intro j e s h; cases h
        · intro j s h
          cases h
          exact ⟨k, st, st1, by simp, hw⟩
        · intro j h; cases h
      | returned r st1 =>
        cases r with
        | error e =>
          refine ⟨?_, ?_, ?_⟩
          · intro j e2 s h
            cases h
            exact ⟨k, st, st1, by simp, hw⟩
          · intro j s h; cases h
          · intro j h; cases h
        | ok u =>
          cases u
          simp only []
          rw [specWait_succ]
          obtain ⟨ih1, ih2, ih3⟩ := ih (stores.set (specShardIndex xxh64 stores.length k) st1)
          cases hx : specWait wait xxh64 ks 0
              (stores.set (specShardIndex xxh64 stores.length k) st1) with
          | done s =>
            refine ⟨?_, ?_, ?_⟩ <;> intros <;> rename_i h <;> cases h
          | failed i e s =>
            refine ⟨?_, ?_, ?_⟩
            · intro j e2 s2 h
              cases h
              obtain ⟨k2, sa, sb, h1, h2⟩ := ih1 i e s hx
              exact ⟨k2, sa, sb, by simpa using h1, h2⟩
            · intro j s2 h; cases h
            · intro j h; cases h
          | suspended i s =>
            refine ⟨?_, ?_, ?_⟩
            · intro j e2 s2 h; cases h
            · intro j s2 h
              cases h
              obtain ⟨k2, sa, sb, h1, h2⟩ := ih2 i s hx
              exact ⟨k2, sa, sb, by simpa using h1, h2⟩
            · intro j h; cases h
          | died i =>
            refine ⟨?_, ?_, ?_⟩
            · intro j e2 s2 h; cases h
            · intro j s2 h; cases h
            · intro j h
              cases h
              obtain ⟨k2, sa, h1, h2⟩ := ih3 i hx
              exact ⟨k2, sa, by simpa using h1, h2⟩
          | noShard i =>
            refine ⟨?_, ?_, ?_⟩ <;> intros <;> rename_i h <;> cases h

theorem processCommand_wait_eq {σ : Type} (impl : Store σ) (xxh64 : Key → Nat) (t : Conn σ)
    (ks : List Key) (r1 r2 : Reader) (hN : 1 ≤ t.s.stores.length)
    (hop : readByte t.input = .ok (QueryType.WAIT.code, r1))
    (hkeys : readStrings r1 = some (.ok (ks, r2))) :
    processCommand impl xxh64 t =
      match specWait impl.Wait xxh64 ks 0 t.s.stores with
      | .done stores =>
        .returned (.ok ())
          { input := r2, output := t.output ++ [0], s := { stores := stores },
            calls := t.calls ++ waitCalls xxh64 t.s.stores.length ks }
      | .failed j e stores =>
        .returned (.error (.store e))
          { input := r2, output := t.output, s := { stores := stores },
            calls := t.calls ++ waitCalls xxh64 t.s.stores.length (ks.take (j + 1)) }
      | .suspended j stores =>
        .blocked
          { input := r2, output := t.output, s := { stores := stores },
            calls := t.calls ++ waitCalls xxh64 t.s.stores.length (ks.take (j + 1)) }
      | .died _ => .panicked
      | .noShard _ => .panicked := by
  have n0 : QueryType.WAIT.code ≠ QueryType.VALIDATE.code := by decide
  have n13 : QueryType.WAIT.code ≠ QueryType.PING.code := by decide
  have n1 : QueryType.WAIT.code ≠ QueryType.SET.code := by decide
  have hz : ¬ t.s.stores.length = 0 := by omega
  simp only [processCommand, hop, n0, n13, n1, if_false, if_true, hkeys, hz,
    waitEach_eq_specWait]
  cases specWait impl.Wait xxh64 ks 0 t.s.stores with
  | done s => simp [writeByte, STOP_WAITING]
  | failed j e s => rfl
  | suspended j s => rfl
  | died j => rfl
  | noShard j => rfl

theorem readStringsLoop_buffered : ∀ (ks : List Key) (r : Reader) (rest : Bytes),
    (∀ k ∈ ks, k.length ≤ maxAlloc) →
    r.buf = (ks.map (writeString [])).flatten ++ rest →
    readStringsLoop ks.length r = some (.ok (ks, { buf := rest, conn := r.conn })) := by
  intro ks
  induction ks with
  | nil =>
    intro r rest _ h
    obtain ⟨buf, conn⟩ := r
    simp only [List.map_nil, List.flatten_nil, List.nil_append] at h
    subst h
    rfl
  | cons k ks ih =>
    intro r rest hk h
    have h1 := readString_buffered r k ((ks.map (writeString [])).flatten ++ rest)
      (hk k (List.mem_cons_self _ _)) (by rw [h]; simp)
    have h2 := ih { buf := (ks.map (writeString [])).flatten ++ rest, conn := r.conn } rest
      (fun k2 hk2 => hk k2 (List.mem_cons_of_mem _ hk2)) rfl
    simp only [List.length_cons, readStringsLoop, h1, h2]

/-- The keys of a key list that stands in a buffer are no longer than the
buffer, and there are at most an eighth as many of them as it has bytes. -/
theorem keys_le_of_buffered : ∀ (ks : List Key),
    8 * ks.length ≤ ((ks.map (writeString [])).flatten).length ∧
    ∀ k ∈ ks, k.length ≤ ((ks.map (writeString [])).flatten).length := by
  intro ks
  induction ks with
  | nil => exact ⟨by simp, fun k hk => by cases hk⟩
  | cons k0 ks ih =>
    obtain ⟨ih1, ih2⟩ := ih
    have hl : (writeString [] k0).length = 8 + k0.length := by
      simp [writeString, writeUint64, le64]
      omega
    refine ⟨?_, ?_⟩
    · simp only [List.map_cons, List.flatten_cons, List.length_append, List.length_cons, hl]
      omega
    · intro k hk
      simp only [List.map_cons, List.flatten_cons, List.length_append, hl]
      rcases List.mem_cons.mp hk with rfl | hk2
      · omega
      · have := ih2 k hk2
        omega

/-- A WAIT request that stands whole in the buffer is decoded to its keys. -/
theorem readStrings_buffered (r : Reader) (ks : List Key) (rest : Bytes)
    (hcap : r.buf.length ≤ defaultBufSize)
    (h : r.buf = writeUint64 [] ks.length ++ (ks.map (writeString [])).flatten ++ rest) :
    readStrings r = some (.ok (ks, { buf := rest, conn := r.conn })) := by
  obtain ⟨hk1, hk2⟩ := keys_le_of_buffered ks
  have hlen := congrArg List.length h
  simp only [List.length_append, writeUint64, List.nil_append] at hlen
  have hl8 : (le64 ks.length).length = 8 := rfl
  rw [hl8] at hlen
  have hd := defaultBufSize_le_maxAlloc
  have hd2 : defaultBufSize = 4096 := rfl
  have hm := maxAlloc_lt_two64
  have hks : ks.length < two64 := by omega
  have h0 : r.buf = le64 ks.length ++ ((ks.map (writeString [])).flatten ++ rest) := by
    rw [h]; simp [writeUint64]
  have h1 := readUint64_buffered r ks.length _ h0
  rw [Nat.mod_eq_of_lt hks] at h1
  have h2 := readStringsLoop_buffered ks
    { buf := (ks.map (writeString [])).flatten ++ rest, conn := r.conn } rest
    (fun k hk => by have := hk2 k hk; omega) rfl
  have hn : ¬ maxAlloc < 16 * ks.length := by
    have : (2 : Nat) ^ 14 ≤ maxAlloc := by decide
    omega
  simp only [readStrings, h1, hn, if_false, h2]

theorem wait_request_decoded (r : Reader) (ks : List Key) (rest : Bytes)
    (hcap : r.refill.buf.length ≤ defaultBufSize)
    (hin : r.refill.buf = QueryType.WAIT.code ::
      (writeUint64 [] ks.length ++ (ks.map (writeString [])).flatten ++ rest)) :
    ∃ r1, readByte r = .ok (QueryType.WAIT.code, r1) ∧
      readStrings r1 = some (.ok (ks, { buf := rest, conn := r.refill.conn })) := by
  have hop := readByte_first r _ _ hin
  have hkeys := readStrings_buffered
    { buf := writeUint64 [] ks.length ++ (ks.map (writeString [])).flatten ++ rest,
      conn := r.refill.conn } ks rest
    (by
      have := congrArg List.length hin
      simp only [List.length_cons] at this
      show (writeUint64 [] ks.length ++ (ks.map (writeString [])).flatten ++ rest).length
        ≤ defaultBufSize
      omega) rfl
  exact ⟨_, hop, hkeys⟩

theorem processCommand_wait_buffered {σ : Type} (impl : Store σ) (xxh64 : Key → Nat)
    (t : Conn σ) (ks : List Key) (rest : Bytes) (hN : 1 ≤ t.s.stores.length)
    (hcap : t.input.refill.buf.length ≤ defaultBufSize)
    (hin : t.input.refill.buf = QueryType.WAIT.code ::
      (writeUint64 [] ks.length ++ (ks.map (writeString [])).flatten ++ rest)) :
    processCommand impl xxh64 t =
      match specWait impl.Wait xxh64 ks 0 t.s.stores with
      | .done stores =>
        .returned (.ok ())
          { input := { buf := rest, conn := t.input.refill.conn }, output := t.output ++ [0],
            s := { stores := stores },
            calls := t.calls ++ waitCalls xxh64 t.s.stores.length ks }
      | .failed j e stores =>
        .returned (.error (.store e))
          { input := { buf := rest, conn := t.input.refill.conn }, output := t.output,
            s := { stores := stores },
            calls := t.calls ++ waitCalls xxh64 t.s.stores.length (ks.take (j + 1)) }
      | .suspended j stores =>
        .blocked
          { input := { buf := rest, conn := t.input.refill.conn }, output := t.output,
            s := { stores := stores },
            calls := t.calls ++ waitCalls xxh64 t.s.stores.length (ks.take (j + 1)) }
      | .died _ => .panicked
      | .noShard _ => .panicked := by
  obtain ⟨r1, hop, hkeys⟩ := wait_request_decoded t.input ks rest hcap hin
  exact processCommand_wait_eq impl xxh64 t ks _ _ hN hop hkeys

/-- C15 (WAIT). On a server with `N ≥ 1` shards, one shard or several, for
every backend, and for every key list `k_1..k_m` whose WAIT request (the
opcode, the count `m` and the `m` keys, each after its length) stands whole
in the buffer of the connection (filled from the connection if it was empty;
the buffer takes 4096 bytes): the request decodes to `k_1..k_m`, and
`processCommand` does what the specification says, the conjunction of the
per-key waits in input order (`specWait`). When every `Wait([k_i])`, called
on the shard of the routing rule for `k_i` as the waits before it left it,
returns without an error, `processCommand` returns without an error, has
made exactly these `m` calls in order and has written the single byte 0. When the call for the key at
place `j` returns an error, `processCommand` returns that error, has made
the calls up to that one and no other, and has written nothing; when that
call stays suspended, so does `processCommand`, with nothing written; and it
ends the process only when a backend call does. The shard list is never
indexed out of range: every index of the routing rule is below `N` and is
the one `getShardStore` picks. -/
theorem wait_calls_each_key {σ : Type} (impl : Store σ) (xxh64 : Key → Nat) (t : Conn σ)
    (ks : List Key) (rest : Bytes) (hN : 1 ≤ t.s.stores.length)
    (hcap : t.input.refill.buf.length ≤ defaultBufSize)
    (hin : t.input.refill.buf = QueryType.WAIT.code ::
      (writeUint64 [] ks.length ++ (ks.map (writeString [])).flatten ++ rest)) :
    (∃ r1, readByte t.input = .ok (QueryType.WAIT.code, r1) ∧
      readStrings r1 = some (.ok (ks, { buf := rest, conn := t.input.refill.conn }))) ∧
    (processCommand impl xxh64 t =
      match specWait impl.Wait xxh64 ks 0 t.s.stores with
      | .done stores =>
        .returned (.ok ())
          { input := { buf := rest, conn := t.input.refill.conn }, output := t.output ++ [0],
            s := { stores := stores },
            calls := t.calls ++ waitCalls xxh64 t.s.stores.length ks }
      | .failed j e stores =>
        .returned (.error (.store e))
          { input := { buf := rest, conn := t.input.refill.conn }, output := t.output,
            s := { stores := stores },
            calls := t.calls ++ waitCalls xxh64 t.s.stores.length (ks.take (j + 1)) }
      | .suspended j stores =>
        .blocked
          { input := { buf := rest, conn := t.input.refill.conn }, output := t.output,
            s := { stores := stores },
            calls := t.calls ++ waitCalls xxh64 t.s.stores.length (ks.take (j + 1)) }
      | .died _ => .panicked
      | .noShard _ => .panicked) ∧
    (∀ j, specWait impl.Wait xxh64 ks 0 t.s.stores ≠ .noShard j) ∧
    (∀ j e s, specWait impl.Wait xxh64 ks 0 t.s.stores = .failed j e s →
      ∃ k st st1, ks[j]? = some k ∧ impl.Wait st [k] = .returned (.error e) st1) ∧
    (∀ j s, specWait impl.Wait xxh64 ks 0 t.s.stores = .suspended j s →
      ∃ k st st1, ks[j]? = some k ∧ impl.Wait st [k] = .blocked st1) ∧
    (∀ j, specWait impl.Wait xxh64 ks 0 t.s.stores = .died j →
      ∃ k st, ks[j]? = some k ∧ impl.Wait st [k] = .panicked) ∧
    (∀ k, specShardIndex xxh64 t.s.stores.length k < t.s.stores.length ∧
      ∃ st, getShardStore xxh64 t.s k = some (specShardIndex xxh64 t.s.stores.length k, st)) := by
  obtain ⟨h1, h2, h3⟩ := specWait_sound impl.Wait xxh64 ks t.s.stores
  refine ⟨wait_request_decoded t.input ks rest hcap hin,
    processCommand_wait_buffered impl xxh64 t ks rest hN hcap hin,
    fun j => specWait_noShard impl.Wait xxh64 ks 0 j t.s.stores hN, h1, h2, h3, fun k => ?_⟩
  obtain ⟨st, hs, -, hlt⟩ := getShardStore_some xxh64 t.s k hN
  exact ⟨hlt, st, hs⟩

/-- C15 on new connections to servers with two shards, with a hash that
sends "k" to shard 1, for the WAIT request `waitTwice`. On two lock stores
that both hold "k" it makes two calls `Wait(["k"])` on shard 1 and is
answered with the single byte 0. On two fresh concurrent stores the first
call stays suspended, the second is not made and nothing is written. On a
backend whose `Wait` fails, the first call's error is returned, the second
call is not made and nothing is written. -/
theorem wait_calls_each_key_witness :
    (1 ≤ [helloStore, helloStore].length ∧
      (newReader waitTwice).refill.buf.length ≤ defaultBufSize ∧
      (newReader waitTwice).refill.buf = QueryType.WAIT.code ::
        (writeUint64 [] [[107], [107]].length
          ++ ([[107], [107]].map (writeString [])).flatten ++ [])) ∧
    (∃ t1, processCommand lockStore (fun k => k.length)
        (newConn { stores := [helloStore, helloStore] } waitTwice) = .returned (.ok ()) t1 ∧
      t1.output = [0] ∧ t1.calls = [(1, .wait [[107]]), (1, .wait [[107]])]) ∧
    (∃ t1, processCommand concurrentStore (fun k => k.length)
        (newConn { stores := [NewConcurrentStore, NewConcurrentStore] } waitTwice)
        = .blocked t1 ∧
      t1.output = [] ∧ t1.calls = [(1, .wait [[107]])]) ∧
    (∃ t1, processCommand refusingStore (fun k => k.length)
        (newConn { stores := [(), ()] } waitTwice)
        = .returned (.error (.store (.keyNotFound [107]))) t1 ∧
      t1.output = [] ∧ t1.calls = [(1, .wait [[107]])]) := by
  have hA := (wait_calls_each_key lockStore (fun k => k.length)
    (newConn { stores := [helloStore, helloStore] } waitTwice)
    [[107], [107]] [] (by decide) (by decide) (by decide)).2.1
  have hB := (wait_calls_each_key concurrentStore (fun k => k.length)
    (newConn { stores := [NewConcurrentStore, NewConcurrentStore] } waitTwice)
    [[107], [107]] [] (by decide) (by decide) (by decide)).2.1
  have hC := (wait_calls_each_key refusingStore (fun k => k.length)
    (newConn { stores := [(), ()] } waitTwice)
    [[107], [107]] [] (by decide) (by decide) (by decide)).2.1
  exact ⟨⟨by decide, by decide, by decide⟩, ⟨_, hA.trans rfl, rfl, rfl⟩,
    ⟨_, hB.trans rfl, rfl, rfl⟩, ⟨_, hC.trans rfl, rfl, rfl⟩⟩

/-! ## The connection handler keeps no handshake state -/

/-- C19, as the claim states it, fails: on a server with one fresh lock store,
a connection whose first and only request is `SET("k", "hello")`, with no
VALIDATE before it, has the request dispatched: the handler calls `Set` on
shard 0, the store then holds "hello" under "k", and the connection ends only
at the end of the stream. -/
theorem set_dispatched_without_validate :
    ∃ t1, workerHandler lockStore (fun _ => 0)
        (newConn { stores := [NewLockStore] }
          [1, 1, 0, 0, 0, 0, 0, 0, 0, 107, 5, 0, 0, 0, 0, 0, 0, 0, 104, 101, 108, 108, 111])
        = some (.returned .eof t1) ∧
      t1.calls = [(0, .set [107] (some [104, 101, 108, 108, 111]))] ∧
      ∃ st, t1.s.stores = [st] ∧
        st.Get [107] = .returned (.ok (some [104, 101, 108, 108, 111])) st :=
  ⟨_, rfl, rfl, _, rfl, rfl⟩

/-- C19, amended. The handshake is checked but not enforced. On a server
with at least one shard, for every backend and every state of a connection
whose next request stands whole in the buffer (filled from the connection if
it was empty; the buffer takes 4096 bytes):
(1) a VALIDATE request whose magic is not `0x3C85F7CE` ends the handler loop
with the error "invalid magic number"; no backend call is made, no shard
changes, nothing is written, and what follows it in the stream stays unread.
(2) A SET, GET or ADD request is dispatched to the shard of its key, and a
WAIT request to the shard of its first key, whatever came before on the
connection: unless the backend call itself ends the process, the call is the
next entry of the call log. -/
theorem handshake_checked_not_enforced {σ : Type} (impl : Store σ) (xxh64 : Key → Nat)
    (t : Conn σ) (hN : 1 ≤ t.s.stores.length)
    (hcap : t.input.refill.buf.length ≤ defaultBufSize) :
    (∀ m rest, m < 2 ^ 32 → m ≠ 0x3C85F7CE →
      t.input.refill.buf = QueryType.VALIDATE.code :: (writeUint32 [] m ++ rest) →
      ∃ t1, workerHandler impl xxh64 t = some (.returned (.invalidMagic m) t1) ∧
        t1.input = { buf := rest, conn := t.input.refill.conn } ∧
        t1.output = t.output ∧ t1.calls = t.calls ∧ t1.s = t.s) ∧
    (∀ k v rest,
      t.input.refill.buf
        = QueryType.SET.code :: (writeString [] k ++ (writeString [] v ++ rest)) →
      match processCommand impl xxh64 t with
      | .returned _ t1 =>
        t1.calls = t.calls ++ [(specShardIndex xxh64 t.s.stores.length k, .set k (some v))]
      | .blocked t1 =>
        t1.calls = t.calls ++ [(specShardIndex xxh64 t.s.stores.length k, .set k (some v))]
      | .panicked => ∃ st, impl.Set st k (some v) = .panicked) ∧
    (∀ k rest,
      t.input.refill.buf = QueryType.GET.code :: (writeString [] k ++ rest) →
      match processCommand impl xxh64 t with
      | .returned _ t1 =>
        t1.calls = t.calls ++ [(specShardIndex xxh64 t.s.stores.length k, .get k)]
      | .blocked t1 =>
        t1.calls = t.calls ++ [(specShardIndex xxh64 t.s.stores.length k, .get k)]
      | .panicked => ∃ st, impl.Get st k = .panicked) ∧
    (∀ k d rest, -2 ^ 63 ≤ d → d < 2 ^ 63 →
      t.input.refill.buf = QueryType.ADD.code :: (writeString [] k ++ (writeInt64 [] d ++ rest)) →
      match processCommand impl xxh64 t with
      | .returned _ t1 =>
        t1.calls = t.calls ++ [(specShardIndex xxh64 t.s.stores.length k, .add k d)]
      | .blocked t1 =>
        t1.calls = t.calls ++ [(specShardIndex xxh64 t.s.stores.length k, .add k d)]
      | .panicked => ∃ st, impl.Add st k d = .panicked) ∧
    (∀ k ks rest,
      t.input.refill.buf = QueryType.WAIT.code ::
        (writeUint64 [] (k :: ks).length ++ ((k :: ks).map (writeString [])).flatten ++ rest) →
      match processCommand impl xxh64 t with
      | .returned _ t1 =>
        ∃ more, t1.calls
          = t.calls ++ (specShardIndex xxh64 t.s.stores.length k, Call.wait [k]) :: more
      | .blocked t1 =>
        ∃ more, t1.calls
          = t.calls ++ (specShardIndex xxh64 t.s.stores.length k, Call.wait [k]) :: more
      | .panicked => ∃ st keys, impl.Wait st keys = .panicked) := by
  refine ⟨?_, ?_, ?_, ?_, ?_⟩
  · intro m rest hm hne hin
    have hp := processCommand_validate_eq impl xxh64 t m rest hm hin
    have hne2 : m ≠ validationMagicNumber := hne
    simp only [ne_eq, hne2, not_false_eq_true, if_true] at hp
    exact ⟨{ t with input := { buf := rest, conn := t.input.refill.conn } },
      by simp only [workerHandler, workerHandlerLoop, hp], rfl, rfl, rfl, rfl⟩
  · intro k v rest hin
    obtain ⟨st, hshard, -, -⟩ := getShardStore_some xxh64 t.s k hN
    have hk : k.length ≤ maxAlloc :=
      length_le_maxAlloc_of_buffered _ [QueryType.SET.code] k _ hcap hin
    have hv : v.length ≤ maxAlloc :=
      length_le_maxAlloc_of_buffered _ (QueryType.SET.code :: writeString [] k) v rest hcap
        (by rw [hin]; simp)
    rw [processCommand_set_eq impl xxh64 t k v rest _ st hk hv hshard hin]
    cases hc : impl.Set st k (some v) with
    | panicked => exact ⟨st, hc⟩
    | blocked st1 => simp [Conn.call, Conn.after]
    | returned r st1 => cases r <;> simp [Conn.call, Conn.after]
  · intro k rest hin
    obtain ⟨st, hshard, -, -⟩ := getShardStore_some xxh64 t.s k hN
    have hk : k.length ≤ maxAlloc :=
      length_le_maxAlloc_of_buffered _ [QueryType.GET.code] k _ hcap hin
    rw [processCommand_get_eq impl xxh64 t k rest _ st hk hshard hin]
    cases hc : impl.Get st k with
    | panicked => exact ⟨st, hc⟩
    | blocked st1 => simp [Conn.call, Conn.after]
    | returned r st1 => cases r <;> simp [Conn.call, Conn.after]
  · intro k d rest hd1 hd2 hin
    obtain ⟨st, hshard, -, -⟩ := getShardStore_some xxh64 t.s k hN
    have hk : k.length ≤ maxAlloc :=
      length_le_maxAlloc_of_buffered _ [QueryType.ADD.code] k _ hcap hin
    rw [processCommand_add_eq impl xxh64 t k rest d _ st hk hd1 hd2 hshard hin]
    cases hc : impl.Add st k d with
    | panicked => exact ⟨st, hc⟩
    | blocked st1 => simp [Conn.call, Conn.after]
    | returned r st1 => cases r <;> simp [Conn.call, Conn.after]
  · intro k ks rest hin
    rw [processCommand_wait_buffered impl xxh64 t (k :: ks) rest hN hcap hin]
    obtain ⟨-, -, h3⟩ := specWait_sound impl.Wait xxh64 (k :: ks) t.s.stores
    have h4 := specWait_noShard impl.Wait xxh64 (k :: ks) 0
    cases hs : specWait impl.Wait xxh64 (k :: ks) 0 t.s.stores with
    | done s => exact ⟨waitCalls xxh64 t.s.stores.length ks, by simp [waitCalls]⟩
    | failed j e s =>
      exact ⟨waitCalls xxh64 t.s.stores.length (ks.take j), by simp [waitCalls]⟩
    | suspended j s =>
      exact ⟨waitCalls xxh64 t.s.stores.length (ks.take j), by simp [waitCalls]⟩
    | died j =>
      obtain ⟨k2, st, -, hw⟩ := h3 j hs
      exact ⟨st, [k2], hw⟩
    | noShard j => exact absurd hs (h4 j t.s.stores hN)

/-- The amended C19 on a server with one fresh lock store: a new connection
that sends a VALIDATE with a magic that is one off, then a SET, is closed at
the VALIDATE with the SET unread and no backend call made; a new connection
that sends the SET alone has `Set` called on shard 0. -/
theorem handshake_checked_not_enforced_witness :
    (1 ≤ [NewLockStore].length ∧
      (newReader [0, 207, 247, 133, 60, 1, 1, 0, 0, 0, 0, 0, 0, 0, 107,
        1, 0, 0, 0, 0, 0, 0, 0, 118]).refill.buf.length ≤ defaultBufSize ∧
      (newReader [1, 1, 0, 0, 0, 0, 0, 0, 0, 107,
        1, 0, 0, 0, 0, 0, 0, 0, 118]).refill.buf.length ≤ defaultBufSize) ∧
    (∃ t1, workerHandler lockStore (fun _ => 0)
          (newConn { stores := [NewLockStore] }
            [0, 207, 247, 133, 60, 1, 1, 0, 0, 0, 0, 0, 0, 0, 107, 1, 0, 0, 0, 0, 0, 0, 0, 118])
          = some (.returned (.invalidMagic 1015412687) t1) ∧
        t1.input.unread = [1, 1, 0, 0, 0, 0, 0, 0, 0, 107, 1, 0, 0, 0, 0, 0, 0, 0, 118] ∧
        t1.calls = []) ∧
    (∃ t1, processCommand lockStore (fun _ => 0)
          (newConn { stores := [NewLockStore] }
            [1, 1, 0, 0, 0, 0, 0, 0, 0, 107, 1, 0, 0, 0, 0, 0, 0, 0, 118])
          = .returned (.ok ()) t1 ∧
        t1.calls = [(0, .set [107] (some [118]))]) := by
  have hA := (handshake_checked_not_enforced lockStore (fun _ => 0)
    (newConn { stores := [NewLockStore] }
      [0, 207, 247, 133, 60, 1, 1, 0, 0, 0, 0, 0, 0, 0, 107, 1, 0, 0, 0, 0, 0, 0, 0, 118])
    (by decide) (by decide)).1 1015412687
    [1, 1, 0, 0, 0, 0, 0, 0, 0, 107, 1, 0, 0, 0, 0, 0, 0, 0, 118]
    (by decide) (by decide) (by decide)
  have hB := (handshake_checked_not_enforced lockStore (fun _ => 0)
    (newConn { stores := [NewLockStore] }
      [1, 1, 0, 0, 0, 0, 0, 0, 0, 107, 1, 0, 0, 0, 0, 0, 0, 0, 118])
    (by decide) (by decide)).2.1 [107] [118] [] (by decide)
  obtain ⟨t1, h1, hi1, -, hc1, -⟩ := hA
  have hp : ∃ T, processCommand lockStore (fun _ => 0)
      (newConn { stores := [NewLockStore] }
        [1, 1, 0, 0, 0, 0, 0, 0, 0, 107, 1, 0, 0, 0, 0, 0, 0, 0, 118])
      = .returned (.ok ()) T := ⟨_, rfl⟩
  obtain ⟨T, hT⟩ := hp
  rw [hT] at hB
  exact ⟨⟨by decide, by decide, by decide⟩, ⟨t1, h1, by rw [hi1]; rfl, hc1⟩, ⟨T, hT, hB⟩⟩

/-- X9. A declared length that `make` does not accept ends the process: a
string that declares `2^63` bytes, a key list that declares `2^64 - 1` keys,
and a WAIT request whose only key declares `2^63` bytes. -/
theorem oversize_length_panics :
    readString (newReader [0, 0, 0, 0, 0, 0, 0, 128]) = none ∧
    readStrings (newReader [255, 255, 255, 255, 255, 255, 255, 255]) = none ∧
    processCommand lockStore (fun _ => 0)
        (newConn { stores := [NewLockStore] }
          [6, 1, 0, 0, 0, 0, 0, 0, 0, 0, 0, 0, 0, 0, 0, 0, 128]) = .panicked ∧
    workerHandler lockStore (fun _ => 0)
        (newConn { stores := [NewLockStore] }
          [6, 1, 0, 0, 0, 0, 0, 0, 0, 0, 0, 0, 0, 0, 0, 0, 128]) = some .panicked :=
  ⟨by decide, by decide, rfl, rfl⟩

/-! ## The coarse-locked backend: waiting on an absent key -/

/-- C20 at a failing input. On a fresh lock store `Wait(["B"])` is never
woken, because it never parks: it ends the process in its first
`cond.Wait()`. So it is from every state of the store and for every key
list: `Wait` returns, without an error and leaving the store as it is, when
every key is in the value map at the call, and ends the process when some
key is not; it never stays suspended, so no `Set` can make it return. The
concurrent store, whose condition variable is made on the read side of the
entry's lock, parks the caller on the same call, and `Set` then marks the
entry valid and wakes it. -/
theorem lock_wait_on_absent_key_ends_process :
    NewLockStore.Wait [keyB] = .panicked ∧
    (∀ (s : LockStore) (keys : List Key),
      (∀ k ∈ keys, (s.store k).isSome = true) → s.Wait keys = .returned (.ok ()) s) ∧
    (∀ (s : LockStore) (keys : List Key),
      (∃ k ∈ keys, s.store k = none) → s.Wait keys = .panicked) ∧
    (∀ (s s1 : LockStore) (keys : List Key), s.Wait keys ≠ .blocked s1) ∧
    (∃ s1 s2, NewConcurrentStore.Wait [keyB] = .blocked s1 ∧
        s1.store keyB = some { cond := 1, valid := false, data := none } ∧
        s1.Set keyB (some [118]) = .returned (.ok ()) s2 ∧
        s2.store keyB = some { cond := 0, valid := true, data := some [118] }) := by
  refine ⟨rfl, ?_, ?_, ?_, ⟨_, _, rfl, rfl, rfl, rfl⟩⟩
  · intro s keys
    induction keys with
    | nil => intro _; rfl
    | cons key keys ih =>
      intro h
      have hk := h key (List.mem_cons_self _ _)
      unfold LockStore.Wait
      simp only [hk, Bool.not_true, Bool.false_eq_true, if_false]
      exact ih (fun k hk2 => h k (List.mem_cons_of_mem _ hk2))
  · intro s keys
    induction keys with
    | nil => rintro ⟨k, hk, -⟩; cases hk
    | cons key keys ih =>
      rintro ⟨k, hk, hnone⟩
      unfold LockStore.Wait
      cases hs : s.store key with
      | none => simp
      | some v =>
        simp only [Option.isSome_some, Bool.not_true, Bool.false_eq_true, if_false]
        rcases List.mem_cons.mp hk with rfl | hk2
        · rw [hnone] at hs; cases hs
        · exact ih ⟨k, hk2, hnone⟩
  · intro s s1 keys
    induction keys with
    | nil => intro h; cases h
    | cons key keys ih =>
      unfold LockStore.Wait
      cases hs : s.store key with
      | none => intro h; simp at h
      | some v =>
        simp only [Option.isSome_some, Bool.not_true, Bool.false_eq_true, if_false]
        exact ih

/-! ## The handler loop ends -/

/-- A read hands out unread bytes, in order, and at least one when it is
asked for one and returns without an error. -/
theorem Read_unread (r : Reader) (n : Nat) (bs : Bytes) (r1 : Reader)
    (h : Read r n = .ok (bs, r1)) :
    bs ++ r1.unread = r.unread ∧ (0 < n → bs ≠ []) := by
  unfold Read at h
  split at h
  · rename_i hn
    simp only [Except.ok.injEq, Prod.mk.injEq] at h
    obtain ⟨rfl, rfl⟩ := h
    exact ⟨rfl, fun h0 => absurd hn (by omega)⟩
  · rename_i hn
    have hn0 : 0 < n := by omega
    split at h
    · rename_i hb
      have hb2 : r.buf = [] := by simpa using hb
      split at h
      · split at h
        · cases h
        · rename_i bs2 conn1 hc
          simp only [Except.ok.injEq, Prod.mk.injEq] at h
          obtain ⟨rfl, rfl⟩ := h
          obtain ⟨h1, -, h3⟩ := connRead_some r.conn n bs2 conn1 hn0 hc
          exact ⟨by simp [Reader.unread, hb2, h3], fun _ => h1⟩
      · split at h
        · cases h
        · rename_i bs2 conn1 hc
          simp only [Except.ok.injEq, Prod.mk.injEq] at h
          obtain ⟨rfl, rfl⟩ := h
          obtain ⟨h1, -, h3⟩ := connRead_some r.conn defaultBufSize bs2 conn1 (by decide) hc
          refine ⟨?_, fun _ => ?_⟩
          · simp only [Reader.unread, hb2, List.nil_append, ← h3, ← List.append_assoc,
              List.take_append_drop]
          · cases bs2 with
            | nil => exact absurd rfl h1
            | cons y ys =>
              obtain ⟨m, rfl⟩ : ∃ m, n = m + 1 := ⟨n - 1, by omega⟩
              simp
    · rename_i hb
      simp only [Except.ok.injEq, Prod.mk.injEq] at h
      obtain ⟨rfl, rfl⟩ := h
      refine ⟨?_, fun _ => ?_⟩
      · simp only [Reader.unread, ← List.append_assoc, List.take_append_drop]
      · cases hbuf : r.buf with
        | nil => rw [hbuf] at hb; simp at hb
        | cons y ys =>
          obtain ⟨m, rfl⟩ : ∃ m, n = m + 1 := ⟨n - 1, by omega⟩
          simp

theorem Read_rest_le (r : Reader) (n : Nat) (bs : Bytes) (r1 : Reader)
    (h : Read r n = .ok (bs, r1)) : r1.unread.length ≤ r.unread.length := by
  have h1 := congrArg List.length (Read_unread r n bs r1 h).1
  simp only [List.length_append] at h1
  omega

theorem readByte_rest_lt (r : Reader) (b : Byte) (r1 : Reader)
    (h : readByte r = .ok (b, r1)) : r1.unread.length < r.unread.length := by
  unfold readByte at h
  split at h
  · cases h
  · rename_i bs rest hr
    simp only [Except.ok.injEq, Prod.mk.injEq] at h
    obtain ⟨-, rfl⟩ := h
    obtain ⟨h1, h2⟩ := Read_unread r 1 bs rest hr
    have h3 := congrArg List.length h1
    simp only [List.length_append] at h3
    have h4 : 0 < bs.length := List.length_pos.mpr (h2 (by decide))
    omega

theorem readUint32_rest_le (r : Reader) (v : Nat) (r1 : Reader)
    (h : readUint32 r = .ok (v, r1)) : r1.unread.length ≤ r.unread.length := by
  unfold readUint32 at h
  split at h
  · cases h
  · rename_i bs rest2 hr
    simp only [Except.ok.injEq, Prod.mk.injEq] at h
    rw [← h.2]
    exact Read_rest_le r 4 bs rest2 hr

theorem readUint64_rest_le (r : Reader) (v : Nat) (r1 : Reader)
    (h : readUint64 r = .ok (v, r1)) : r1.unread.length ≤ r.unread.length := by
  unfold readUint64 at h
  split at h
  · cases h
  · rename_i bs rest2 hr
    simp only [Except.ok.injEq, Prod.mk.injEq] at h
    rw [← h.2]
    exact Read_rest_le r 8 bs rest2 hr

theorem readInt64_rest_le (r : Reader) (v : Int) (r1 : Reader)
    (h : readInt64 r = .ok (v, r1)) : r1.unread.length ≤ r.unread.length := by
  unfold readInt64 at h
  split at h
  · cases h
  · rename_i bs rest2 hr
    simp only [Except.ok.injEq, Prod.mk.injEq] at h
    rw [← h.2]
    exact Read_rest_le r 8 bs rest2 hr

theorem readString_rest_le (r : Reader) (v : Bytes) (r1 : Reader)
    (h : readString r = some (.ok (v, r1))) : r1.unread.length ≤ r.unread.length := by
  unfold readString at h
  split at h
  · cases h
  · rename_i length r2 h1
    have hl1 := readUint64_rest_le r length r2 h1
    split at h
    · cases h
    · split at h
      · cases h
      · rename_i bs r3 h2
        have hl2 := Read_rest_le r2 length bs r3 h2
        simp only [Option.some.injEq, Except.ok.injEq, Prod.mk.injEq] at h
        rw [← h.2]
        omega

theorem readStringsLoop_rest_le : ∀ (n : Nat) (r : Reader) (ks : List Bytes) (r1 : Reader),
    readStringsLoop n r = some (.ok (ks, r1)) → r1.unread.length ≤ r.unread.length := by
  intro n
  induction n with
  | zero =>
    intro r ks r1 h
    simp only [readStringsLoop, Option.some.injEq, Except.ok.injEq, Prod.mk.injEq] at h
    rw [← h.2]
  | succ n ih =>
    intro r ks r1 h
    unfold readStringsLoop at h
    split at h
    · cases h
    · cases h
    · rename_i key r2 h1
      have hl1 := readString_rest_le r key r2 h1
      split at h
      · cases h
      · cases h
      · rename_i keys r3 h2
        have hl2 := ih r2 keys r3 h2
        simp only [Option.some.injEq, Except.ok.injEq, Prod.mk.injEq] at h
        rw [← h.2]
        omega

theorem readStrings_rest_le (r : Reader) (ks : List Bytes) (r1 : Reader)
    (h : readStrings r = some (.ok (ks, r1))) : r1.unread.length ≤ r.unread.length := by
  unfold readStrings at h
  split at h
  · cases h
  · rename_i length r2 h1
    have hl1 := readUint64_rest_le r length r2 h1
    split at h
    · cases h
    · have hl2 := readStringsLoop_rest_le length r2 ks r1 h
      omega

theorem waitEach_input {σ : Type} (impl : Store σ) (xxh64 : Key → Nat) :
    ∀ (ks : List Key) (t t1 : Conn σ) (r : Except ServerError Unit),
      waitEach impl xxh64 ks t = .returned r t1 → t1.input = t.input := by
  intro ks t t1 r h
  rw [waitEach_eq_specWait] at h
  split at h
  · simp only [Outcome.returned.injEq] at h
    rw [← h.2]
  · simp only [Outcome.returned.injEq] at h
    rw [← h.2]
  · cases h
  · cases h
  · cases h

theorem call_returned_input {σ α : Type} (t t1 : Conn σ) (i : Nat) (c : Call) (o : Outcome σ α)
    (r : α) (h : t.call i c o = .returned r t1) : t1.input = t.input := by
  cases o with
  | panicked => simp [Conn.call] at h
  | blocked st => simp [Conn.call] at h
  | returned res st =>
    simp only [Conn.call, Outcome.returned.injEq] at h
    rw [← h.2]
    rfl

theorem processCommand_consumes {σ : Type} (impl : Store σ) (xxh64 : Key → Nat) (t t1 : Conn σ)
    (h : processCommand impl xxh64 t = .returned (.ok ()) t1) :
    t1.input.unread.length < t.input.unread.length := by
  unfold processCommand at h
  split at h
  · simp at h
  · rename_i cmd r1 hb
    have hlt := readByte_rest_lt t.input cmd r1 hb
    split at h
    · -- VALIDATE
      split at h
      · simp at h
      · rename_i data r2 hr
        have hl := readUint32_rest_le r1 data r2 hr
        split at h
        · simp at h
        · simp only [Outcome.returned.injEq, true_and] at h
          rw [← h]
          show r2.unread.length < t.input.unread.length
          omega
    · split at h
      · -- PING
        split at h
        · simp at h
        · rename_i data r2 hr
          have hl := readUint32_rest_le r1 data r2 hr
          simp only [Outcome.returned.injEq, true_and] at h
          rw [← h]
          show r2.unread.length < t.input.unread.length
          omega
      · split at h
        · -- SET
          split at h
          · simp at h
          · simp at h
          · rename_i key r2 hr2
            have hl2 := readString_rest_le r1 key r2 hr2
            split at h
            · simp at h
            · simp at h
            · rename_i value r3 hr3
              have hl3 := readString_rest_le r2 value r3 hr3
              split at h
              · simp at h
              · rename_i i st hshard
                split at h
                · rename_i t2 hc
                  have hi := call_returned_input _ _ _ _ _ _ hc
                  simp only [Outcome.returned.injEq, true_and] at h
                  rw [← h, hi]
                  show r3.unread.length < t.input.unread.length
                  omega
                · simp at h
                · simp at h
                · simp at h
        · split at h
          · -- WAIT
            split at h
            · simp at h
            · simp at h
            · rename_i keys r2 hr2
              have hl2 := readStrings_rest_le r1 keys r2 hr2
              split at h
              · simp at h
              · split at h
                · rename_i t2 hw
                  have hi := waitEach_input impl xxh64 keys _ _ _ hw
                  simp only [Outcome.returned.injEq, true_and] at h
                  rw [← h]
                  show t2.input.unread.length < t.input.unread.length
                  rw [hi]
                  show r2.unread.length < t.input.unread.length
                  omega
                · rename_i other hne
                  exact absurd h (hne t1)
          · split at h
            · -- GET
              split at h
              · simp at h
              · simp at h
              · rename_i key r2 hr2
                have hl2 := readString_rest_le r1 key r2 hr2
                split at h
                · simp at h
                · rename_i i st hshard
                  split at h
                  · rename_i value t2 hc
                    have hi := call_returned_input _ _ _ _ _ _ hc
                    simp only [Outcome.returned.injEq, true_and] at h
                    rw [← h]
                    show t2.input.unread.length < t.input.unread.length
                    rw [hi]
                    show r2.unread.length < t.input.unread.length
                    omega
                  · simp at h
                  · simp at h
                  · simp at h
            · split at h
              · -- ADD
                split at h
                · simp at h
                · simp at h
                · rename_i key r2 hr2
                  have hl2 := readString_rest_le r1 key r2 hr2
                  split at h
                  · simp at h
                  · rename_i incr r3 hr3
                    have hl3 := readInt64_rest_le r2 incr r3 hr3
                    split at h
                    · simp at h
                    · rename_i i st hshard
                      split at h
                      · rename_i v t2 hc
                        have hi := call_returned_input _ _ _ _ _ _ hc
                        simp only [Outcome.returned.injEq, true_and] at h
                        rw [← h]
                        show t2.input.unread.length < t.input.unread.length
                        rw [hi]
                        show r3.unread.length < t.input.unread.length
                        omega
                      · simp at h
                      · simp at h
                      · simp at h
              · simp at h

theorem workerHandlerLoop_total {σ : Type} (impl : Store σ) (xxh64 : Key → Nat) :
    ∀ (fuel : Nat) (t : Conn σ), t.input.unread.length < fuel →
      ∃ o, workerHandlerLoop impl xxh64 fuel t = some o := by
  intro fuel
  induction fuel with
  | zero => intro t h; omega
  | succ fuel ih =>
    intro t h
    unfold workerHandlerLoop
    cases hp : processCommand impl xxh64 t with
    | panicked => exact ⟨_, rfl⟩
    | blocked t1 => exact ⟨_, rfl⟩
    | returned r t1 =>
      cases r with
      | error e => exact ⟨_, rfl⟩
      | ok u =>
        cases u
        have hlt := processCommand_consumes impl xxh64 t t1 hp
        exact ih t1 (by omega)

/-- X6. The handler loop of a connection ends, for every backend, hash and
connection state: on a connection that delivers finitely many bytes
`workerHandler` closes the connection with an error (the end of the stream at
the latest), stays suspended in a backend call, or ends the process; one
round more than there are unread bytes is always enough. -/
theorem workerHandler_total {σ : Type} (impl : Store σ) (xxh64 : Key → Nat) (t : Conn σ) :
    ∃ o, workerHandler impl xxh64 t = some o :=
  workerHandlerLoop_total impl xxh64 (t.input.unread.length + 1) t (by omega)

/-! ## The owner loop: waiters sit only on entries without a value -/

theorem worker_keeps_WaitersInv (kv : KV) (req : request) (st : WorkerStep)
    (wasSet : Key → Prop) (hinv : WaitersInv kv wasSet) (h : worker kv req = some st) :
    WaitersInv st.kv (fun k => wasSet k ∨ (req.Query = .SET ∧ req.Key = k)) := by
  obtain ⟨hw, hs⟩ := hinv
  -- the map is unchanged and the request is no SET
  have same : ∀ (kv2 : KV), kv2 = kv → req.Query ≠ .SET →
      WaitersInv kv2 (fun k => wasSet k ∨ (req.Query = .SET ∧ req.Key = k)) := by
    intro kv2 hkv hq
    subst hkv
    refine ⟨fun k e he hne => ⟨(hw k e he hne).1, ?_⟩, fun k hk => ?_⟩
    · rintro (hk | ⟨hq2, -⟩)
      · exact (hw k e he hne).2 hk
      · exact hq hq2
    · rcases hk with hk | ⟨hq2, -⟩
      · exact hs k hk
      · exact absurd hq2 hq
  -- the entry of the request's key is replaced and the request is no SET
  have upd : ∀ (e2 : entry), req.Query ≠ .SET → (∃ e0, kv req.Key = some e0 ∨ ¬ wasSet req.Key) →
      (e2.Waiters ≠ [] → e2.Value = none ∧ ¬ wasSet req.Key) →
      WaitersInv (Function.update kv req.Key (some e2))
        (fun k => wasSet k ∨ (req.Query = .SET ∧ req.Key = k)) := by
    intro e2 hq _ he2
    refine ⟨fun k e he hne => ?_, fun k hk => ?_⟩
    · by_cases hk : k = req.Key
      · subst hk
        rw [Function.update_same] at he
        cases he
        refine ⟨(he2 hne).1, ?_⟩
        rintro (h1 | ⟨hq2, -⟩)
        · exact (he2 hne).2 h1
        · exact hq hq2
      · rw [Function.update_noteq hk] at he
        refine ⟨(hw k e he hne).1, ?_⟩
        rintro (h1 | ⟨hq2, -⟩)
        · exact (hw k e he hne).2 h1
        · exact hq hq2
    · by_cases hkk : k = req.Key
      · subst hkk
        exact ⟨e2, Function.update_same _ _ _⟩
      · rw [Function.update_noteq hkk]
        rcases hk with hk | ⟨hq2, -⟩
        · exact hs k hk
        · exact absurd hq2 hq
  unfold worker at h
  split at h
  · -- GET
    rename_i hq
    have hne : req.Query ≠ .SET := by rw [hq]; decide
    split at h <;> (simp only [Option.some.injEq] at h; subst h; exact same _ rfl hne)
  · -- SET
    rename_i hq
    simp only [Option.some.injEq] at h
    subst h
    show WaitersInv (Function.update kv req.Key (some { Value := req.Value, Waiters := [] })) _
    refine ⟨fun k e he hne => ?_, fun k hk => ?_⟩
    · by_cases hk : k = req.Key
      · subst hk
        rw [Function.update_same] at he
        cases he
        exact absurd rfl hne
      · rw [Function.update_noteq hk] at he
        refine ⟨(hw k e he hne).1, ?_⟩
        rintro (h1 | ⟨-, h2⟩)
        · exact (hw k e he hne).2 h1
        · exact hk h2.symm
    · by_cases hkk : k = req.Key
      · subst hkk
        exact ⟨_, Function.update_same _ _ _⟩
      · rw [Function.update_noteq hkk]
        rcases hk with hk | ⟨-, h2⟩
        · exact hs k hk
        · exact absurd h2.symm hkk
  · -- WAIT
    rename_i hq
    have hne : req.Query ≠ .SET := by rw [hq]; decide
    split at h
    · rename_i hnone
      simp only [Option.some.injEq] at h
      subst h
      have hnot : ¬ wasSet req.Key := by
        intro hk
        obtain ⟨e, he⟩ := hs req.Key hk
        rw [hnone] at he
        cases he
      exact upd _ hne ⟨{}, Or.inr hnot⟩ (fun _ => ⟨rfl, hnot⟩)
    · rename_i e hsome
      split at h
      · rename_i hlen
        simp only [Option.some.injEq] at h
        subst h
        have hwne : e.Waiters ≠ [] := by
          intro h0
          rw [h0] at hlen
          simp at hlen
        exact upd _ hne ⟨e, Or.inl hsome⟩ (fun _ => hw req.Key e hsome hwne)
      · simp only [Option.some.injEq] at h
        subst h
        exact same _ rfl hne
  · -- ADD
    rename_i hq
    have hne : req.Query ≠ .SET := by rw [hq]; decide
    split at h
    · rename_i e hsome
      split at h
      · cases h
      · rename_i v0 hv0
        dsimp only at h
        split at h
        · cases h
        · rename_i value hvalue
          simp only [Option.some.injEq] at h
          subst h
          refine upd _ hne ⟨e, Or.inl hsome⟩ (fun hwne => ?_)
          have hnil := (hw req.Key e hsome hwne).1
          rw [hnil] at hv0
          simp [leUint64, Slice.len] at hv0
    · simp only [Option.some.injEq] at h
      subst h
      exact same _ rfl hne
  · -- any other query
    rename_i hq1 hq2 hq3 hq4
    have hne : req.Query ≠ .SET := fun hq => hq2 hq
    simp only [Option.some.injEq] at h
    subst h
    exact same _ rfl hne

theorem WaitersInv_congr (kv : KV) (p q : Key → Prop) (hpq : ∀ k, p k ↔ q k)
    (h : WaitersInv kv p) : WaitersInv kv q :=
  ⟨fun k e he hne => ⟨(h.1 k e he hne).1, fun hq => (h.1 k e he hne).2 ((hpq k).mpr hq)⟩,
    fun k hk => h.2 k ((hpq k).mpr hk)⟩

theorem workerRun_keeps_WaitersInv : ∀ (reqs : List request) (kv0 kv : KV) (wasSet : Key → Prop),
    WaitersInv kv0 wasSet → workerRun kv0 reqs = some kv →
    WaitersInv kv (fun k => wasSet k ∨ ∃ req ∈ reqs, req.Query = .SET ∧ req.Key = k) := by
  intro reqs
  induction reqs with
  | nil =>
    intro kv0 kv wasSet hinv h
    simp only [workerRun, Option.some.injEq] at h
    subst h
    exact WaitersInv_congr _ _ _ (fun k => by simp) hinv
  | cons req reqs ih =>
    intro kv0 kv wasSet hinv h
    unfold workerRun at h
    split at h
    · cases h
    · rename_i st hst
      have h1 := worker_keeps_WaitersInv kv0 req st wasSet hinv hst
      have h2 := ih st.kv kv _ h1 h
      refine WaitersInv_congr _ _ _ (fun k => ?_) h2
      simp only [List.mem_cons, exists_eq_or_imp]
      tauto

/-- C21 (invariant of the owner loop). In every map the owner loop reaches
from the empty map by handling requests without a panic (GET, SET, WAIT, ADD
or any other query), every entry whose waiter list is not empty holds the nil
value and no SET request ever named its key; so no entry that holds a value
has a registered waiter. -/
theorem waiters_only_on_entries_without_value (reqs : List request) (kv : KV)
    (h : workerRun (fun _ => none) reqs = some kv) :
    ∀ k e, kv k = some e →
      (e.Waiters ≠ [] →
        e.Value = none ∧ ∀ req ∈ reqs, req.Query = .SET → req.Key ≠ k) ∧
      (e.Value ≠ none → e.Waiters = []) := by
  have hinit : WaitersInv (fun _ => none) (fun _ => False) :=
    ⟨fun k e he => (by cases he), fun k hk => hk.elim⟩
  have hinv := workerRun_keeps_WaitersInv reqs _ kv _ hinit h
  intro k e he
  have key_fact : e.Waiters ≠ [] →
      e.Value = none ∧ ∀ req ∈ reqs, req.Query = .SET → req.Key ≠ k := by
    intro hne
    obtain ⟨hv, hns⟩ := hinv.1 k e he hne
    exact ⟨hv, fun req hreq hq hk => hns (Or.inr ⟨req, hreq, hq, hk⟩)⟩
  refine ⟨key_fact, fun hval => ?_⟩
  by_contra hne
  exact hval (key_fact hne).1

/-- C21 on `sampleRequests`: the run does not panic; afterwards "B" has the
two waiters and the nil value, "A" has a value and no waiter, and no SET
request named "B". -/
theorem waiters_only_on_entries_without_value_witness :
    ∃ kv, workerRun (fun _ => none) sampleRequests = some kv ∧
      kv [66] = some { Value := none, Waiters := [7, 8] } ∧
      kv [65] = some { Value := some [3, 0, 0, 0, 0, 0, 0, 0], Waiters := [] } ∧
      (∀ req ∈ sampleRequests, req.Query = .SET → req.Key ≠ [66]) := by
  have hrun : ∃ kv, workerRun (fun _ => none) sampleRequests = some kv ∧
      kv [66] = some { Value := none, Waiters := [7, 8] } ∧
      kv [65] = some { Value := some [3, 0, 0, 0, 0, 0, 0, 0], Waiters := [] } :=
    ⟨_, rfl, rfl, rfl⟩
  obtain ⟨kv, h, hB, hA⟩ := hrun
  have hc := (waiters_only_on_entries_without_value sampleRequests kv h [66] _ hB).1 (by simp)
  exact ⟨kv, h, hB, hA, hc.2⟩

end TcpStore
